import Mathlib

/-!
# pmm-dump: chunk pool, TSV codec and command-line helpers

A shallow embedding of `pkg/dump/dump.go` (chunk descriptors and the chunk pool),
`pkg/clickhouse/tsv/tsv.go` (the tab-separated reader, writer and value decoder) and of
the pure parts of `cmd/pmm-dump/util.go` (argument masking, version check, byte counts),
followed by theorems about them.

Conventions of the embedding:

* a Go `string` is its sequence of bytes, `Str = List Nat` (each entry a byte value);
  `bytes "..."` gives the UTF-8 bytes of a Lean string literal;
* a Go function returning `(T, error)` becomes a function into `Res T`, where a
  `Fault` is either a returned `error` or a run-time panic;
* one caller of the pool is a state machine whose steps are whole `Next` calls; concurrent
  callers are a `Run`, in which the mutex is a field of the state and every caller moves
  through `Next` statement by statement (`Lock`, the test, the fetch, the read and the
  write of the cursor, `Unlock`), interleaved in any order;
* the routines of the Go standard library that the code calls (`strconv.ParseInt`,
  `strconv.ParseUint`, `strings.TrimSpace`, `strings.Split`, `encoding/csv`'s writer,
  `fmt`'s `%d`, `time.Parse` for the one layout in use) are embedded after the library's
  behaviour; float parsing is a parameter (`Extern`), time parsing is a parameter that
  `Extern.withTime` fills with the embedded `time.Parse`, and the record that
  `csv.Reader.Read` returns is an input of `Reader.Read`;
* loops whose termination is part of a property take a fuel argument and return `none`
  when it runs out.
-/

/-! ## Part 1: definitions -/

/-- Go strings are byte sequences. -/
abbrev Str := List Nat

/-- UTF-8 encoding of the code point `n`. -/
def utf8 (n : Nat) : Str :=
  if n < 128 then [n]
  else if n < 2048 then [192 + n / 64, 128 + n % 64]
  else if n < 65536 then [224 + n / 4096, 128 + n / 64 % 64, 128 + n % 64]
  else [240 + n / 262144, 128 + n / 4096 % 64, 128 + n / 64 % 64, 128 + n % 64]

/-- The bytes of a string literal. -/
def bytes (s : String) : Str := s.toList.flatMap (fun c => utf8 c.toNat)

/-- Go `error` values, kept as structured data instead of message text.
`num fn s isRange` is a `*strconv.NumError` with `Func = fn`, `Num = s` and
`Err = ErrRange` when `isRange`, `ErrSyntax` otherwise; `text m` is `errors.New(m)`;
`parsing e` is `errors.New(fmt.Sprintf("parsing error: %s", e.Error()))`;
`ext tag` is an error returned by a library routine that is a parameter of the model. -/
inductive Err where
  | text (m : String)
  | num (fn : String) (s : Str) (isRange : Bool)
  | parsing (cause : Err)
  | ext (tag : Nat)
deriving DecidableEq, Repr

/-- Ways a call can end without a result: a returned error or a run-time panic. -/
inductive Fault where
  | err (e : Err)
  | panic (m : String)
deriving DecidableEq, Repr

/-- Outcome of a Go function returning `(T, error)`. -/
abbrev Res (α : Type) := Except Fault α

instance instDecidableEqExcept {ε α : Type} [DecidableEq ε] [DecidableEq α] :
    DecidableEq (Except ε α)
  | .ok a, .ok b => if h : a = b then isTrue (by rw [h]) else isFalse (fun h2 => h (by cases h2; rfl))
  | .error a, .error b =>
    if h : a = b then isTrue (by rw [h]) else isFalse (fun h2 => h (by cases h2; rfl))
  | .ok _, .error _ => isFalse (fun h => by cases h)
  | .error _, .ok _ => isFalse (fun h => by cases h)

/-- A `time.Time`: seconds since the Unix epoch, nanoseconds within the second and
the zone offset in seconds east of UTC. -/
structure GoTime where
  unix : Int
  nsec : Nat
  offset : Int
deriving DecidableEq, Repr

namespace dump

/-- Modelled from the spec: `SourceType` is declared outside the files at hand; the
spec calls it an enumerated tag, kept here as its integer code (zero value `0`). -/
abbrev SourceType := Int

/-- The struct `ChunkMeta`; the `*time.Time` bounds are optional. -/
structure ChunkMeta where
  Source : SourceType
  Start : Option GoTime
  End : Option GoTime
  Index : Int
  RowsLen : Int
deriving DecidableEq, Repr

/-- The zero value `ChunkMeta{}`. -/
def ChunkMeta.zero : ChunkMeta := ⟨0, none, none, 0, 0⟩

/-- The data of the struct `ChunkPool`: the plan and the cursor. Its mutex `mu` is the
field `mu` of a `Run`. -/
structure ChunkPool where
  chunks : List ChunkMeta
  currentIdx : Nat
deriving DecidableEq, Repr

/-- The constructor `NewChunkPool(c)`: an error on the empty plan, otherwise a pool with
cursor zero. -/
def NewChunkPool (c : List ChunkMeta) : Res ChunkPool :=
  if c.length = 0 then
    .error (.err (.text "failed to create empty chunk pool"))
  else
    .ok { chunks := c, currentIdx := 0 }

/-- The method `(*ChunkPool).Next` run by one caller from `Lock` to `Unlock`: the returned
pair and the pool afterwards. -/
def ChunkPool.Next (p : ChunkPool) : (ChunkMeta × Bool) × ChunkPool :=
  if p.currentIdx ≥ p.chunks.length then
    ((ChunkMeta.zero, false), p)
  else
    let m := p.chunks.getD p.currentIdx ChunkMeta.zero
    ((m, true), { p with currentIdx := p.currentIdx + 1 })

/-- The results of `n` successive `Next` calls, in call order, and the pool afterwards. -/
def nextN : Nat → ChunkPool → List (ChunkMeta × Bool) × ChunkPool
  | 0, p => ([], p)
  | n + 1, p =>
    let r := p.Next
    let rest := nextN n r.2
    (r.1 :: rest.1, rest.2)

/-- Where a caller stands inside `Next`: the statement that its next step executes.
A caller between two calls stands at `lock`, the first statement of the next call. -/
inductive Pc where
  | lock
  | test
  | fetch
  | load (m : ChunkMeta)
  | store (m : ChunkMeta) (i : Nat)
  | unlockMore (m : ChunkMeta)
  | unlockDone
deriving DecidableEq, Repr

/-- A concurrent run of callers on one pool: the shared pool, whether `p.mu` is locked,
the statement every caller stands at, the results handed out so far (caller, descriptor,
`more`) in the order in which the calls released the lock, and whether a run-time panic
ended the program. -/
structure Run where
  pool : ChunkPool
  mu : Bool
  pcs : Nat → Pc
  log : List (Nat × ChunkMeta × Bool)
  panicked : Bool

/-- The run in which no caller has started: the mutex is free and the log empty. -/
def Run.start (p : ChunkPool) : Run :=
  { pool := p, mu := false, pcs := fun _ => .lock, log := [], panicked := false }

/-- The statement map with caller `t` moved to `pc`. -/
def setPc (pcs : Nat → Pc) (t : Nat) (pc : Pc) : Nat → Pc :=
  fun u => if u = t then pc else pcs u

/-- One step of caller `t` in `Next`, statement by statement:
`lock` is `p.mu.Lock()`, which does nothing while another caller holds the mutex;
`test` is `if p.currentIdx >= len(p.chunks)`; `fetch` is `m := p.chunks[p.currentIdx]`;
`load` and `store` are the read and the write of `p.currentIdx++`; `unlockMore` and
`unlockDone` are the deferred `p.mu.Unlock()` together with `return m, true` and
`return ChunkMeta{}, false`. The logging statement does not touch the pool and is left
out. With `mutex = false` the statement `Lock` never waits: that is `Next` without its
mutex, kept for comparison. -/
def Run.step (mutex : Bool) (t : Nat) (s : Run) : Run :=
  if s.panicked then s
  else
    match s.pcs t with
    | .lock =>
      if mutex && s.mu then s
      else { s with mu := true, pcs := setPc s.pcs t .test }
    | .test =>
      if s.pool.currentIdx ≥ s.pool.chunks.length then
        { s with pcs := setPc s.pcs t .unlockDone }
      else { s with pcs := setPc s.pcs t .fetch }
    | .fetch =>
      match s.pool.chunks.get? s.pool.currentIdx with
      | none => { s with panicked := true }
      | some m => { s with pcs := setPc s.pcs t (.load m) }
    | .load m => { s with pcs := setPc s.pcs t (.store m s.pool.currentIdx) }
    | .store m i =>
      { s with pool := { s.pool with currentIdx := i + 1 }, pcs := setPc s.pcs t (.unlockMore m) }
    | .unlockMore m =>
      { s with mu := false, pcs := setPc s.pcs t .lock, log := s.log ++ [(t, m, true)] }
    | .unlockDone =>
      { s with mu := false, pcs := setPc s.pcs t .lock,
               log := s.log ++ [(t, ChunkMeta.zero, false)] }

/-- An interleaving is the list of callers in the order in which they take their steps;
`exec` runs it from a given state. -/
def Run.exec (mutex : Bool) : List Nat → Run → Run
  | [], s => s
  | t :: ts, s => Run.exec mutex ts (Run.step mutex t s)

end dump

namespace strings

/-- The code points for which `unicode.IsSpace` holds. -/
def spaceRunes : List Nat :=
  [9, 10, 11, 12, 13, 32, 0x85, 0xA0, 0x1680, 0x2000, 0x2001, 0x2002, 0x2003, 0x2004,
   0x2005, 0x2006, 0x2007, 0x2008, 0x2009, 0x200A, 0x2028, 0x2029, 0x202F, 0x205F, 0x3000]

/-- The UTF-8 encodings of the white-space code points. -/
def spaceSeqs : List Str := spaceRunes.map utf8

/-- Removes, at most `fuel` times, a leading byte sequence that is one of `seqs`. -/
def trimPrefixes (seqs : List Str) : Nat → Str → Str
  | 0, s => s
  | fuel + 1, s =>
    match seqs.find? (fun q => q.isPrefixOf s) with
    | some q => trimPrefixes seqs fuel (s.drop q.length)
    | none => s

/-- Go's `strings.TrimSpace(s)`: leading white-space runes are removed first, then trailing
ones from what is left. A rune is decoded as white space exactly when the bytes at that
end are the encoding of a white-space code point. -/
def TrimSpace (s : Str) : Str :=
  let l := trimPrefixes spaceSeqs s.length s
  (trimPrefixes (spaceSeqs.map List.reverse) l.length l.reverse).reverse

/-- Go's `strings.Split(s, sep)` for a separator of one byte: the pieces between successive
separators, `n + 1` pieces for `n` separators. -/
def Split (sep : Nat) : Str → List Str
  | [] => [[]]
  | c :: cs =>
    if c = sep then [] :: Split sep cs
    else
      match Split sep cs with
      | [] => [[c]]
      | piece :: pieces => (c :: piece) :: pieces

end strings

namespace strconv

/-- The function `lower`: `c | ('x' - 'X')`. -/
def lower (c : Nat) : Nat := c ||| 32

/-- A `*NumError` with `Err = ErrSyntax`. -/
def syntaxError (fn : String) (s : Str) : Err := .num fn s false

/-- A `*NumError` with `Err = ErrRange`. -/
def rangeError (fn : String) (s : Str) : Err := .num fn s true

/-- The value of byte `c` read as a digit or letter, as in the `switch` of `ParseUint`. -/
def digitVal (c : Nat) : Option Nat :=
  if 48 ≤ c ∧ c ≤ 57 then some (c - 48)
  else if 97 ≤ lower c ∧ lower c ≤ 122 then some (lower c - 97 + 10)
  else none

/-- The digit loop of `strconv.ParseUint` for base 10 on the bytes still to read, with
`n` the `uint64` accumulated so far; `cutoff = maxUint64/10 + 1`. -/
def parseUintLoop (s0 : Str) (maxVal : Nat) : Str → Nat → Nat × Option Err
  | [], n => (n, none)
  | c :: cs, n =>
    match digitVal c with
    | none => (0, some (syntaxError "ParseUint" s0))
    | some d =>
      if d ≥ 10 then (0, some (syntaxError "ParseUint" s0))
      else if n ≥ (2 ^ 64 - 1) / 10 + 1 then (maxVal, some (rangeError "ParseUint" s0))
      else
        let n10 := n * 10 % 2 ^ 64
        let n1 := (n10 + d) % 2 ^ 64
        if n1 < n10 ∨ n1 > maxVal then (maxVal, some (rangeError "ParseUint" s0))
        else parseUintLoop s0 maxVal cs n1

/-- Go's `strconv.ParseUint(s, 10, bitSize)` for `1 ≤ bitSize ≤ 64`: the returned `uint64`
and the error, if any. -/
def ParseUint (s : Str) (bitSize : Nat) : Nat × Option Err :=
  if s = [] then (0, some (syntaxError "ParseUint" s))
  else parseUintLoop s (2 ^ bitSize - 1) s 0

/-- Conversion of an integer to the signed type of `w` bits (two's complement wrap). -/
def toSigned (w : Nat) (x : Int) : Int := (x + 2 ^ (w - 1)) % 2 ^ w - 2 ^ (w - 1)

/-- Go's `strconv.ParseInt(s, 10, bitSize)` for `1 ≤ bitSize ≤ 64`: the returned `int64` and
the error, if any. -/
def ParseInt (s : Str) (bitSize : Nat) : Int × Option Err :=
  match s with
  | [] => (0, some (syntaxError "ParseInt" s))
  | c :: rest =>
    let neg := decide (c = 45)
    let digits := if c = 43 ∨ c = 45 then rest else s
    match ParseUint digits bitSize with
    | (_, some (.num _ _ false)) => (0, some (syntaxError "ParseInt" s))
    | (un, _) =>
      let cutoff := 2 ^ (bitSize - 1)
      if !neg && un ≥ cutoff then (cutoff - 1, some (rangeError "ParseInt" s))
      else if neg && un > cutoff then (-(cutoff : Int), some (rangeError "ParseInt" s))
      else
        let n := toSigned 64 un
        (if neg then toSigned 64 (-n) else n, none)

end strconv

namespace reflect

/-- The values of `reflect.Kind` other than `Slice`; a slice type is `RType.slice`. -/
inductive Kind where
  | Invalid | Bool | Int | Int8 | Int16 | Int32 | Int64
  | Uint | Uint8 | Uint16 | Uint32 | Uint64 | Uintptr
  | Float32 | Float64 | Complex64 | Complex128
  | Array | Chan | Func | Interface | Map | Pointer | String | Struct | UnsafePointer
deriving DecidableEq, Repr

/-- A `reflect.Type` as far as the decoder inspects it: a slice type with its `Elem()`,
or any other type with its `Kind()` and `Name()`. -/
inductive RType where
  | plain (kind : Kind) (name : Str)
  | slice (elem : RType)
deriving DecidableEq, Repr

end reflect

namespace tsv

open reflect

/-- A decoded value, the dynamic content of the `interface{}` that `parseElement`
returns. Floating-point values are kept as their bit patterns. -/
inductive Value where
  | int8 (v : Int) | int16 (v : Int) | int32 (v : Int) | int64 (v : Int)
  | uint8 (v : Nat) | uint16 (v : Nat) | uint32 (v : Nat) | uint64 (v : Nat)
  | float32 (bits : Nat) | float64 (bits : Nat)
  | str (s : Str)
  | time (t : GoTime)
  | slice (vs : List Value)
deriving Repr

/-- Library routines the decoder calls that are taken as parameters:
`ParseFloat s bitSize` is `strconv.ParseFloat`, returning the bits of the `float64`;
`toFloat32` is the conversion `float32(x)`; `timeParse layout value` is `time.Parse`. -/
structure Extern where
  ParseFloat : Str → Nat → Except Err Nat
  toFloat32 : Nat → Nat
  timeParse : Str → Str → Except Err GoTime

/-- A library in which float and time parsing always fail; used where they are not reached. -/
def Extern.failing : Extern :=
  { ParseFloat := fun _ _ => .error (.ext 0), toFloat32 := id, timeParse := fun _ _ => .error (.ext 1) }

/-- The loop of `parseSlice`: decode the elements in order, stop at the first failure. -/
def decodeAll (dec : Str → Res Value) : List Str → List Value → Res (List Value)
  | [], result => .ok result
  | v :: vs, result =>
    match dec v with
    | .error e => .error e
    | .ok value => decodeAll dec vs (result ++ [value])

/-- The function `parseSlice(slice, st)`, with `dec v` standing for `parseElement(v, st)`. The
expression `slice[1 : len(slice)-1]` panics when `len(slice) < 2`. -/
def parseSlice (dec : Str → Res Value) (slice : Str) : Res Value :=
  if slice.length < 2 then .error (.panic "slice bounds out of range")
  else
    let slice := strings.TrimSpace ((slice.drop 1).take (slice.length - 2))
    let elements := strings.Split 44 slice
    if slice = [] then .ok (.slice [])
    else
      match decodeAll dec elements [] with
      | .error e => .error e
      | .ok result => .ok (.slice result)

/-- Turns the pair returned by `ParseInt`/`ParseUint` into the decoder's outcome. -/
def fromNum {α : Type} (r : α × Option Err) (mk : α → Value) : Res Value :=
  match r with
  | (_, some e) => .error (.err e)
  | (result, none) => .ok (mk result)

/-- The function `parseElement(record, st)`: dispatch on `st.Kind()`, and on `st.Name()`
for the kinds without a case of their own. -/
def parseElement (x : Extern) (record : Str) : RType → Res Value
  | .slice elem => parseSlice (fun v => parseElement x v elem) record
  | .plain .Int8 _ => fromNum (strconv.ParseInt record 8) (fun r => .int8 (strconv.toSigned 8 r))
  | .plain .Int16 _ => fromNum (strconv.ParseInt record 16) (fun r => .int16 (strconv.toSigned 16 r))
  | .plain .Int32 _ => fromNum (strconv.ParseInt record 32) (fun r => .int32 (strconv.toSigned 32 r))
  | .plain .Int64 _ => fromNum (strconv.ParseInt record 64) .int64
  | .plain .Uint8 _ => fromNum (strconv.ParseUint record 8) (fun r => .uint8 (r % 2 ^ 8))
  | .plain .Uint16 _ => fromNum (strconv.ParseUint record 16) (fun r => .uint16 (r % 2 ^ 16))
  | .plain .Uint32 _ => fromNum (strconv.ParseUint record 32) (fun r => .uint32 (r % 2 ^ 32))
  | .plain .Uint64 _ => fromNum (strconv.ParseUint record 64) .uint64
  | .plain .Float32 _ =>
    match x.ParseFloat record 32 with
    | .error e => .error (.err e)
    | .ok result => .ok (.float32 (x.toFloat32 result))
  | .plain .Float64 _ =>
    match x.ParseFloat record 64 with
    | .error e => .error (.err e)
    | .ok result => .ok (.float64 result)
  | .plain .String _ => .ok (.str record)
  | .plain _ name =>
    if name = bytes "Time" then
      match x.timeParse (bytes "2006-01-02 15:04:05 -0700 UTC") record with
      | .error e => .error (.err e)
      | .ok t => .ok (.time t)
    else .error (.err (.text "unknown type"))

/-- The loop of `Reader.Read` over `records` from index `i` on, `values` holding the
values decoded so far; `ct` lists the scan types `ct[i].ScanType()`. -/
def readLoop (x : Extern) (ct : List RType) : Nat → List Str → List Value → Res (List Value)
  | _, [], values => .ok values
  | i, record :: rest, values =>
    match ct.get? i with
    | none => .error (.panic "index out of range")
    | some st =>
      match parseElement x record st with
      | .error (.err e) => .error (.err (.parsing e))
      | .error (.panic m) => .error (.panic m)
      | .ok value => readLoop x ct (i + 1) rest (values ++ [value])

/-- The method `(*Reader).Read(ct)`, where `next` is what the embedded `csv.Reader.Read()` returns
for the record at the stream position. -/
def Reader.Read (x : Extern) (next : Except Err (List Str)) (ct : List RType) : Res (List Value) :=
  match next with
  | .error e => .error (.err e)
  | .ok records =>
    if ct.length ≠ records.length then .error (.err (.text "amount of columns mismatch"))
    else readLoop x ct 0 records []

end tsv

namespace csv

/-- A `csv.Writer`: its settings and the bytes handed to its buffered writer so far. -/
structure Writer where
  Comma : Nat
  UseCRLF : Bool
  out : Str
deriving DecidableEq, Repr

/-- Go's `csv.NewWriter(w)` on a sink that holds nothing yet. -/
def NewWriter : Writer := { Comma := 44, UseCRLF := false, out := [] }

/-- The function `validDelim`. -/
def validDelim (r : Nat) : Bool :=
  r ≠ 0 ∧ r ≠ 34 ∧ r ≠ 13 ∧ r ≠ 10 ∧ r < 0x110000 ∧ ¬ (0xD800 ≤ r ∧ r ≤ 0xDFFF) ∧ r ≠ 0xFFFD

/-- Whether `q` occurs in `s` as a contiguous run of bytes. -/
def containsSeq (q : Str) : Str → Bool
  | [] => q.isEmpty
  | c :: cs => q.isPrefixOf (c :: cs) || containsSeq q cs

/-- Go's `(*csv.Writer).fieldNeedsQuotes(field)`. -/
def Writer.fieldNeedsQuotes (w : Writer) (field : Str) : Bool :=
  if field = [] then false
  else if field = bytes "\\." then true
  else if (if w.Comma < 128 then field.any (fun c => c = 10 ∨ c = 13 ∨ c = 34 ∨ c = w.Comma)
      else containsSeq (utf8 w.Comma) field || field.any (fun c => c = 34 ∨ c = 13 ∨ c = 10))
    then true
  else strings.spaceSeqs.any (fun q => q.isPrefixOf field)

/-- The body of a quoted field: `"` is doubled; with `UseCRLF` a `\r` is dropped and a
`\n` becomes `\r\n`; every other byte is copied. -/
def Writer.quoteBody (w : Writer) : Str → Str
  | [] => []
  | c :: cs =>
    (if c = 34 then [34, 34]
     else if c = 13 then (if w.UseCRLF then [] else [13])
     else if c = 10 then (if w.UseCRLF then [13, 10] else [10])
     else [c]) ++ Writer.quoteBody w cs

/-- The bytes written for one field. -/
def Writer.encodeField (w : Writer) (field : Str) : Str :=
  if w.fieldNeedsQuotes field then [34] ++ w.quoteBody field ++ [34] else field

/-- The field loop of `(*Writer).Write`: a `Comma` before every field but the first. -/
def Writer.writeFields (w : Writer) : Nat → List Str → Str
  | _, [] => []
  | n, field :: rest =>
    (if n > 0 then utf8 w.Comma else []) ++ w.encodeField field ++ Writer.writeFields w (n + 1) rest

/-- Go's `(*csv.Writer).Write(record)` on a sink that accepts every byte. -/
def Writer.Write (w : Writer) (record : List Str) : Res Writer :=
  if !validDelim w.Comma then .error (.err (.text "csv: invalid field or comment delimiter"))
  else
    .ok { w with out := w.out ++ w.writeFields 0 record ++ (if w.UseCRLF then [13, 10] else [10]) }

/-- Go's `(*csv.Writer).Flush()`: afterwards the sink holds every byte written. -/
def Writer.Flush (w : Writer) : Str := w.out

end csv

namespace tsv

/-- The constructor `NewWriter(w)`: a `csv.Writer` whose `Comma` is the tab character. -/
def NewWriter : csv.Writer := { csv.NewWriter with Comma := 9 }

/-- Writes the rows in order with `Write`, stopping at the first error. -/
def writeRows : csv.Writer → List (List Str) → Res csv.Writer
  | w, [] => .ok w
  | w, row :: rows =>
    match w.Write row with
    | .error e => .error e
    | .ok w1 => writeRows w1 rows

end tsv

namespace fmt

/-- The base-10 digit loop of `fmt`'s integer formatting: digits of `u` are written
from the right into the buffer in front of `buf`. -/
def fmtDigits : Nat → Nat → Str → Str
  | 0, _, buf => buf
  | fuel + 1, u, buf =>
    if u ≥ 10 then fmtDigits fuel (u / 10) ((48 + u - u / 10 * 10) :: buf)
    else (48 + u) :: buf

/-- The verb `%d` applied to an `int64`: `u := uint64(v)`, negated (as a `uint64`) when
`v` is negative, then the digits and the sign. -/
def fmtInteger (v : Int) : Str :=
  let u0 := (v % 2 ^ 64).toNat
  let negative := decide (v < 0)
  let u := if negative then (2 ^ 64 - u0) % 2 ^ 64 else u0
  let digits := fmtDigits (u + 1) u []
  if negative then 45 :: digits else digits

end fmt

namespace dump

/-- The `int64` that `(Time).Unix()` returns. -/
def GoTime.Unix (t : GoTime) : Int := strconv.toSigned 64 t.unix

/-- The method `(ChunkMeta).String`: `fmt.Sprintf("%d-%d", s, e)` with `s`, `e` the Unix
seconds of the bounds that are present and zero for those that are absent. -/
def ChunkMeta.String (c : ChunkMeta) : Str :=
  let s : Int := match c.Start with
    | some t => GoTime.Unix t
    | none => 0
  let e : Int := match c.End with
    | some t => GoTime.Unix t
    | none => 0
  fmt.fmtInteger s ++ bytes "-" ++ fmt.fmtInteger e

end dump

namespace main

/-- The constant `minPMMServerVersion`. -/
def minPMMServerVersion : Str := bytes "2.12.0"

/-- Go's `<` on strings: byte-wise lexicographic order. -/
def stringLess : Str → Str → Bool
  | [], [] => false
  | [], _ :: _ => true
  | _ :: _, [] => false
  | a :: as, b :: bs => decide (a < b) || (decide (a = b) && stringLess as bs)

/-- The condition `pmmVer < minPMMServerVersion` under which `checkVersionSupport` logs
that the server version is lower than the minimum required. -/
def checkVersionSupport (pmmVer : Str) : Bool := stringLess pmmVer minPMMServerVersion

/-- The argument loop of `composeMeta` from index `i` on: `rest` is what is left of
`os.Args[1:]` and `args` the string built so far. -/
def composeMetaLoop (pmmURL : Str) (osArgs : List Str) : Nat → List Str → Str → Res Str
  | _, [], args => .ok args
  | i, v :: rest, args =>
    let args1 := if i ≠ 0 then args ++ bytes " " else args
    match osArgs.get? i with
    | none => .error (.panic "index out of range")
    | some prev =>
      composeMetaLoop pmmURL osArgs (i + 1) rest
        (if prev = bytes "--pmm-url" then args1 ++ pmmURL
         else if prev = bytes "--pmm-user" then args1 ++ bytes "***"
         else if prev = bytes "--pmm-pass" then args1 ++ bytes "***"
         else args1 ++ v)

/-- The field `Arguments` that `composeMeta` computes from `os.Args`; `os.Args[1:]` panics
on an empty `os.Args`. -/
def composeMeta (pmmURL : Str) (osArgs : List Str) : Res Str :=
  match osArgs with
  | [] => .error (.panic "slice bounds out of range")
  | _ :: rest => composeMetaLoop pmmURL osArgs 0 rest []

/-- What `ByteCountDecimal` and `ByteCountBinary` return: `plain text` is the string of
`Sprintf("%d B", b)`; `scaled b div suffix` stands for
`Sprintf("%.1f %cB", float64(b)/float64(div), suffix)` (binary: `%ciB`). -/
inductive ByteText where
  | plain (text : Str)
  | scaled (b div : Int) (suffix : Nat)
deriving DecidableEq, Repr

/-- The loop `for n := b / unit; n >= unit; n /= unit { div *= unit; exp++ }` on `int64`
values, run for at most `fuel` tests of its condition; the result is `(div, exp)` at exit. -/
def byteCountLoop (unit : Int) : Nat → Int → Int → Nat → Option (Int × Nat)
  | 0, _, _, _ => none
  | fuel + 1, n, div, exp =>
    if n ≥ unit then
      byteCountLoop unit fuel (n.tdiv unit) (strconv.toSigned 64 (div * unit)) (exp + 1)
    else some (div, exp)

/-- The common body of the two functions for a given `unit` and suffix table. -/
def byteCount (unit : Int) (table : Str) (fuel : Nat) (b : Int) : Option (Res ByteText) :=
  if b < unit then some (.ok (.plain (fmt.fmtInteger b ++ bytes " B")))
  else
    match byteCountLoop unit fuel (b.tdiv unit) unit 0 with
    | none => none
    | some (div, exp) =>
      match table.get? exp with
      | none => some (.error (.panic "index out of range"))
      | some suffix => some (.ok (.scaled b div suffix))

/-- The function `ByteCountDecimal(b)`, its loop run with `fuel`. -/
def ByteCountDecimal (fuel : Nat) (b : Int) : Option (Res ByteText) :=
  byteCount 1000 (bytes "kMGTPE") fuel b

/-- The function `ByteCountBinary(b)`, its loop run with `fuel`. -/
def ByteCountBinary (fuel : Nat) (b : Int) : Option (Res ByteText) :=
  byteCount 1024 (bytes "KMGTPE") fuel b

end main

namespace gotime

/-- The errors of `time.Parse` (`*ParseError`), by cause: text that cannot be parsed, a
field out of range, text left over. -/
def errBad : Err := .ext 2

/-- A `*ParseError` for a field out of range. -/
def errRange : Err := .ext 3

/-- A `*ParseError` for extra text after the layout. -/
def errExtra : Err := .ext 4

/-- The function `isDigit(s, i)`. -/
def isDigit (s : Str) (i : Nat) : Bool :=
  match s.get? i with
  | none => false
  | some c => decide (48 ≤ c ∧ c ≤ 57)

/-- The function `getnum(s, fixed)`: one or two leading digits, two when `fixed`. -/
def getnum (s : Str) (fixed : Bool) : Option (Nat × Str) :=
  if !isDigit s 0 then none
  else if !isDigit s 1 then
    if fixed then none else some (s.headD 0 - 48, s.drop 1)
  else some ((s.headD 0 - 48) * 10 + ((s.drop 1).headD 0 - 48), s.drop 2)

/-- The function `cutspace(s)`: `s` without its leading spaces. -/
def cutspace (s : Str) : Str := s.dropWhile (fun c => c = 32)

/-- The function `skip(value, prefix)`, its loop run at most `fuel` times: a space in the
layout stands for any run of spaces in the value, every other byte for itself. -/
def skipLoop : Nat → Str → Str → Option Str
  | 0, _, _ => none
  | fuel + 1, value, pre =>
    match pre with
    | [] => some value
    | c :: cs =>
      if c = 32 then
        if value ≠ [] ∧ value.head? ≠ some 32 then none
        else skipLoop fuel (cutspace value) (cutspace (c :: cs))
      else
        match value with
        | [] => none
        | v :: vs => if v ≠ c then none else skipLoop fuel vs cs

/-- The function `skip(value, prefix)`; every round of its loop shortens the prefix. -/
def skip (value pre : Str) : Option Str := skipLoop (pre.length + 1) value pre

/-- The function `leadingInt(s)`: the number made by the leading digits and the rest;
`none` on overflow beyond `1 << 63`. -/
def leadingInt : Str → Nat → Option (Nat × Str)
  | [], x => some (x, [])
  | c :: cs, x =>
    if c < 48 ∨ c > 57 then some (x, c :: cs)
    else if x > 2 ^ 63 / 10 then none
    else if x * 10 + c - 48 > 2 ^ 63 then none
    else leadingInt cs (x * 10 + c - 48)

/-- The function `atoi(s)`: an optional sign and digits up to the end of the text. -/
def atoi (s : Str) : Option Int :=
  let neg := decide (s.head? = some 45)
  let digits := if s.head? = some 45 ∨ s.head? = some 43 then s.drop 1 else s
  match leadingInt digits 0 with
  | none => none
  | some (q, rem) =>
    if rem ≠ [] then none
    else some (if neg then -(q : Int) else (q : Int))

/-- The function `isLeap(year)`. -/
def isLeap (year : Int) : Bool := year % 4 = 0 ∧ (year % 100 ≠ 0 ∨ year % 400 = 0)

/-- The table `daysBefore`: days of a non-leap year before each month. -/
def daysBefore : List Nat := [0, 31, 59, 90, 120, 151, 181, 212, 243, 273, 304, 334, 365]

/-- The function `daysIn(m, year)`. -/
def daysIn (m : Nat) (year : Int) : Nat :=
  if m = 2 ∧ isLeap year then 29
  else daysBefore.getD m 0 - daysBefore.getD (m - 1) 0

/-- Unix seconds of `Date(year, month, day, hour, min, sec, 0, UTC)` for fields in their
normal ranges (no normalisation of overflowing fields is modelled). -/
def unixDate (year : Int) (month day hour min sec : Nat) : Int :=
  let y := year - 1
  let days := 365 * y + y / 4 - y / 100 + y / 400 - 719162
    + (daysBefore.getD (month - 1) 0 : Nat)
    + (if isLeap year ∧ month ≥ 3 then 1 else 0) + ((day : Int) - 1)
  days * 86400 + (hour * 3600 + min * 60 + sec : Nat)

/-- The fractional second that `Parse` accepts after the seconds field when the layout
has none: a `.` or `,` and digits. Returns the nanoseconds (`parseNanoseconds`, at most
nine digits are used) and the rest of the value. -/
def parseFraction (value : Str) : Option (Nat × Str) :=
  if value.length ≥ 2 ∧ (value.headD 0 = 46 ∨ value.headD 0 = 44) ∧ isDigit value 1 then
    let n := 2 + ((value.drop 2).takeWhile (fun c => decide (48 ≤ c ∧ c ≤ 57))).length
    let nbytes := if n > 10 then 10 else n
    match atoi ((value.take nbytes).drop 1) with
    | none => none
    | some ns => some (ns.toNat * 10 ^ (10 - nbytes), value.drop n)
  else some (0, value)

/-- The numeric zone `-0700` of the layout: a sign and two digits each for hours and
minutes. Returns the offset in seconds and the rest of the value. -/
def parseZone (value : Str) : Except Err (Int × Str) :=
  if value.length < 5 then .error errBad
  else
    let sign := value.headD 0
    let hr := getnum ((value.drop 1).take 2) true
    let mm := getnum ((value.drop 3).take 2) true
    let rest := value.drop 5
    let hrv := match hr with
      | some (h, _) => h
      | none => 0
    let mmv := match hr, mm with
      | some _, some (m, _) => m
      | _, _ => 0
    if hrv > 24 ∨ mmv > 60 then .error errRange
    else if hr.isNone ∨ mm.isNone then .error errBad
    else if sign = 43 then .ok ((((hrv * 60 + mmv) * 60 : Nat) : Int), rest)
    else if sign = 45 then .ok (-(((hrv * 60 + mmv) * 60 : Nat) : Int), rest)
    else .error errBad

/-- The date part of the layout, `2006-01-02`: year, month and day with the value left. -/
def parseDate (value : Str) : Except Err (Int × Nat × Nat × Str) :=
  if value.length < 4 ∨ !isDigit value 0 then .error errBad
  else
    match atoi (value.take 4) with
    | none => .error errBad
    | some year =>
      match skip (value.drop 4) (bytes "-") with
      | none => .error errBad
      | some v1 =>
        match getnum v1 true with
        | none => .error errBad
        | some (month, v2) =>
          if month ≤ 0 ∨ 12 < month then .error errRange
          else
            match skip v2 (bytes "-") with
            | none => .error errBad
            | some v3 =>
              match getnum v3 true with
              | none => .error errBad
              | some (day, v4) => .ok (year, month, day, v4)

/-- The clock part of the layout, ` 15:04:05`: hour (one or two digits), minute, second
and an optional fractional second, with the value left. -/
def parseClock (value : Str) : Except Err (Nat × Nat × Nat × Nat × Str) :=
  match skip value (bytes " ") with
  | none => .error errBad
  | some v1 =>
    match getnum v1 false with
    | none => .error errBad
    | some (hour, v2) =>
      if 24 ≤ hour then .error errRange
      else
        match skip v2 (bytes ":") with
        | none => .error errBad
        | some v3 =>
          match getnum v3 true with
          | none => .error errBad
          | some (min, v4) =>
            if 60 ≤ min then .error errRange
            else
              match skip v4 (bytes ":") with
              | none => .error errBad
              | some v5 =>
                match getnum v5 true with
                | none => .error errBad
                | some (sec, v6) =>
                  if 60 ≤ sec then .error errRange
                  else
                    match parseFraction v6 with
                    | none => .error errBad
                    | some (nsec, v7) => .ok (hour, min, sec, nsec, v7)

/-- Go's `time.Parse(layout, value)` for the layout `2006-01-02 15:04:05 -0700 UTC`, chunk
by chunk as the library's loop takes them; no other layout is modelled. -/
def Parse (layout value : Str) : Except Err GoTime :=
  if layout ≠ bytes "2006-01-02 15:04:05 -0700 UTC" then .error (.ext 0)
  else
    match parseDate value with
    | .error e => .error e
    | .ok (year, month, day, v1) =>
      match parseClock v1 with
      | .error e => .error e
      | .ok (hour, min, sec, nsec, v2) =>
        match skip v2 (bytes " ") with
        | none => .error errBad
        | some v3 =>
          match parseZone v3 with
          | .error e => .error e
          | .ok (zoneOffset, v4) =>
            match skip v4 (bytes " UTC") with
            | none => .error errBad
            | some v5 =>
              if v5 ≠ [] then .error errExtra
              else if day < 1 ∨ day > daysIn month year then .error errRange
              else .ok ⟨unixDate year month day hour min sec - zoneOffset, nsec, zoneOffset⟩

end gotime

namespace tsv

/-- The library as the Go program has it for timestamps: `time.Parse` is the model above;
float parsing stays a parameter. -/
def Extern.withTime (x : Extern) : Extern := { x with timeParse := gotime.Parse }

end tsv

/-! ### Reference notions used to state the properties -/

namespace tsv

open reflect

/-- The lines the writer is said to emit: per row, the fields verbatim joined by one tab
and ended by a newline. -/
def plainLines (rows : List (List Str)) : Str :=
  rows.flatMap (fun row => List.intercalate [9] row ++ [10])

/-- Decimal digits of `n`, most significant first, put in front of `acc`. -/
def natDecimalAux : Nat → Nat → Str → Str
  | 0, _, acc => acc
  | fuel + 1, n, acc =>
    if n < 10 then (48 + n) :: acc
    else natDecimalAux fuel (n / 10) ((48 + n % 10) :: acc)

/-- The plain decimal text of a natural number: no sign, no padding. -/
def natDecimal (n : Nat) : Str := natDecimalAux (n + 1) n []

/-- The plain decimal text of an integer: a leading `-` for negatives, no other sign,
no padding. -/
def intDecimal (v : Int) : Str :=
  if v < 0 then 45 :: natDecimal v.natAbs else natDecimal v.natAbs

/-- The number that a run of decimal digits denotes, continuing from `n`. -/
def decVal (n : Nat) (ds : Str) : Nat := ds.foldl (fun a c => a * 10 + (c - 48)) n

/-- Whether every byte is a decimal digit. -/
def allDigits (ds : Str) : Bool := ds.all (fun c => 48 ≤ c ∧ c ≤ 57)

/-- The integer denoted by a decimal numeral: an optional leading `+` or `-` followed by
at least one digit and nothing else; `none` for malformed text. -/
def numeralValue (s : Str) : Option Int :=
  match s with
  | 43 :: ds => if ds ≠ [] ∧ allDigits ds then some (decVal 0 ds : Int) else none
  | 45 :: ds => if ds ≠ [] ∧ allDigits ds then some (-(decVal 0 ds : Int)) else none
  | ds => if ds ≠ [] ∧ allDigits ds then some (decVal 0 ds : Int) else none

/-- The kinds that `parseElement` decodes by kind: the eight fixed-width integers, the
two floats and string. -/
def decodedKind : Kind → Bool
  | .Int8 | .Int16 | .Int32 | .Int64 | .Uint8 | .Uint16 | .Uint32 | .Uint64 => true
  | .Float32 | .Float64 | .String => true
  | _ => false

/-- A non-array tag of the supported set: a kind decoded by kind, or a timestamp, which
is a type named `Time`. -/
def supportedScalar : RType → Bool
  | .plain k name => decodedKind k || decide (name = bytes "Time")
  | .slice _ => false

/-- The closed supported set: a supported non-array tag or an array of one. -/
def supported : RType → Bool
  | .plain k name => supportedScalar (.plain k name)
  | .slice elem => supportedScalar elem

/-- The text between the first and the last byte, `slice[1 : len(slice)-1]`. -/
def interior (record : Str) : Str := (record.drop 1).take (record.length - 2)

/-- Whether a field text is rejected for an integer type with range `lo..hi`: it is
malformed, or it denotes an integer outside the range. -/
def badNumeral (lo hi : Int) (s : Str) : Bool :=
  match numeralValue s with
  | none => true
  | some v => decide (v < lo) || decide (hi < v)

/-- Text that consists only of white space: a run of encodings of white-space code
points (possibly none). -/
def whiteSpace (w : Str) : Prop :=
  ∃ runs : List Str, (∀ q ∈ runs, q ∈ strings.spaceSeqs) ∧ w = runs.flatten

/-- The text of an array of integers: `[`, the decimal texts joined by `,`, then `]`. -/
def arrayText (xs : List Int) : Str :=
  [91] ++ List.intercalate [44] (xs.map intDecimal) ++ [93]

end tsv

namespace dump

end dump

namespace main

/-- The version string `major.minor.patch` with decimal components. -/
def versionText (major minor patch : Nat) : Str :=
  tsv.natDecimal major ++ bytes "." ++ tsv.natDecimal minor ++ bytes "." ++ tsv.natDecimal patch

/-- Whether `(major, minor, patch)` is below `(2, 12, 0)` in the lexicographic order on
numbers. -/
def numericallyLower (major minor patch : Nat) : Bool :=
  decide (major < 2) ||
    (decide (major = 2) && (decide (minor < 12) || (decide (minor = 12) && decide (patch < 0))))

/-- The string put in `Arguments` for the argument `v` that follows `prev` in `os.Args`. -/
def maskedArg (pmmURL prev v : Str) : Str :=
  if prev = bytes "--pmm-user" ∨ prev = bytes "--pmm-pass" then bytes "***"
  else if prev = bytes "--pmm-url" then pmmURL
  else v

end main

namespace gotime

/-- Two decimal digits of `n`. -/
def pad2 (n : Nat) : Str := [48 + n / 10 % 10, 48 + n % 10]

/-- Four decimal digits of `n`. -/
def pad4 (n : Nat) : Str := [48 + n / 1000 % 10, 48 + n / 100 % 10, 48 + n / 10 % 10, 48 + n % 10]

/-- The text of a timestamp in the fixed layout `YYYY-MM-DD HH:MM:SS ±hhmm UTC`. -/
def stampText (year month day hour min sec : Nat) (west : Bool) (offH offM : Nat) : Str :=
  pad4 year ++ bytes "-" ++ pad2 month ++ bytes "-" ++ pad2 day ++ bytes " " ++
  pad2 hour ++ bytes ":" ++ pad2 min ++ bytes ":" ++ pad2 sec ++ bytes " " ++
  [if west then 45 else 43] ++ pad2 offH ++ pad2 offM ++ bytes " UTC"

/-- Whether a text has the shape of the fixed layout: 29 bytes with digits, separators,
sign and the suffix ` UTC` at their places. -/
def matchesLayout (s : Str) : Bool :=
  s.length = 29 ∧
  ([0, 1, 2, 3, 5, 6, 8, 9, 11, 12, 14, 15, 17, 18, 21, 22, 23, 24].all (fun i => isDigit s i)) ∧
  s.get? 4 = some 45 ∧ s.get? 7 = some 45 ∧ s.get? 10 = some 32 ∧ s.get? 13 = some 58 ∧
  s.get? 16 = some 58 ∧ s.get? 19 = some 32 ∧ (s.get? 20 = some 43 ∨ s.get? 20 = some 45) ∧
  s.drop 25 = bytes " UTC"

/-- The instant a timestamp text denotes, in Unix seconds: the civil time read as UTC
minus the zone offset. -/
def stampInstant (year month day hour min sec : Nat) (west : Bool) (offH offM : Nat) : Int :=
  unixDate year month day hour min sec
    - (if west then -(((offH * 60 + offM) * 60 : Nat) : Int) else (((offH * 60 + offM) * 60 : Nat) : Int))

end gotime

namespace gotime

/-- A timestamp text in the form that `time.Parse` accepts for the layout: the fields of
the fixed layout, whether the hour is written with two digits, the fractional second
after the seconds (empty, or `.` or `,` followed by digits), and the number of
additional spaces at each of the three spaces of the layout. -/
structure Stamp where
  year : Nat
  month : Nat
  day : Nat
  hour : Nat
  min : Nat
  sec : Nat
  hourTwo : Bool
  frac : Str
  west : Bool
  offH : Nat
  offM : Nat
  gap1 : Nat
  gap2 : Nat
  gap3 : Nat

/-- A fractional second: nothing, or a period or comma followed by at least one digit. -/
def fracOk (frac : Str) : Bool :=
  decide (frac = []) ||
    ((decide (frac.headD 0 = 46) || decide (frac.headD 0 = 44)) && decide (frac.tail ≠ []) &&
      tsv.allDigits frac.tail)

/-- The fields are in range: month 1..12, a day of that month, hour below 24 (below 10
when written with one digit), minute and second below 60, offset hours at most 24 and
minutes at most 60. -/
def Stamp.valid (st : Stamp) : Bool :=
  decide (st.year ≤ 9999) && decide (1 ≤ st.month) && decide (st.month ≤ 12) &&
  decide (1 ≤ st.day) && decide (st.day ≤ daysIn st.month st.year) && decide (st.hour ≤ 23) &&
  (st.hourTwo || decide (st.hour ≤ 9)) && decide (st.min ≤ 59) && decide (st.sec ≤ 59) &&
  fracOk st.frac && decide (st.offH ≤ 24) && decide (st.offM ≤ 60)

/-- The text of a stamp. -/
def Stamp.text (st : Stamp) : Str :=
  pad4 st.year ++ bytes "-" ++ pad2 st.month ++ bytes "-" ++ pad2 st.day ++
  List.replicate (st.gap1 + 1) 32 ++
  (if st.hourTwo then pad2 st.hour else [48 + st.hour]) ++ bytes ":" ++ pad2 st.min ++
  bytes ":" ++ pad2 st.sec ++ st.frac ++
  List.replicate (st.gap2 + 1) 32 ++
  [if st.west then 45 else 43] ++ pad2 st.offH ++ pad2 st.offM ++
  List.replicate (st.gap3 + 1) 32 ++ bytes "UTC"

/-- The zone offset of a stamp in seconds east of UTC. -/
def Stamp.offset (st : Stamp) : Int :=
  if st.west then -(((st.offH * 60 + st.offM) * 60 : Nat) : Int)
  else (((st.offH * 60 + st.offM) * 60 : Nat) : Int)

/-- The nanoseconds that a fractional second denotes, from its first nine digits. -/
def fracNanos (frac : Str) : Nat :=
  tsv.decVal 0 (frac.tail.take 9) * 10 ^ (9 - min 9 frac.tail.length)

/-- The time that a stamp denotes: the civil time read as UTC minus the offset, the
fraction as nanoseconds, and the offset. -/
def Stamp.time (st : Stamp) : GoTime :=
  ⟨unixDate st.year st.month st.day st.hour st.min st.sec - st.offset, fracNanos st.frac,
    st.offset⟩

/-- A stamp written without any of the lenient forms: two-digit hour, no fraction, single
spaces. -/
def Stamp.plain (st : Stamp) : Bool :=
  st.hourTwo && decide (st.frac = []) && decide (st.gap1 = 0) && decide (st.gap2 = 0) &&
    decide (st.gap3 = 0)

end gotime

/-! ## Part 2: theorems -/

/-! ### Chunk pool -/

namespace dump

theorem Next_of_lt (c : List ChunkMeta) (i : Nat) (h : i < c.length) :
    ChunkPool.Next ⟨c, i⟩ = ((c.get ⟨i, h⟩, true), ⟨c, i + 1⟩) := by
  have hn : ¬ i ≥ c.length := by omega
  simp [ChunkPool.Next, hn, List.getD, List.getElem?_eq_getElem h]

theorem Next_of_ge (c : List ChunkMeta) (i : Nat) (h : c.length ≤ i) :
    ChunkPool.Next ⟨c, i⟩ = ((ChunkMeta.zero, false), ⟨c, i⟩) := by
  simp [ChunkPool.Next, h]

/-- Once the cursor is at the end, every further call reports exhaustion. -/
theorem nextN_exhausted (c : List ChunkMeta) (i k : Nat) (h : c.length ≤ i) :
    nextN k ⟨c, i⟩ = (List.replicate k (ChunkMeta.zero, false), ⟨c, i⟩) := by
  induction k with
  | zero => rfl
  | succ k ih => simp [nextN, Next_of_ge c i h, ih, List.replicate_succ]

/-- From cursor `i`, the next `len - i` calls hand out the rest of the plan in order. -/
theorem nextN_from (c : List ChunkMeta) (k : Nat) :
    ∀ (n i : Nat), i + n = c.length →
      (nextN (n + k) ⟨c, i⟩).1
        = (c.drop i).map (fun m => (m, true)) ++ List.replicate k (ChunkMeta.zero, false) := by
  intro n
  induction n with
  | zero =>
    intro i hi
    have hle : c.length ≤ i := by omega
    simp [nextN_exhausted c i k hle, List.drop_eq_nil_of_le hle]
  | succ n ih =>
    intro i hi
    have hlt : i < c.length := by omega
    have hstep : n + 1 + k = (n + k) + 1 := by omega
    rw [hstep]
    simp only [nextN]
    rw [Next_of_lt c i hlt]
    simp only
    rw [ih (i + 1) (by omega), List.drop_eq_getElem_cons hlt]
    simp only [List.map_cons, List.cons_append, List.get_eq_getElem]

/-- C1: for a non-empty plan `c` of `N` descriptors and every `k`, the first `N` calls
of `Next` on the pool made by `NewChunkPool c` return `(c[0], true), ..., (c[N-1], true)`
in that order and each of the next `k` calls returns `(ChunkMeta{}, false)`. -/
theorem pool_next_sequence (c : List ChunkMeta) (k : Nat) (hc : c ≠ []) :
    ∃ p, NewChunkPool c = .ok p ∧
      (nextN (c.length + k) p).1
        = c.map (fun m => (m, true)) ++ List.replicate k (ChunkMeta.zero, false) := by
  refine ⟨⟨c, 0⟩, ?_, ?_⟩
  · have hlen : c.length ≠ 0 := fun h => hc (List.length_eq_zero.mp h)
    simp [NewChunkPool, hlen]
  · have h := nextN_from c k c.length 0 (by omega)
    simpa using h

theorem pool_next_sequence_witness :
    ([⟨1, some ⟨0, 0, 0⟩, some ⟨60, 0, 0⟩, 0, 0⟩, ⟨1, some ⟨60, 0, 0⟩, some ⟨120, 0, 0⟩, 1, 0⟩]
        : List ChunkMeta) ≠ [] ∧
    ∃ p, NewChunkPool [⟨1, some ⟨0, 0, 0⟩, some ⟨60, 0, 0⟩, 0, 0⟩,
          ⟨1, some ⟨60, 0, 0⟩, some ⟨120, 0, 0⟩, 1, 0⟩] = .ok p ∧
      (nextN (2 + 3) p).1
        = [(⟨1, some ⟨0, 0, 0⟩, some ⟨60, 0, 0⟩, 0, 0⟩, true),
           (⟨1, some ⟨60, 0, 0⟩, some ⟨120, 0, 0⟩, 1, 0⟩, true),
           (ChunkMeta.zero, false), (ChunkMeta.zero, false), (ChunkMeta.zero, false)] :=
  ⟨by decide,
   pool_next_sequence [⟨1, some ⟨0, 0, 0⟩, some ⟨60, 0, 0⟩, 0, 0⟩,
     ⟨1, some ⟨60, 0, 0⟩, some ⟨120, 0, 0⟩, 1, 0⟩] 3 (by decide)⟩

/-- C2: `NewChunkPool` fails exactly on the empty plan: there it returns the construction
error and no pool; on a non-empty plan it returns a pool with cursor zero holding the
input sequence. -/
theorem NewChunkPool_fails_iff_empty (c : List ChunkMeta) :
    ((∃ f, NewChunkPool c = .error f) ↔ c = []) ∧
    (c = [] → NewChunkPool c = .error (.err (.text "failed to create empty chunk pool"))) ∧
    (c ≠ [] → NewChunkPool c = .ok { chunks := c, currentIdx := 0 }) := by
  cases c with
  | nil => simp [NewChunkPool]
  | cons m ms => simp [NewChunkPool]

theorem NewChunkPool_fails_iff_empty_witness :
    NewChunkPool [] = .error (.err (.text "failed to create empty chunk pool")) ∧
    NewChunkPool [ChunkMeta.zero] = .ok { chunks := [ChunkMeta.zero], currentIdx := 0 } :=
  ⟨(NewChunkPool_fails_iff_empty []).2.1 rfl,
   (NewChunkPool_fails_iff_empty [ChunkMeta.zero]).2.2 (by decide)⟩

end dump

/-! ### Reader -/

namespace tsv

open reflect

theorem readLoop_ok (x : Extern) (ct : List RType) :
    ∀ (recs : List Str) (i : Nat) (acc vs : List Value), vs.length = recs.length →
      (∀ j r, recs.get? j = some r →
        ∃ st v, ct.get? (i + j) = some st ∧ vs.get? j = some v ∧ parseElement x r st = .ok v) →
      readLoop x ct i recs acc = .ok (acc ++ vs) := by
  intro recs
  induction recs with
  | nil =>
    intro i acc vs hlen _
    have hvs : vs = [] := List.length_eq_zero.mp hlen
    simp [readLoop, hvs]
  | cons r rest ih =>
    intro i acc vs hlen h
    obtain ⟨st, v, hst, hv, hp⟩ := h 0 r rfl
    cases vs with
    | nil => simp at hv
    | cons v0 vs1 =>
      simp only [List.get?_cons_zero, Option.some.injEq] at hv
      subst hv
      simp only [Nat.add_zero] at hst
      simp only [readLoop, hst, hp]
      rw [ih (i + 1) (acc ++ [v0]) vs1 (by simpa using hlen)]
      · simp
      · intro j r1 hj
        obtain ⟨st1, v1, h1, h2, h3⟩ := h (j + 1) r1 (by simpa using hj)
        exact ⟨st1, v1, by rw [← h1]; congr 1; omega, by simpa using h2, h3⟩

theorem readLoop_first_error (x : Extern) (ct : List RType) :
    ∀ (recs : List Str) (i : Nat) (acc : List Value) (k : Nat) (r : Str) (st : RType) (e : Err),
      (∀ j r1, j < k → recs.get? j = some r1 →
        ∃ st1 v, ct.get? (i + j) = some st1 ∧ parseElement x r1 st1 = .ok v) →
      recs.get? k = some r → ct.get? (i + k) = some st →
      parseElement x r st = .error (.err e) →
      readLoop x ct i recs acc = .error (.err (.parsing e)) := by
  intro recs
  induction recs with
  | nil => intro i acc k r st e _ hr; simp at hr
  | cons r0 rest ih =>
    intro i acc k r st e hbefore hr hst hp
    cases k with
    | zero =>
      simp only [List.get?_cons_zero, Option.some.injEq] at hr
      subst hr
      simp only [Nat.add_zero] at hst
      simp only [readLoop, hst, hp]
    | succ k =>
      obtain ⟨st0, v0, hst0, hp0⟩ := hbefore 0 r0 (by omega) rfl
      simp only [Nat.add_zero] at hst0
      simp only [readLoop, hst0, hp0]
      apply ih (i + 1) (acc ++ [v0]) k r st e
      · intro j r1 hj hr1
        obtain ⟨st1, v1, h1, h2⟩ := hbefore (j + 1) r1 (by omega) (by simpa using hr1)
        exact ⟨st1, v1, by rw [← h1]; congr 1; omega, h2⟩
      · simpa using hr
      · rw [← hst]; congr 1; omega
      · exact hp

theorem readLoop_no_row (x : Extern) (ct : List RType) :
    ∀ (recs : List Str) (i : Nat) (acc : List Value) (k : Nat) (r : Str) (st : RType) (f : Fault),
      recs.get? k = some r → ct.get? (i + k) = some st →
      parseElement x r st = .error f →
      ∃ g, readLoop x ct i recs acc = .error g := by
  intro recs
  induction recs with
  | nil => intro i acc k r st f hr; simp at hr
  | cons r0 rest ih =>
    intro i acc k r st f hr hst hp
    simp only [readLoop]
    cases hct : ct.get? i with
    | none => exact ⟨_, rfl⟩
    | some st0 =>
      simp only
      cases hp0 : parseElement x r0 st0 with
      | error f0 =>
        cases f0 with
        | err e => exact ⟨_, rfl⟩
        | panic m => exact ⟨_, rfl⟩
      | ok v0 =>
        simp only
        cases k with
        | zero =>
          simp only [List.get?_cons_zero, Option.some.injEq] at hr
          subst hr
          simp only [Nat.add_zero] at hst
          rw [hct] at hst
          cases hst
          rw [hp0] at hp
          cases hp
        | succ k =>
          apply ih (i + 1) (acc ++ [v0]) k r st f
          · simpa using hr
          · rw [← hst]; congr 1; omega
          · exact hp

/-- C4: when the record read from the stream has a number of fields different from the
number of column types (fewer or more), `Reader.Read` returns the column-mismatch error
and no row; no field is decoded. -/
theorem Read_field_count_mismatch (x : Extern) (records : List Str) (ct : List RType)
    (h : records.length ≠ ct.length) :
    Reader.Read x (.ok records) ct = .error (.err (.text "amount of columns mismatch")) := by
  have h2 : ct.length ≠ records.length := fun h3 => h h3.symm
  simp [Reader.Read, h2]

theorem Read_field_count_mismatch_witness :
    Reader.Read Extern.failing (.ok [bytes "7"]) [.plain .Int32 (bytes "int32"), .plain .String (bytes "string")]
        = .error (.err (.text "amount of columns mismatch")) ∧
    Reader.Read Extern.failing (.ok [bytes "7", bytes "a", bytes "b"])
        [.plain .Int32 (bytes "int32"), .plain .String (bytes "string")]
        = .error (.err (.text "amount of columns mismatch")) :=
  ⟨Read_field_count_mismatch _ _ _ (by decide), Read_field_count_mismatch _ _ _ (by decide)⟩

/-- The loop of `Reader.Read` on a record with as many fields as column types: if `parseElement` succeeds
on every field `j` with value `vs[j]`, `Reader.Read` returns the row `vs` (same arity,
same order) and no error; if `parseElement` returns an error `e` on a field and succeeded
on the fields before it, `Reader.Read` returns the error wrapping `e` and no row; and
whenever `parseElement` fails on any field, `Reader.Read` returns no row at all. -/
theorem Read_row_or_error (x : Extern) (records : List Str) (ct : List RType)
    (hlen : records.length = ct.length) :
    (∀ vs : List Value, vs.length = records.length →
      (∀ j (h1 : j < records.length) (h2 : j < ct.length) (h3 : j < vs.length),
        parseElement x records[j] ct[j] = .ok vs[j]) →
      Reader.Read x (.ok records) ct = .ok vs) ∧
    (∀ i (h1 : i < records.length) (h2 : i < ct.length) (e : Err),
      (∀ j (_ : j < i) (h3 : j < records.length) (h4 : j < ct.length),
        ∃ v, parseElement x records[j] ct[j] = .ok v) →
      parseElement x records[i] ct[i] = .error (.err e) →
      Reader.Read x (.ok records) ct = .error (.err (.parsing e))) ∧
    (∀ i (h1 : i < records.length) (h2 : i < ct.length) (f : Fault),
      parseElement x records[i] ct[i] = .error f →
      ∃ g, Reader.Read x (.ok records) ct = .error g) := by
  have hne : ¬ ct.length ≠ records.length := by simp [hlen]
  have hread : Reader.Read x (.ok records) ct = readLoop x ct 0 records [] := by
    simp [Reader.Read, hlen]
  rw [hread]
  refine ⟨?_, ?_, ?_⟩
  · intro vs hvs h
    have := readLoop_ok x ct records 0 [] vs hvs (by
      intro j r hr
      have hj : j < records.length := by
        rcases Nat.lt_or_ge j records.length with h1 | h1
        · exact h1
        · rw [List.get?_eq_none.mpr h1] at hr; cases hr
      have hr2 : records[j] = r := by
        rw [List.get?_eq_get hj] at hr
        simpa using hr
      refine ⟨ct[j], vs[j], ?_, ?_, ?_⟩
      · simp [List.get?_eq_getElem?, List.getElem?_eq_getElem (show j < ct.length by omega)]
      · simp [List.get?_eq_getElem?, List.getElem?_eq_getElem (show j < vs.length by omega)]
      · rw [← hr2]; exact h j hj (by omega) (by omega))
    simpa using this
  · intro i h1 h2 e hbefore hp
    apply readLoop_first_error x ct records 0 [] i records[i] ct[i] e
    · intro j r1 hj hr
      have hj2 : j < records.length := by omega
      have hr2 : records[j] = r1 := by
        rw [List.get?_eq_get hj2] at hr
        simpa using hr
      obtain ⟨v, hv⟩ := hbefore j hj hj2 (by omega)
      refine ⟨ct[j], v, ?_, ?_⟩
      · simp [List.get?_eq_getElem?, List.getElem?_eq_getElem (show j < ct.length by omega)]
      · rw [← hr2]; exact hv
    · simp [List.get?_eq_getElem?, List.getElem?_eq_getElem h1]
    · simp [List.get?_eq_getElem?, List.getElem?_eq_getElem h2]
    · exact hp
  · intro i h1 h2 f hp
    apply readLoop_no_row x ct records 0 [] i records[i] ct[i] f
    · simp [List.get?_eq_getElem?, List.getElem?_eq_getElem h1]
    · simp [List.get?_eq_getElem?, List.getElem?_eq_getElem h2]
    · exact hp

theorem Read_row_or_error_witness :
    Reader.Read Extern.failing (.ok [bytes "7", bytes "a"])
        [.plain .Int32 (bytes "int32"), .plain .String (bytes "string")]
        = .ok [.int32 7, .str (bytes "a")] ∧
    Reader.Read Extern.failing (.ok [bytes "7", bytes "x"])
        [.plain .Int32 (bytes "int32"), .plain .Int32 (bytes "int32")]
        = .error (.err (.parsing (.num "ParseInt" (bytes "x") false))) :=
  ⟨(Read_row_or_error Extern.failing [bytes "7", bytes "a"]
      [.plain .Int32 (bytes "int32"), .plain .String (bytes "string")] rfl).1
      [.int32 7, .str (bytes "a")] rfl (by
        intro j h1 h2 h3
        match j, h1 with
        | 0, _ => rfl
        | 1, _ => rfl),
   (Read_row_or_error Extern.failing [bytes "7", bytes "x"]
      [.plain .Int32 (bytes "int32"), .plain .Int32 (bytes "int32")] rfl).2.1
      1 (by decide) (by decide) (.num "ParseInt" (bytes "x") false) (by
        intro j hj h3 h4
        match j, hj with
        | 0, _ => exact ⟨.int32 7, rfl⟩) rfl⟩

end tsv

/-! ### Writer -/

namespace csv

theorem writeFields_succ (w : Writer) (n : Nat) (row : List Str) :
    w.writeFields (n + 1) row = row.flatMap (fun f => utf8 w.Comma ++ w.encodeField f) := by
  induction row generalizing n with
  | nil => simp [Writer.writeFields]
  | cons f rest ih =>
    simp only [Writer.writeFields, List.flatMap_cons]
    rw [ih (n + 1)]
    simp

theorem intercalate_cons_flatMap (sep : Str) (a : Str) (l : List Str) :
    List.intercalate sep (a :: l) = a ++ l.flatMap (fun f => sep ++ f) := by
  induction l generalizing a with
  | nil => simp [List.intercalate]
  | cons b l ih =>
    have h := ih b
    simp only [List.intercalate, List.intersperse_cons₂, List.flatten_cons, List.flatMap_cons] at h ⊢
    rw [h]
    simp

theorem writeFields_zero (w : Writer) (row : List Str) :
    w.writeFields 0 row = List.intercalate (utf8 w.Comma) (row.map w.encodeField) := by
  cases row with
  | nil => simp [Writer.writeFields, List.intercalate]
  | cons f rest =>
    simp only [Writer.writeFields, List.map_cons, intercalate_cons_flatMap]
    rw [writeFields_succ]
    simp [List.flatMap_map]

end csv

namespace tsv

theorem writeRows_tab (rows : List (List Str)) :
    ∀ o : Str, writeRows ⟨9, false, o⟩ rows
      = .ok ⟨9, false, o ++ rows.flatMap (fun row =>
          List.intercalate [9] (row.map (csv.Writer.encodeField NewWriter)) ++ [10])⟩ := by
  induction rows with
  | nil => intro o; simp [writeRows]
  | cons row rest ih =>
    intro o
    have hw : csv.Writer.Write ⟨9, false, o⟩ row
        = .ok ⟨9, false, o ++ csv.Writer.writeFields ⟨9, false, o⟩ 0 row ++ [10]⟩ := by
      simp [csv.Writer.Write, csv.validDelim]
    simp only [writeRows, hw]
    rw [ih, csv.writeFields_zero]
    have hu : utf8 9 = [9] := by decide
    have he : csv.Writer.encodeField ⟨9, false, o⟩ = csv.Writer.encodeField NewWriter := by
      funext f
      have hq : csv.Writer.quoteBody ⟨9, false, o⟩ f = csv.Writer.quoteBody NewWriter f := by
        induction f with
        | nil => rfl
        | cons c cs ih => simp only [csv.Writer.quoteBody, ih]; rfl
      simp only [csv.Writer.encodeField, hq]
      rfl
    simp [hu, he]

theorem encodeField_plain (f : Str) (h : csv.Writer.fieldNeedsQuotes NewWriter f = false) :
    csv.Writer.encodeField NewWriter f = f := by
  simp [csv.Writer.encodeField, h]

/-- When the tab writer quotes a field: it equals `\.`, or has a newline, carriage
return, double quote or tab, or starts with a white-space character. -/
theorem fieldNeedsQuotes_tab (f : Str) :
    csv.Writer.fieldNeedsQuotes NewWriter f = true ↔
      f ≠ [] ∧ (f = bytes "\\." ∨ (∃ c ∈ f, c = 10 ∨ c = 13 ∨ c = 34 ∨ c = 9) ∨
        ∃ q ∈ strings.spaceSeqs, q.isPrefixOf f = true) := by
  by_cases h0 : f = []
  · simp [csv.Writer.fieldNeedsQuotes, h0]
  · by_cases h1 : f = bytes "\\."
    · simp [csv.Writer.fieldNeedsQuotes, h0, h1]
    · simp [csv.Writer.fieldNeedsQuotes, h0, h1, NewWriter, csv.NewWriter]

/-- C9, as the code behaves: for rows none of whose fields needs quoting, the writer made
by `NewWriter` emits, after flushing, one line per row with the fields verbatim joined by
a single tab and ended by a newline, and no header line. -/
theorem writer_plain_rows (rows : List (List Str))
    (h : ∀ row ∈ rows, ∀ f ∈ row, csv.Writer.fieldNeedsQuotes NewWriter f = false) :
    ∃ w, writeRows NewWriter rows = .ok w ∧ w.Flush = plainLines rows := by
  refine ⟨_, writeRows_tab rows [], ?_⟩
  simp only [csv.Writer.Flush, plainLines, List.nil_append]
  induction rows with
  | nil => rfl
  | cons row rest ih =>
    have hrow : row.map (csv.Writer.encodeField NewWriter) = row := by
      have hid : ∀ f ∈ row, csv.Writer.encodeField NewWriter f = f := fun f hf =>
        encodeField_plain f (h row (List.mem_cons_self _ _) f hf)
      calc row.map (csv.Writer.encodeField NewWriter) = row.map id := List.map_congr_left hid
        _ = row := List.map_id row
    simp only [List.flatMap_cons, hrow]
    rw [ih (fun r hr => h r (List.mem_cons_of_mem _ hr))]

theorem writer_plain_rows_witness :
    ∃ w, writeRows NewWriter [[bytes "7", bytes "a"], [bytes "8", bytes "b"]] = .ok w ∧
      w.Flush = plainLines [[bytes "7", bytes "a"], [bytes "8", bytes "b"]] :=
  writer_plain_rows [[bytes "7", bytes "a"], [bytes "8", bytes "b"]] (by decide)

/-- C9 as stated fails: a field that starts with a space is written between double
quotes, so the output differs from the fields joined verbatim. -/
theorem writer_quotes_field :
    csv.Writer.fieldNeedsQuotes NewWriter (bytes " a") = true ∧
    (∃ w, writeRows NewWriter [[bytes "7", bytes " a"]] = .ok w ∧
      w.Flush = bytes "7\t\" a\"\n" ∧ w.Flush ≠ plainLines [[bytes "7", bytes " a"]]) := by
  refine ⟨by decide, _, rfl, by decide, by decide⟩

theorem plainLines_example :
    plainLines [[bytes "7", bytes "a"], [bytes "8", bytes "b"]] = bytes "7\ta\n8\tb\n" := by
  decide

end tsv

/-! ### Value decoder: type tags -/

namespace tsv

open reflect

theorem Split_ne_nil (sep : Nat) (s : Str) : ∃ piece pieces, strings.Split sep s = piece :: pieces := by
  induction s with
  | nil => exact ⟨[], [], rfl⟩
  | cons c cs ih =>
    obtain ⟨piece, pieces, h⟩ := ih
    by_cases hc : c = sep
    · exact ⟨[], strings.Split sep cs, by simp [strings.Split, hc]⟩
    · exact ⟨c :: piece, pieces, by simp [strings.Split, hc, h]⟩

theorem parseSlice_of_interior (dec : Str → Res Value) (record : Str) (h2 : 2 ≤ record.length) :
    parseSlice dec record =
      if strings.TrimSpace (interior record) = [] then .ok (.slice [])
      else
        match decodeAll dec (strings.Split 44 (strings.TrimSpace (interior record))) [] with
        | .error e => .error e
        | .ok result => .ok (.slice result) := by
  have hlt : ¬ record.length < 2 := by omega
  simp only [parseSlice, hlt, if_false, interior]

theorem parseElement_plain_unknown (x : Extern) (k : Kind) (name record : Str)
    (hk : decodedKind k = false) (hn : name ≠ bytes "Time") :
    parseElement x record (.plain k name) = .error (.err (.text "unknown type")) := by
  cases k <;> first | (simp [decodedKind] at hk; done) | simp [parseElement, hn]

/-- C5, as the code behaves: a tag that is not an array, whose kind is none of the kinds
decoded by kind and whose name is not `Time`, is rejected with "unknown type" for every
field text. An array of such an element type is rejected with that error when the text
has at least two bytes and a non-empty interior after trimming; when the interior is
empty the result is the empty sequence and the element type is never looked at. -/
theorem unsupported_tag_rejected (x : Extern) (k : Kind) (name : Str)
    (hk : decodedKind k = false) (hn : name ≠ bytes "Time") :
    (∀ record, parseElement x record (.plain k name) = .error (.err (.text "unknown type"))) ∧
    (∀ record, 2 ≤ record.length → strings.TrimSpace (interior record) ≠ [] →
      parseElement x record (.slice (.plain k name)) = .error (.err (.text "unknown type"))) ∧
    (∀ record, 2 ≤ record.length → strings.TrimSpace (interior record) = [] →
      parseElement x record (.slice (.plain k name)) = .ok (.slice [])) := by
  refine ⟨fun record => parseElement_plain_unknown x k name record hk hn, ?_, ?_⟩
  · intro record h2 hne
    obtain ⟨piece, pieces, hs⟩ := Split_ne_nil 44 (strings.TrimSpace (interior record))
    simp only [parseElement]
    rw [parseSlice_of_interior _ record h2, if_neg hne, hs]
    simp only [decodeAll, parseElement_plain_unknown x k name piece hk hn]
  · intro record h2 he
    simp only [parseElement]
    rw [parseSlice_of_interior _ record h2, if_pos he]

theorem unsupported_tag_rejected_witness :
    parseElement Extern.failing (bytes "true") (.plain .Bool (bytes "bool"))
        = .error (.err (.text "unknown type")) ∧
    parseElement Extern.failing (bytes "[true]") (.slice (.plain .Bool (bytes "bool")))
        = .error (.err (.text "unknown type")) :=
  ⟨(unsupported_tag_rejected Extern.failing .Bool (bytes "bool") rfl (by decide)).1 (bytes "true"),
   (unsupported_tag_rejected Extern.failing .Bool (bytes "bool") rfl (by decide)).2.1 (bytes "[true]")
     (by decide) (by decide)⟩

/-- C5 as stated fails: an array of `bool` and an array of arrays are outside the
supported set, yet the text `[]` decodes to the empty sequence under the first and the
text `[[1]]` decodes to a nested sequence under the second. -/
theorem unsupported_array_decoded :
    supported (.slice (.plain .Bool (bytes "bool"))) = false ∧
    parseElement Extern.failing (bytes "[]") (.slice (.plain .Bool (bytes "bool"))) = .ok (.slice []) ∧
    supported (.slice (.slice (.plain .Int32 (bytes "int32")))) = false ∧
    parseElement Extern.failing (bytes "[[1]]") (.slice (.slice (.plain .Int32 (bytes "int32"))))
      = .ok (.slice [.slice [.int32 1]]) := by
  refine ⟨by decide, rfl, by decide, rfl⟩

end tsv

/-! ### Integer parsing -/

namespace strconv

open tsv

theorem decVal_cons (n c : Nat) (cs : Str) : decVal n (c :: cs) = decVal (n * 10 + (c - 48)) cs := rfl

theorem decVal_append (n : Nat) (xs ys : Str) : decVal n (xs ++ ys) = decVal (decVal n xs) ys := by
  simp [decVal, List.foldl_append]

theorem le_decVal (ds : Str) : ∀ n, n ≤ decVal n ds := by
  induction ds with
  | nil => intro n; exact Nat.le_refl n
  | cons c cs ih =>
    intro n
    rw [decVal_cons]
    have := ih (n * 10 + (c - 48))
    omega

theorem allDigits_cons (c : Nat) (cs : Str) :
    allDigits (c :: cs) = true ↔ (48 ≤ c ∧ c ≤ 57) ∧ allDigits cs = true := by
  simp [allDigits]

theorem digitVal_digit (c : Nat) (hc : 48 ≤ c ∧ c ≤ 57) : digitVal c = some (c - 48) := by
  simp [digitVal, hc]

/-- On a run of digits the loop returns the denoted number when it fits and a range
error otherwise. -/
theorem parseUintLoop_digits (s0 : Str) (maxVal : Nat) (hmax : maxVal < 2 ^ 64) :
    ∀ (ds : Str) (n : Nat), allDigits ds = true → n ≤ maxVal →
      parseUintLoop s0 maxVal ds n =
        if decVal n ds ≤ maxVal then (decVal n ds, none)
        else (maxVal, some (rangeError "ParseUint" s0)) := by
  have h64 : (2 : Nat) ^ 64 = 18446744073709551616 := by norm_num
  rw [h64] at hmax
  intro ds
  induction ds with
  | nil =>
    intro n _ hn
    simp [parseUintLoop, decVal, hn]
  | cons c cs ih =>
    intro n hall hn
    obtain ⟨hc, hcs⟩ := (allDigits_cons c cs).mp hall
    have hd : ¬ (c - 48 ≥ 10) := by omega
    have hge := le_decVal cs (n * 10 + (c - 48))
    rw [decVal_cons]
    simp only [parseUintLoop, digitVal_digit c hc, hd, if_false, h64]
    by_cases hcut : n ≥ (18446744073709551616 - 1) / 10 + 1
    · have hbig : ¬ decVal (n * 10 + (c - 48)) cs ≤ maxVal := by omega
      simp only [hcut, if_true, hbig, if_false]
    · simp only [hcut, if_false]
      have h10 : n * 10 % 18446744073709551616 = n * 10 := Nat.mod_eq_of_lt (by omega)
      rw [h10]
      by_cases hov : n * 10 + (c - 48) < 18446744073709551616
      · have h1 : (n * 10 + (c - 48)) % 18446744073709551616 = n * 10 + (c - 48) :=
          Nat.mod_eq_of_lt hov
        rw [h1]
        by_cases hfit : n * 10 + (c - 48) > maxVal
        · have hbig : ¬ decVal (n * 10 + (c - 48)) cs ≤ maxVal := by omega
          simp only [hfit, or_true, if_true, hbig, if_false]
        · have hno : ¬ (n * 10 + (c - 48) < n * 10 ∨ n * 10 + (c - 48) > maxVal) := by omega
          simp only [hno, if_false]
          exact ih (n * 10 + (c - 48)) hcs (by omega)
      · have hwrap : (n * 10 + (c - 48)) % 18446744073709551616 < n * 10 := by omega
        have hbig : ¬ decVal (n * 10 + (c - 48)) cs ≤ maxVal := by omega
        simp only [hwrap, true_or, if_true, hbig, if_false]

/-- On text with a byte that is not a digit the loop ends in a syntax or a range error. -/
theorem parseUintLoop_bad (s0 : Str) (maxVal : Nat) :
    ∀ (s : Str) (n : Nat), allDigits s = false →
      parseUintLoop s0 maxVal s n = (0, some (syntaxError "ParseUint" s0)) ∨
      parseUintLoop s0 maxVal s n = (maxVal, some (rangeError "ParseUint" s0)) := by
  intro s
  induction s with
  | nil => intro n h; simp [allDigits] at h
  | cons c cs ih =>
    intro n hall
    by_cases hc : 48 ≤ c ∧ c ≤ 57
    · have hcs : allDigits cs = false := by
        cases h : allDigits cs with
        | false => rfl
        | true =>
          have := (allDigits_cons c cs).mpr ⟨hc, h⟩
          rw [this] at hall
          cases hall
      have hd : ¬ (c - 48 ≥ 10) := by omega
      simp only [parseUintLoop, digitVal_digit c hc, hd, if_false]
      split
      · exact Or.inr rfl
      · split
        · exact Or.inr rfl
        · exact ih _ hcs
    · left
      unfold parseUintLoop digitVal
      simp only [hc, if_false]
      split
      · rfl
      · rename_i d heq
        have hd : d ≥ 10 := by
          split at heq
          · cases heq; omega
          · cases heq
        simp only [hd, if_true]

theorem pow_pred_lt (w : Nat) (hw : w ≤ 64) : 2 ^ w - 1 < 2 ^ 64 := by
  have h1 : 2 ^ w ≤ 2 ^ 64 := Nat.pow_le_pow_right (by norm_num) hw
  have h2 : 0 < 2 ^ w := Nat.two_pow_pos w
  omega

/-- For `ParseUint` on a non-empty run of digits: the denoted number when it fits in
`bitSize` bits, a range error otherwise. -/
theorem ParseUint_digits (ds : Str) (w : Nat) (hw : w ≤ 64) (hne : ds ≠ [])
    (hall : allDigits ds = true) :
    ParseUint ds w =
      if decVal 0 ds ≤ 2 ^ w - 1 then (decVal 0 ds, none)
      else (2 ^ w - 1, some (rangeError "ParseUint" ds)) := by
  simp only [ParseUint, hne, if_false]
  exact parseUintLoop_digits ds (2 ^ w - 1) (pow_pred_lt w hw) ds 0 hall (Nat.zero_le _)

/-- For `ParseUint` on text that is empty or has a byte that is not a digit: an error. -/
theorem ParseUint_bad (s : Str) (w : Nat) (h : s = [] ∨ allDigits s = false) :
    ParseUint s w = (0, some (syntaxError "ParseUint" s)) ∨
    ParseUint s w = (2 ^ w - 1, some (rangeError "ParseUint" s)) := by
  by_cases hs : s = []
  · left; simp [ParseUint, hs]
  · have hall : allDigits s = false := by
      rcases h with h | h
      · exact absurd h hs
      · exact h
    simp only [ParseUint, hs, if_false]
    exact parseUintLoop_bad s (2 ^ w - 1) s 0 hall

/-- The text handed to `ParseUint` by `ParseInt` once a leading sign is picked off. -/
theorem ParseInt_cons_of_syntaxErr (c : Nat) (rest : Str) (w : Nat)
    (hu : ParseUint (if c = 43 ∨ c = 45 then rest else c :: rest) w
      = (0, some (syntaxError "ParseUint" (if c = 43 ∨ c = 45 then rest else c :: rest)))) :
    ParseInt (c :: rest) w = (0, some (syntaxError "ParseInt" (c :: rest))) := by
  simp only [ParseInt, hu, syntaxError]

theorem two_pow_split (w : Nat) (hw : 1 ≤ w) : 2 ^ w = 2 * 2 ^ (w - 1) := by
  have h : w = (w - 1) + 1 := by omega
  conv_lhs => rw [h]
  rw [Nat.pow_succ]
  omega

theorem ParseInt_cons_of_range (c : Nat) (rest : Str) (w : Nat) (hw : 2 ≤ w)
    (hu : ParseUint (if c = 43 ∨ c = 45 then rest else c :: rest) w
      = (2 ^ w - 1, some (rangeError "ParseUint" (if c = 43 ∨ c = 45 then rest else c :: rest)))) :
    (ParseInt (c :: rest) w).2 = some (rangeError "ParseInt" (c :: rest)) := by
  have h1 := two_pow_split w (by omega)
  have h2 : 2 ^ (w - 1) = 2 * 2 ^ (w - 2) := by
    have := two_pow_split (w - 1) (by omega)
    rw [this]
    congr 2
  have h3 : 0 < 2 ^ (w - 2) := Nat.two_pow_pos (w - 2)
  have hge : 2 ^ w - 1 ≥ 2 ^ (w - 1) := by omega
  have hgt : 2 ^ w - 1 > 2 ^ (w - 1) := by omega
  simp only [ParseInt, hu, rangeError]
  by_cases hneg : c = 45
  · simp [hneg, hgt]
  · simp [hneg, hge]

theorem ParseInt_cons_of_ok (c : Nat) (rest : Str) (w un : Nat)
    (hu : ParseUint (if c = 43 ∨ c = 45 then rest else c :: rest) w = (un, none)) :
    ParseInt (c :: rest) w =
      if c ≠ 45 ∧ un ≥ 2 ^ (w - 1) then
        (((2 ^ (w - 1) - 1 : Nat) : Int), some (rangeError "ParseInt" (c :: rest)))
      else if c = 45 ∧ un > 2 ^ (w - 1) then
        (-((2 ^ (w - 1) : Nat) : Int), some (rangeError "ParseInt" (c :: rest)))
      else (if c = 45 then toSigned 64 (-(toSigned 64 un)) else toSigned 64 un, none) := by
  simp only [ParseInt, hu]
  by_cases hneg : c = 45
  · by_cases h : un > 2 ^ (w - 1) <;> simp [hneg, h]
  · by_cases h : un ≥ 2 ^ (w - 1) <;> simp [hneg, h]

theorem numeralValue_cons (c : Nat) (rest : Str) :
    numeralValue (c :: rest) =
      if (if c = 43 ∨ c = 45 then rest else c :: rest) ≠ [] ∧
          allDigits (if c = 43 ∨ c = 45 then rest else c :: rest) = true then
        some (if c = 45 then -(decVal 0 rest : Int)
          else (decVal 0 (if c = 43 then rest else c :: rest) : Int))
      else none := by
  by_cases h43 : c = 43
  · subst h43
    simp [numeralValue]
  · by_cases h45 : c = 45
    · subst h45
      simp [numeralValue]
    · have hno : ¬ (c = 43 ∨ c = 45) := by omega
      simp only [hno, if_false, h43, h45]
      unfold numeralValue
      split
      · rename_i heq; cases heq; exact absurd rfl h43
      · rename_i heq; cases heq; exact absurd rfl h45
      · rfl

theorem natDecimalAux_spec :
    ∀ (fuel n : Nat) (acc : Str), n < fuel →
      ∃ ds, natDecimalAux fuel n acc = ds ++ acc ∧ ds ≠ [] ∧ allDigits ds = true ∧
        decVal 0 ds = n := by
  intro fuel
  induction fuel with
  | zero => intro n acc h; omega
  | succ fuel ih =>
    intro n acc hn
    by_cases h10 : n < 10
    · refine ⟨[48 + n], by simp [natDecimalAux, h10], by simp, ?_, ?_⟩
      · simp [allDigits]; omega
      · simp [decVal]
    · obtain ⟨ds, h1, h2, h3, h4⟩ := ih (n / 10) ((48 + n % 10) :: acc) (by omega)
      refine ⟨ds ++ [48 + n % 10], ?_, by simp, ?_, ?_⟩
      · simp [natDecimalAux, h10, h1]
      · have hlast : 48 + n % 10 ≤ 57 := by omega
        simp only [allDigits, List.all_append, List.all_cons, List.all_nil, Bool.and_true,
          Bool.and_eq_true, decide_eq_true_eq] at h3 ⊢
        exact ⟨h3, by omega, hlast⟩
      · rw [decVal_append, h4]
        simp [decVal]
        omega

/-- The decimal text of `n` is a non-empty run of digits that denotes `n`. -/
theorem natDecimal_spec (n : Nat) :
    natDecimal n ≠ [] ∧ allDigits (natDecimal n) = true ∧ decVal 0 (natDecimal n) = n := by
  obtain ⟨ds, h1, h2, h3, h4⟩ := natDecimalAux_spec (n + 1) n [] (by omega)
  have h : natDecimal n = ds := by simp [natDecimal, h1]
  rw [h]
  exact ⟨h2, h3, h4⟩

theorem digits_head (ds : Str) (hne : ds ≠ []) (hall : allDigits ds = true) :
    ∃ c rest, ds = c :: rest ∧ 48 ≤ c ∧ c ≤ 57 := by
  cases ds with
  | nil => exact absurd rfl hne
  | cons c rest => exact ⟨c, rest, rfl, ((allDigits_cons c rest).mp hall).1⟩

/-- Unsigned round trip: the decimal text of `n < 2 ^ w` parses to `n`. -/
theorem ParseUint_natDecimal (w : Nat) (hw : w ≤ 64) (n : Nat) (hn : n < 2 ^ w) :
    ParseUint (natDecimal n) w = (n, none) := by
  obtain ⟨h1, h2, h3⟩ := natDecimal_spec n
  rw [ParseUint_digits _ w hw h1 h2, h3]
  have : n ≤ 2 ^ w - 1 := by omega
  simp [this]

theorem toSigned64_small (u : Nat) (h : u < 9223372036854775808) : toSigned 64 (u : Int) = u := by
  unfold toSigned
  norm_num
  omega

theorem toSigned64_neg (u : Nat) (h : u ≤ 9223372036854775808) :
    toSigned 64 (-(toSigned 64 (u : Int))) = -(u : Int) := by
  unfold toSigned
  norm_num
  omega

/-- Signed round trip: the decimal text of `v` with `-2^(w-1) ≤ v < 2^(w-1)` parses to `v`. -/
theorem ParseInt_intDecimal (w : Nat) (hw1 : 1 ≤ w) (hw : w ≤ 64) (v : Int)
    (hlo : -((2 ^ (w - 1) : Nat) : Int) ≤ v) (hhi : v < ((2 ^ (w - 1) : Nat) : Int)) :
    ParseInt (intDecimal v) w = (v, none) := by
  obtain ⟨h1, h2, h3⟩ := natDecimal_spec v.natAbs
  have hsplit := two_pow_split w hw1
  have hP : 2 ^ (w - 1) ≤ 2 ^ 63 := Nat.pow_le_pow_right (by norm_num) (by omega)
  have h63 : (2 : Nat) ^ 63 = 9223372036854775808 := by norm_num
  rw [h63] at hP
  obtain ⟨P, hPe⟩ : ∃ P : Nat, 2 ^ (w - 1) = P := ⟨_, rfl⟩
  rw [hPe] at hlo hhi hP hsplit
  have hfit : v.natAbs < 2 ^ w := by omega
  by_cases hneg : v < 0
  · have hu : ParseUint (if (45 : Nat) = 43 ∨ (45 : Nat) = 45 then natDecimal v.natAbs
        else 45 :: natDecimal v.natAbs) w = (v.natAbs, none) := by
      simp only [show ((45 : Nat) = 43 ∨ (45 : Nat) = 45) from Or.inr rfl, if_true]
      exact ParseUint_natDecimal w hw v.natAbs hfit
    simp only [intDecimal, hneg, if_true]
    rw [ParseInt_cons_of_ok 45 _ w _ hu, hPe]
    have hc1 : ¬ ((45 : Nat) ≠ 45 ∧ v.natAbs ≥ P) := by simp
    have hc2 : ¬ ((45 : Nat) = 45 ∧ v.natAbs > P) := by omega
    simp only [hc1, hc2, if_false, if_true]
    rw [toSigned64_neg _ (by omega)]
    have hv : -(v.natAbs : Int) = v := by omega
    have hgt : ¬ v.natAbs > P := by omega
    rw [hv]
    simp [hgt]
  · obtain ⟨c, rest, hds, hc⟩ := digits_head _ h1 h2
    have hno : ¬ (c = 43 ∨ c = 45) := by omega
    have hu : ParseUint (if c = 43 ∨ c = 45 then rest else c :: rest) w = (v.natAbs, none) := by
      simp only [hno, if_false]
      rw [← hds]
      exact ParseUint_natDecimal w hw v.natAbs hfit
    simp only [intDecimal, hneg, if_false]
    rw [hds, ParseInt_cons_of_ok c rest w _ hu, hPe]
    have hc1 : ¬ (c ≠ 45 ∧ v.natAbs ≥ P) := by omega
    have hc2 : ¬ (c = 45 ∧ v.natAbs > P) := by omega
    have hc3 : ¬ c = 45 := by omega
    simp only [hc1, hc2, hc3, if_false]
    rw [toSigned64_small _ (by omega)]
    have hv : (v.natAbs : Int) = v := by omega
    rw [hv]
    simp

/-- Every text that is malformed or denotes a number outside `0 .. 2^w - 1` makes
`ParseUint` return an error. -/
theorem ParseUint_badNumeral (w : Nat) (hw : w ≤ 64) (s : Str)
    (h : badNumeral 0 ((2 ^ w - 1 : Nat) : Int) s = true) :
    ∃ e, (ParseUint s w).2 = some e := by
  by_cases hgood : s ≠ [] ∧ allDigits s = true
  · obtain ⟨c, rest, hds, hc⟩ := digits_head s hgood.1 hgood.2
    have hno : ¬ (c = 43 ∨ c = 45) := by omega
    have hnum : numeralValue s = some (decVal 0 s : Int) := by
      have hg := hgood
      rw [hds] at hg ⊢
      rw [numeralValue_cons]
      simp only [hno, if_false] at hg ⊢
      have h43 : ¬ c = 43 := by omega
      have h45 : ¬ c = 45 := by omega
      simp only [h43, h45, if_false]
      rw [if_pos hg]
    rw [ParseUint_digits s w hw hgood.1 hgood.2]
    simp only [badNumeral, hnum, Bool.or_eq_true, decide_eq_true_eq] at h
    have hbig : ¬ decVal 0 s ≤ 2 ^ w - 1 := by omega
    simp only [hbig, if_false]
    exact ⟨_, rfl⟩
  · have hb : s = [] ∨ allDigits s = false := by
      by_cases hs : s = []
      · exact Or.inl hs
      · right
        cases ha : allDigits s with
        | false => rfl
        | true => exact absurd ⟨hs, ha⟩ hgood
    rcases ParseUint_bad s w hb with h1 | h1 <;> rw [h1] <;> exact ⟨_, rfl⟩

/-- Every text that is malformed or denotes a number outside `-2^(w-1) .. 2^(w-1) - 1`
makes `ParseInt` return an error. -/
theorem ParseInt_badNumeral (w : Nat) (hw2 : 2 ≤ w) (hw : w ≤ 64) (s : Str)
    (h : badNumeral (-((2 ^ (w - 1) : Nat) : Int)) (((2 ^ (w - 1) : Nat) : Int) - 1) s = true) :
    ∃ e, (ParseInt s w).2 = some e := by
  cases s with
  | nil => exact ⟨_, rfl⟩
  | cons c rest =>
    by_cases hgood : (if c = 43 ∨ c = 45 then rest else c :: rest) ≠ [] ∧
        allDigits (if c = 43 ∨ c = 45 then rest else c :: rest) = true
    · have hnum := numeralValue_cons c rest
      rw [if_pos hgood] at hnum
      simp only [badNumeral, hnum, Bool.or_eq_true, decide_eq_true_eq] at h
      have hpu := ParseUint_digits _ w hw hgood.1 hgood.2
      by_cases hfit : decVal 0 (if c = 43 ∨ c = 45 then rest else c :: rest) ≤ 2 ^ w - 1
      · rw [if_pos hfit] at hpu
        rw [ParseInt_cons_of_ok c rest w _ hpu]
        have hpos : 0 < 2 ^ (w - 1) := Nat.two_pow_pos (w - 1)
        obtain ⟨P, hPe⟩ : ∃ P : Nat, 2 ^ (w - 1) = P := ⟨_, rfl⟩
        rw [hPe] at h hpos ⊢
        by_cases h45 : c = 45
        · have hd : (if c = 43 ∨ c = 45 then rest else c :: rest) = rest := by simp [h45]
          rw [hd]
          simp only [h45, if_true] at h
          have hc2 : c = 45 ∧ decVal 0 rest > P := ⟨h45, by omega⟩
          have hc1 : ¬ (c ≠ 45 ∧ decVal 0 rest ≥ P) := fun hx => hx.1 h45
          rw [if_neg hc1, if_pos hc2]
          exact ⟨_, rfl⟩
        · have hd : (if c = 43 then rest else c :: rest)
              = (if c = 43 ∨ c = 45 then rest else c :: rest) := by
            by_cases h43 : c = 43 <;> simp [h43, h45]
          simp only [h45, if_false] at h
          rw [hd] at h
          have hc1 : c ≠ 45 ∧ decVal 0 (if c = 43 ∨ c = 45 then rest else c :: rest) ≥ P :=
            ⟨h45, by omega⟩
          rw [if_pos hc1]
          exact ⟨_, rfl⟩
      · rw [if_neg hfit] at hpu
        exact ⟨_, ParseInt_cons_of_range c rest w hw2 hpu⟩
    · have hb : (if c = 43 ∨ c = 45 then rest else c :: rest) = [] ∨
          allDigits (if c = 43 ∨ c = 45 then rest else c :: rest) = false := by
        by_cases hs : (if c = 43 ∨ c = 45 then rest else c :: rest) = []
        · exact Or.inl hs
        · right
          cases ha : allDigits (if c = 43 ∨ c = 45 then rest else c :: rest) with
          | false => rfl
          | true => exact absurd ⟨hs, ha⟩ hgood
      rcases ParseUint_bad _ w hb with h1 | h1
      · rw [ParseInt_cons_of_syntaxErr c rest w h1]
        exact ⟨_, rfl⟩
      · exact ⟨_, ParseInt_cons_of_range c rest w hw2 h1⟩

end strconv

/-! ### Value decoder: integers -/

namespace tsv

open reflect strconv

theorem fromNum_ok {α : Type} (r : α) (mk : α → Value) : fromNum (r, none) mk = .ok (mk r) := rfl

theorem fromNum_error {α : Type} (r : α × Option Err) (mk : α → Value) (e : Err)
    (h : r.2 = some e) : fromNum r mk = .error (.err e) := by
  obtain ⟨a, b⟩ := r
  simp only at h
  subst h
  rfl

theorem ParseInt_in_range (w P : Nat) (hP : 2 ^ (w - 1) = P) (hw1 : 1 ≤ w) (hw : w ≤ 64) (v : Int)
    (hlo : -(P : Int) ≤ v) (hhi : v < (P : Int)) : ParseInt (intDecimal v) w = (v, none) := by
  subst hP
  exact ParseInt_intDecimal w hw1 hw v hlo hhi

theorem ParseUint_in_range (w M : Nat) (hM : 2 ^ w = M) (hw : w ≤ 64) (n : Nat) (hn : n < M) :
    ParseUint (intDecimal (n : Int)) w = (n, none) := by
  subst hM
  have h : intDecimal (n : Int) = natDecimal n := by simp [intDecimal]
  rw [h]
  exact ParseUint_natDecimal w hw n hn

theorem toSigned_id (w P : Nat) (hP : 2 ^ (w - 1) = P) (hw : 1 ≤ w) (v : Int)
    (hlo : -(P : Int) ≤ v) (hhi : v < (P : Int)) : toSigned w v = v := by
  have h2 := two_pow_split w hw
  unfold toSigned
  have hc : ((2 : Int) ^ (w - 1)) = (P : Int) := by rw [← hP]; norm_cast
  have hc2 : ((2 : Int) ^ w) = 2 * (P : Int) := by
    have : ((2 ^ w : Nat) : Int) = ((2 * 2 ^ (w - 1) : Nat) : Int) := by rw [← h2]
    rw [hP] at this
    push_cast at this
    exact this
  rw [hc, hc2]
  have h3 : (v + P) % (2 * (P : Int)) = v + P := Int.emod_eq_of_lt (by omega) (by omega)
  rw [h3]
  omega

theorem int32_round_trip (x : Extern) (name : Str) (v : Int)
    (h1 : -2147483648 ≤ v) (h2 : v ≤ 2147483647) :
    parseElement x (intDecimal v) (.plain .Int32 name) = .ok (.int32 v) := by
  simp only [parseElement]
  rw [ParseInt_in_range 32 2147483648 (by norm_num) (by norm_num) (by norm_num) v (by omega)
      (by omega),
    fromNum_ok, toSigned_id 32 2147483648 (by norm_num) (by norm_num) v (by omega) (by omega)]

/-- C6: integer round trip. For each of the eight integer tags and every value in that
type's range, `parseElement` on the plain decimal text of the value returns that value
at that width. -/
theorem integer_round_trip (x : Extern) (name : Str) :
    (∀ v : Int, -128 ≤ v → v ≤ 127 →
      parseElement x (intDecimal v) (.plain .Int8 name) = .ok (.int8 v)) ∧
    (∀ v : Int, -32768 ≤ v → v ≤ 32767 →
      parseElement x (intDecimal v) (.plain .Int16 name) = .ok (.int16 v)) ∧
    (∀ v : Int, -2147483648 ≤ v → v ≤ 2147483647 →
      parseElement x (intDecimal v) (.plain .Int32 name) = .ok (.int32 v)) ∧
    (∀ v : Int, -9223372036854775808 ≤ v → v ≤ 9223372036854775807 →
      parseElement x (intDecimal v) (.plain .Int64 name) = .ok (.int64 v)) ∧
    (∀ n : Nat, n ≤ 255 →
      parseElement x (intDecimal (n : Int)) (.plain .Uint8 name) = .ok (.uint8 n)) ∧
    (∀ n : Nat, n ≤ 65535 →
      parseElement x (intDecimal (n : Int)) (.plain .Uint16 name) = .ok (.uint16 n)) ∧
    (∀ n : Nat, n ≤ 4294967295 →
      parseElement x (intDecimal (n : Int)) (.plain .Uint32 name) = .ok (.uint32 n)) ∧
    (∀ n : Nat, n ≤ 18446744073709551615 →
      parseElement x (intDecimal (n : Int)) (.plain .Uint64 name) = .ok (.uint64 n)) := by
  refine ⟨?_, ?_, ?_, ?_, ?_, ?_, ?_, ?_⟩
  · intro v h1 h2
    simp only [parseElement]
    rw [ParseInt_in_range 8 128 (by norm_num) (by norm_num) (by norm_num) v (by omega) (by omega),
      fromNum_ok, toSigned_id 8 128 (by norm_num) (by norm_num) v (by omega) (by omega)]
  · intro v h1 h2
    simp only [parseElement]
    rw [ParseInt_in_range 16 32768 (by norm_num) (by norm_num) (by norm_num) v (by omega) (by omega),
      fromNum_ok, toSigned_id 16 32768 (by norm_num) (by norm_num) v (by omega) (by omega)]
  · exact fun v h1 h2 => int32_round_trip x name v h1 h2
  · intro v h1 h2
    simp only [parseElement]
    rw [ParseInt_in_range 64 9223372036854775808 (by norm_num) (by norm_num) (by norm_num) v
        (by omega) (by omega), fromNum_ok]
  · intro n h
    simp only [parseElement]
    rw [ParseUint_in_range 8 256 (by norm_num) (by norm_num) n (by omega), fromNum_ok]
    have hm : n % 2 ^ 8 = n := Nat.mod_eq_of_lt (by norm_num; omega)
    rw [hm]
  · intro n h
    simp only [parseElement]
    rw [ParseUint_in_range 16 65536 (by norm_num) (by norm_num) n (by omega), fromNum_ok]
    have hm : n % 2 ^ 16 = n := Nat.mod_eq_of_lt (by norm_num; omega)
    rw [hm]
  · intro n h
    simp only [parseElement]
    rw [ParseUint_in_range 32 4294967296 (by norm_num) (by norm_num) n (by omega), fromNum_ok]
    have hm : n % 2 ^ 32 = n := Nat.mod_eq_of_lt (by norm_num; omega)
    rw [hm]
  · intro n h
    simp only [parseElement]
    rw [ParseUint_in_range 64 18446744073709551616 (by norm_num) (by norm_num) n (by omega),
      fromNum_ok]

theorem integer_round_trip_witness :
    parseElement Extern.failing (intDecimal (-9223372036854775808)) (.plain .Int64 (bytes "int64"))
        = .ok (.int64 (-9223372036854775808)) ∧
    parseElement Extern.failing (intDecimal 9223372036854775807) (.plain .Int64 (bytes "int64"))
        = .ok (.int64 9223372036854775807) ∧
    parseElement Extern.failing (intDecimal ((18446744073709551615 : Nat) : Int))
        (.plain .Uint64 (bytes "uint64")) = .ok (.uint64 18446744073709551615) ∧
    intDecimal (-9223372036854775808) = bytes "-9223372036854775808" ∧
    intDecimal ((18446744073709551615 : Nat) : Int) = bytes "18446744073709551615" :=
  ⟨(integer_round_trip Extern.failing (bytes "int64")).2.2.2.1 _ (by decide) (by decide),
   (integer_round_trip Extern.failing (bytes "int64")).2.2.2.1 _ (by decide) (by decide),
   (integer_round_trip Extern.failing (bytes "uint64")).2.2.2.2.2.2.2 _ (by decide),
   by decide, by decide⟩

theorem signed_rejected (w P : Nat) (hP : 2 ^ (w - 1) = P) (hw2 : 2 ≤ w) (hw : w ≤ 64) (s : Str)
    (mk : Int → Value) (h : badNumeral (-(P : Int)) ((P : Int) - 1) s = true) :
    ∃ e, fromNum (ParseInt s w) mk = .error (.err e) := by
  subst hP
  obtain ⟨e, he⟩ := ParseInt_badNumeral w hw2 hw s h
  exact ⟨e, fromNum_error _ mk e he⟩

theorem unsigned_rejected (w M : Nat) (hM : 2 ^ w - 1 = M) (hw : w ≤ 64) (s : Str)
    (mk : Nat → Value) (h : badNumeral 0 (M : Int) s = true) :
    ∃ e, fromNum (ParseUint s w) mk = .error (.err e) := by
  subst hM
  obtain ⟨e, he⟩ := ParseUint_badNumeral w hw s h
  exact ⟨e, fromNum_error _ mk e he⟩

/-- C7: for each of the eight integer tags, whenever the field text is malformed (no
digits, or a byte other than a decimal digit after an optional leading sign) or is a
decimal numeral denoting an integer outside the type's range, `parseElement` returns an
error and no value. -/
theorem integer_text_rejected (x : Extern) (name s : Str) :
    (badNumeral (-128) 127 s = true →
      ∃ e, parseElement x s (.plain .Int8 name) = .error (.err e)) ∧
    (badNumeral (-32768) 32767 s = true →
      ∃ e, parseElement x s (.plain .Int16 name) = .error (.err e)) ∧
    (badNumeral (-2147483648) 2147483647 s = true →
      ∃ e, parseElement x s (.plain .Int32 name) = .error (.err e)) ∧
    (badNumeral (-9223372036854775808) 9223372036854775807 s = true →
      ∃ e, parseElement x s (.plain .Int64 name) = .error (.err e)) ∧
    (badNumeral 0 255 s = true →
      ∃ e, parseElement x s (.plain .Uint8 name) = .error (.err e)) ∧
    (badNumeral 0 65535 s = true →
      ∃ e, parseElement x s (.plain .Uint16 name) = .error (.err e)) ∧
    (badNumeral 0 4294967295 s = true →
      ∃ e, parseElement x s (.plain .Uint32 name) = .error (.err e)) ∧
    (badNumeral 0 18446744073709551615 s = true →
      ∃ e, parseElement x s (.plain .Uint64 name) = .error (.err e)) := by
  refine ⟨?_, ?_, ?_, ?_, ?_, ?_, ?_, ?_⟩
  · intro h
    simp only [parseElement]
    exact signed_rejected 8 128 (by norm_num) (by norm_num) (by norm_num) s _ h
  · intro h
    simp only [parseElement]
    exact signed_rejected 16 32768 (by norm_num) (by norm_num) (by norm_num) s _ h
  · intro h
    simp only [parseElement]
    exact signed_rejected 32 2147483648 (by norm_num) (by norm_num) (by norm_num) s _ h
  · intro h
    simp only [parseElement]
    exact signed_rejected 64 9223372036854775808 (by norm_num) (by norm_num) (by norm_num) s _ h
  · intro h
    simp only [parseElement]
    exact unsigned_rejected 8 255 (by norm_num) (by norm_num) s _ h
  · intro h
    simp only [parseElement]
    exact unsigned_rejected 16 65535 (by norm_num) (by norm_num) s _ h
  · intro h
    simp only [parseElement]
    exact unsigned_rejected 32 4294967295 (by norm_num) (by norm_num) s _ h
  · intro h
    simp only [parseElement]
    exact unsigned_rejected 64 18446744073709551615 (by norm_num) (by norm_num) s _ h

theorem integer_text_rejected_witness :
    (∃ e, parseElement Extern.failing (bytes "128") (.plain .Int8 (bytes "int8")) = .error (.err e)) ∧
    (∃ e, parseElement Extern.failing (bytes "-9223372036854775809") (.plain .Int64 (bytes "int64"))
      = .error (.err e)) ∧
    (∃ e, parseElement Extern.failing (bytes "12a") (.plain .Int32 (bytes "int32")) = .error (.err e)) ∧
    (∃ e, parseElement Extern.failing (bytes "-") (.plain .Int16 (bytes "int16")) = .error (.err e)) ∧
    (∃ e, parseElement Extern.failing (bytes "-1") (.plain .Uint8 (bytes "uint8")) = .error (.err e)) ∧
    (∃ e, parseElement Extern.failing (bytes "18446744073709551616") (.plain .Uint64 (bytes "uint64"))
      = .error (.err e)) :=
  ⟨(integer_text_rejected Extern.failing (bytes "int8") (bytes "128")).1 (by decide),
   (integer_text_rejected Extern.failing (bytes "int64") (bytes "-9223372036854775809")).2.2.2.1
     (by decide),
   (integer_text_rejected Extern.failing (bytes "int32") (bytes "12a")).2.2.1 (by decide),
   (integer_text_rejected Extern.failing (bytes "int16") (bytes "-")).2.1 (by decide),
   (integer_text_rejected Extern.failing (bytes "uint8") (bytes "-1")).2.2.2.2.1 (by decide),
   (integer_text_rejected Extern.failing (bytes "uint64") (bytes "18446744073709551616")).2.2.2.2.2.2.2
     (by decide)⟩

end tsv

/-! ### Value decoder: arrays -/

namespace strings

/-- Every white-space encoding starts with a byte outside `33..127`. -/
theorem spaceSeqs_heads :
    spaceSeqs.all (fun q => match q with
      | [] => false
      | h :: _ => decide (h < 33) || decide (127 < h)) = true := by
  decide

/-- Every white-space encoding ends with a byte outside `33..127`. -/
theorem spaceSeqs_lasts :
    (spaceSeqs.map List.reverse).all (fun q => match q with
      | [] => false
      | h :: _ => decide (h < 33) || decide (127 < h)) = true := by
  decide

theorem find_prefix_none (seqs : List Str)
    (hseqs : seqs.all (fun q => match q with
      | [] => false
      | h :: _ => decide (h < 33) || decide (127 < h)) = true)
    (c : Nat) (rest : Str) (hc : 33 ≤ c ∧ c ≤ 127) :
    seqs.find? (fun q => q.isPrefixOf (c :: rest)) = none := by
  rw [List.find?_eq_none]
  intro q hq
  have hq2 := List.all_eq_true.mp hseqs q hq
  cases q with
  | nil => simp at hq2
  | cons h t =>
    simp only [Bool.or_eq_true, decide_eq_true_eq] at hq2
    have hne : h ≠ c := by omega
    simp [List.isPrefixOf, hne]

theorem trimPrefixes_graphic (seqs : List Str)
    (hseqs : seqs.all (fun q => match q with
      | [] => false
      | h :: _ => decide (h < 33) || decide (127 < h)) = true)
    (fuel : Nat) (s : Str) (hs : ∀ c ∈ s, 33 ≤ c ∧ c ≤ 127) :
    trimPrefixes seqs fuel s = s := by
  cases fuel with
  | zero => rfl
  | succ fuel =>
    cases s with
    | nil =>
      simp only [trimPrefixes]
      split
      · rename_i q hq
        have hmem := List.mem_of_find?_eq_some hq
        have hq2 := List.all_eq_true.mp hseqs q hmem
        have hp := List.find?_some hq
        cases q with
        | nil => simp at hq2
        | cons h t => simp [List.isPrefixOf] at hp
      · rfl
    | cons c rest =>
      simp only [trimPrefixes, find_prefix_none seqs hseqs c rest (hs c (List.mem_cons_self _ _))]

/-- Text made only of bytes in `33..127` has no white space to trim. -/
theorem TrimSpace_graphic (s : Str) (hs : ∀ c ∈ s, 33 ≤ c ∧ c ≤ 127) : TrimSpace s = s := by
  unfold TrimSpace
  simp only
  rw [trimPrefixes_graphic spaceSeqs spaceSeqs_heads _ s hs]
  rw [trimPrefixes_graphic _ spaceSeqs_lasts _ s.reverse (by
    intro c hc
    exact hs c (List.mem_reverse.mp hc))]
  exact List.reverse_reverse s

theorem Split_no_sep (sep : Nat) (p : Str) (hp : sep ∉ p) : Split sep p = [p] := by
  induction p with
  | nil => rfl
  | cons c cs ih =>
    have hc : c ≠ sep := fun h => hp (by simp [h])
    have hcs : sep ∉ cs := fun h => hp (List.mem_cons_of_mem _ h)
    simp [Split, hc, ih hcs]

theorem Split_append_sep (sep : Nat) (p rest : Str) (hp : sep ∉ p) :
    Split sep (p ++ sep :: rest) = p :: Split sep rest := by
  induction p with
  | nil => simp [Split]
  | cons c cs ih =>
    have hc : c ≠ sep := fun h => hp (by simp [h])
    have hcs : sep ∉ cs := fun h => hp (List.mem_cons_of_mem _ h)
    simp [Split, hc, ih hcs]

/-- Splitting the join of separator-free pieces gives the pieces back. -/
theorem Split_intercalate (sep : Nat) (p : Str) (parts : List Str)
    (h : ∀ q ∈ p :: parts, sep ∉ q) :
    Split sep (List.intercalate [sep] (p :: parts)) = p :: parts := by
  induction parts generalizing p with
  | nil =>
    simp only [csv.intercalate_cons_flatMap, List.flatMap_nil, List.append_nil]
    exact Split_no_sep sep p (h p (List.mem_cons_self _ _))
  | cons q parts ih =>
    have hq := ih q (fun r hr => h r (List.mem_cons_of_mem _ hr))
    rw [csv.intercalate_cons_flatMap] at hq ⊢
    simp only [List.flatMap_cons, List.singleton_append, List.cons_append] at hq ⊢
    rw [Split_append_sep sep p _ (h p (List.mem_cons_self _ _))]
    simp only [List.nil_append] at hq ⊢
    rw [hq]

end strings

namespace tsv

open reflect strconv

theorem mem_of_allDigits (ds : Str) (h : allDigits ds = true) : ∀ c ∈ ds, 48 ≤ c ∧ c ≤ 57 := by
  intro c hc
  have := List.all_eq_true.mp h c hc
  simpa using this

/-- The decimal text of an integer is non-empty and made of `-` and digits. -/
theorem intDecimal_bytes (v : Int) :
    intDecimal v ≠ [] ∧ ∀ c ∈ intDecimal v, c = 45 ∨ (48 ≤ c ∧ c ≤ 57) := by
  obtain ⟨h1, h2, _⟩ := natDecimal_spec v.natAbs
  have hd := mem_of_allDigits _ h2
  unfold intDecimal
  split
  · refine ⟨by simp, ?_⟩
    intro c hc
    rcases List.mem_cons.mp hc with h | h
    · exact Or.inl h
    · exact Or.inr (hd c h)
  · exact ⟨h1, fun c hc => Or.inr (hd c hc)⟩

theorem mem_intercalate (sep : Str) (l : List Str) (c : Nat)
    (hc : c ∈ List.intercalate sep l) : c ∈ sep ∨ ∃ p ∈ l, c ∈ p := by
  cases l with
  | nil => simp [List.intercalate] at hc
  | cons a l =>
    rw [csv.intercalate_cons_flatMap] at hc
    rcases List.mem_append.mp hc with h | h
    · exact Or.inr ⟨a, List.mem_cons_self _ _, h⟩
    · obtain ⟨f, hf, hcf⟩ := List.mem_flatMap.mp h
      rcases List.mem_append.mp hcf with h1 | h1
      · exact Or.inl h1
      · exact Or.inr ⟨f, List.mem_cons_of_mem _ hf, h1⟩

theorem interior_framed (b : Str) : interior ([91] ++ b ++ [93]) = b := by
  simp [interior]

theorem decodeAll_map (dec : Str → Res Value) (mk : Int → Value) (xs : List Int)
    (h : ∀ v ∈ xs, dec (intDecimal v) = .ok (mk v)) :
    ∀ acc, decodeAll dec (xs.map intDecimal) acc = .ok (acc ++ xs.map mk) := by
  induction xs with
  | nil => intro acc; simp [decodeAll]
  | cons v vs ih =>
    intro acc
    simp only [List.map_cons, decodeAll, h v (List.mem_cons_self _ _)]
    rw [ih (fun u hu => h u (List.mem_cons_of_mem _ hu))]
    simp

/-- C8: for every list `xs` of `int32` values, the text `[` + decimal texts of `xs`
joined by `,` + `]` decodes under the array-of-int32 tag to the sequence of the same
length whose `i`-th element is the `int32` value `xs[i]`. -/
theorem array_int32_decoded (x : Extern) (name : Str) (xs : List Int)
    (h : ∀ v ∈ xs, -2147483648 ≤ v ∧ v ≤ 2147483647) :
    parseElement x (arrayText xs) (.slice (.plain .Int32 name))
      = .ok (.slice (xs.map Value.int32)) := by
  have hlen : 2 ≤ (arrayText xs).length := by simp [arrayText]
  have hbody : ∀ c ∈ List.intercalate [44] (xs.map intDecimal), 33 ≤ c ∧ c ≤ 127 := by
    intro c hc
    rcases mem_intercalate _ _ c hc with h1 | ⟨p, hp, hcp⟩
    · simp at h1; omega
    · obtain ⟨v, _, hv⟩ := List.mem_map.mp hp
      rw [← hv] at hcp
      rcases (intDecimal_bytes v).2 c hcp with h2 | h2 <;> omega
  simp only [parseElement]
  rw [parseSlice_of_interior _ _ hlen]
  simp only [arrayText, interior_framed]
  rw [strings.TrimSpace_graphic _ hbody]
  cases xs with
  | nil => simp [List.intercalate]
  | cons v vs =>
    have hne : List.intercalate [44] (List.map intDecimal (v :: vs)) ≠ [] := by
      simp only [List.map_cons, csv.intercalate_cons_flatMap]
      intro hnil
      exact (intDecimal_bytes v).1 (List.append_eq_nil.mp hnil).1
    rw [if_neg hne]
    have hsplit : strings.Split 44 (List.intercalate [44] (List.map intDecimal (v :: vs)))
        = List.map intDecimal (v :: vs) := by
      simp only [List.map_cons]
      apply strings.Split_intercalate
      intro q hq hmem
      have hq2 : q ∈ List.map intDecimal (v :: vs) := by simpa using hq
      obtain ⟨u, _, hu⟩ := List.mem_map.mp hq2
      rw [← hu] at hmem
      rcases (intDecimal_bytes u).2 44 hmem with h2 | h2 <;> omega
    rw [hsplit]
    have hdec := decodeAll_map (fun r => parseElement x r (.plain .Int32 name)) Value.int32
      (v :: vs) (fun u hu => int32_round_trip x name u (h u hu).1 (h u hu).2) []
    simp only [parseElement] at hdec
    rw [hdec]
    simp

theorem array_int32_decoded_witness :
    arrayText [1, 2, 3] = bytes "[1,2,3]" ∧ arrayText [] = bytes "[]" ∧
    parseElement Extern.failing (arrayText [1, 2, 3]) (.slice (.plain .Int32 (bytes "int32")))
      = .ok (.slice [.int32 1, .int32 2, .int32 3]) ∧
    parseElement Extern.failing (arrayText []) (.slice (.plain .Int32 (bytes "int32")))
      = .ok (.slice []) ∧
    parseElement Extern.failing (arrayText [-2147483648, 2147483647])
        (.slice (.plain .Int32 (bytes "int32")))
      = .ok (.slice [.int32 (-2147483648), .int32 2147483647]) :=
  ⟨by decide, by decide,
   array_int32_decoded Extern.failing (bytes "int32") [1, 2, 3] (by decide),
   array_int32_decoded Extern.failing (bytes "int32") [] (by decide),
   array_int32_decoded Extern.failing (bytes "int32") [-2147483648, 2147483647] (by decide)⟩

end tsv

/-! ### Chunk pool: state invariant -/

namespace dump

/-- From cursor `i ≤ len c`, after `n` calls the plan is unchanged, the cursor is
`min (i + n) (len c)` and it advanced by the number of successful calls. -/
theorem nextN_state (c : List ChunkMeta) :
    ∀ (n i : Nat), i ≤ c.length →
      (nextN n ⟨c, i⟩).2 = ⟨c, min (i + n) c.length⟩ ∧
      ((nextN n ⟨c, i⟩).1.filter (fun r => r.2)).length + i = min (i + n) c.length := by
  intro n
  induction n with
  | zero =>
    intro i hi
    simp [nextN, Nat.min_eq_left hi]
  | succ n ih =>
    intro i hi
    by_cases hlt : i < c.length
    · obtain ⟨h1, h2⟩ := ih (i + 1) (by omega)
      simp only [nextN, Next_of_lt c i hlt]
      refine ⟨?_, ?_⟩
      · rw [h1]
        congr 1
        omega
      · simp only [List.filter_cons_of_pos, List.length_cons]
        omega
    · have hle : c.length ≤ i := by omega
      obtain ⟨h1, h2⟩ := ih i hi
      simp only [nextN, Next_of_ge c i hle]
      refine ⟨?_, ?_⟩
      · rw [h1]
        congr 1
        omega
      · simp only [Bool.false_eq_true, not_false_eq_true, List.filter_cons_of_neg]
        omega

/-- C14: in every state reached from `NewChunkPool c` by `n` calls of `Next`, the stored
plan is `c`, the cursor is at most `len c` and equals the number of descriptors delivered
so far; the next call either returns `more = true` and moves the cursor up by exactly one,
or returns `more = false` and leaves the state as it is. -/
theorem pool_state_invariant (c : List ChunkMeta) (p : ChunkPool) (n : Nat)
    (hp : NewChunkPool c = .ok p) :
    (nextN n p).2.chunks = c ∧
    (nextN n p).2.currentIdx ≤ c.length ∧
    (nextN n p).2.currentIdx = ((nextN n p).1.filter (fun r => r.2)).length ∧
    ((nextN n p).2.Next.1.2 = true →
      (nextN n p).2.Next.2 = ⟨c, (nextN n p).2.currentIdx + 1⟩) ∧
    ((nextN n p).2.Next.1.2 = false → (nextN n p).2.Next.2 = (nextN n p).2) ∧
    (nextN n p).2.currentIdx ≤ (nextN (n + 1) p).2.currentIdx := by
  have hp2 : p = ⟨c, 0⟩ := by
    unfold NewChunkPool at hp
    split at hp
    · cases hp
    · cases hp; rfl
  subst hp2
  obtain ⟨h1, h2⟩ := nextN_state c n 0 (Nat.zero_le _)
  obtain ⟨h3, _⟩ := nextN_state c (n + 1) 0 (Nat.zero_le _)
  rw [h1, h3]
  simp only [Nat.zero_add, Nat.add_zero] at h2 ⊢
  refine ⟨trivial, Nat.min_le_right _ _, h2.symm, ?_, ?_, ?_⟩
  · intro ht
    by_cases hlt : min n c.length < c.length
    · rw [Next_of_lt c _ hlt]
    · rw [Next_of_ge c _ (by omega)] at ht
      cases ht
  · intro hf
    by_cases hlt : min n c.length < c.length
    · rw [Next_of_lt c _ hlt] at hf
      cases hf
    · rw [Next_of_ge c _ (by omega)]
  · omega

theorem pool_state_invariant_witness :
    (nextN 3 ⟨[⟨1, some ⟨0, 0, 0⟩, some ⟨60, 0, 0⟩, 0, 0⟩, ⟨2, none, none, 1, 0⟩], 0⟩).2.currentIdx
      ≤ 2 :=
  (pool_state_invariant [⟨1, some ⟨0, 0, 0⟩, some ⟨60, 0, 0⟩, 0, 0⟩, ⟨2, none, none, 1, 0⟩]
    _ 3 rfl).2.1

end dump

/-! ### Value decoder: framing of array text -/

namespace strings

theorem spaceSeqs_prefix_free :
    spaceSeqs.all (fun q => spaceSeqs.all (fun q1 => !(q1.isPrefixOf q) || decide (q1 = q)))
      = true := by
  decide

theorem spaceSeqs_nonempty : spaceSeqs.all (fun q => decide (0 < q.length)) = true := by
  decide

theorem prefix_free_eq (q q1 : Str) (hq : q ∈ spaceSeqs) (hq1 : q1 ∈ spaceSeqs)
    (hp : q1 <+: q) : q1 = q := by
  have h := List.all_eq_true.mp (List.all_eq_true.mp spaceSeqs_prefix_free q hq) q1 hq1
  have hp2 : q1.isPrefixOf q = true := List.isPrefixOf_iff_prefix.mpr hp
  simpa [hp2] using h

/-- In front of text that starts with a white-space encoding, that encoding is the one
found. -/
theorem find_space_prefix (q rest : Str) (hq : q ∈ spaceSeqs) :
    spaceSeqs.find? (fun s => s.isPrefixOf (q ++ rest)) = some q := by
  cases hf : spaceSeqs.find? (fun s => s.isPrefixOf (q ++ rest)) with
  | none =>
    have h := List.find?_eq_none.mp hf q hq
    have hp : q.isPrefixOf (q ++ rest) = true :=
      List.isPrefixOf_iff_prefix.mpr (List.prefix_append q rest)
    rw [hp] at h
    exact absurd rfl h
  | some q1 =>
    have hmem := List.mem_of_find?_eq_some hf
    have hp1 : q1 <+: q ++ rest := List.isPrefixOf_iff_prefix.mp (by simpa using List.find?_some hf)
    have hp : q <+: q ++ rest := List.prefix_append q rest
    rcases Nat.le_total q1.length q.length with hle | hle
    · rw [prefix_free_eq q q1 hq hmem (List.prefix_of_prefix_length_le hp1 hp hle)]
    · rw [prefix_free_eq q1 q hmem hq (List.prefix_of_prefix_length_le hp hp1 hle)]

theorem trimPrefixes_nil (seqs : List Str) (fuel : Nat) : trimPrefixes seqs fuel [] = [] ∨
    ∃ q, seqs.find? (fun s => s.isPrefixOf []) = some q := by
  cases fuel with
  | zero => exact Or.inl rfl
  | succ fuel =>
    cases hf : seqs.find? (fun s => s.isPrefixOf []) with
    | none => left; simp [trimPrefixes, hf]
    | some q => exact Or.inr ⟨q, rfl⟩

/-- Text made of white-space encodings only is trimmed away entirely. -/
theorem trimPrefixes_spaces :
    ∀ (runs : List Str) (fuel : Nat), (∀ q ∈ runs, q ∈ spaceSeqs) → runs.length ≤ fuel →
      trimPrefixes spaceSeqs fuel runs.flatten = [] := by
  intro runs
  induction runs with
  | nil =>
    intro fuel _ _
    rcases trimPrefixes_nil spaceSeqs fuel with h | ⟨q, h⟩
    · simpa using h
    · have hnone : spaceSeqs.find? (fun s => s.isPrefixOf []) = none := by decide
      rw [hnone] at h
      cases h
  | cons q runs ih =>
    intro fuel hall hlen
    cases fuel with
    | zero => simp at hlen
    | succ fuel =>
      have hq : q ∈ spaceSeqs := hall q (List.mem_cons_self _ _)
      simp only [List.flatten_cons, trimPrefixes, find_space_prefix q runs.flatten hq,
        List.drop_left]
      exact ih fuel (fun r hr => hall r (List.mem_cons_of_mem _ hr)) (by simpa using hlen)

theorem length_flatten_ge (runs : List Str) (hall : ∀ q ∈ runs, q ∈ spaceSeqs) :
    runs.length ≤ runs.flatten.length := by
  induction runs with
  | nil => simp
  | cons q runs ih =>
    have hq := List.all_eq_true.mp spaceSeqs_nonempty q (hall q (List.mem_cons_self _ _))
    have h1 := ih (fun r hr => hall r (List.mem_cons_of_mem _ hr))
    simp only [decide_eq_true_eq] at hq
    simp only [List.flatten_cons, List.length_append, List.length_cons]
    omega

/-- In summary, `TrimSpace` of white space is the empty text. -/
theorem TrimSpace_spaces (runs : List Str) (hall : ∀ q ∈ runs, q ∈ spaceSeqs) :
    TrimSpace runs.flatten = [] := by
  unfold TrimSpace
  simp only
  rw [trimPrefixes_spaces runs _ hall (length_flatten_ge runs hall)]
  rfl

end strings

namespace tsv

open reflect

theorem parseSlice_short (dec : Str → Res Value) (record : Str) (h : record.length < 2) :
    parseSlice dec record = .error (.panic "slice bounds out of range") := by
  simp [parseSlice, h]

/-- C15 fails on the code: under an array tag the empty text and a text of one byte make
`parseSlice` take `slice[1 : len(slice)-1]` out of bounds, so `parseElement` aborts with a
run-time panic instead of returning a value or an error. -/
theorem array_decoding_aborts :
    parseElement Extern.failing (bytes "") (.slice (.plain .Int32 (bytes "int32")))
      = .error (.panic "slice bounds out of range") ∧
    parseElement Extern.failing (bytes "[") (.slice (.plain .Int32 (bytes "int32")))
      = .error (.panic "slice bounds out of range") ∧
    parseElement Extern.failing (bytes "7") (.slice (.plain .String (bytes "string")))
      = .error (.panic "slice bounds out of range") := by
  refine ⟨rfl, rfl, rfl⟩

/-- C12, as the code behaves: under an array tag a text of at least two bytes loses its
first and last byte unseen and is decoded exactly like the bracket-framed text with the
same interior. -/
theorem array_framing_unchecked (x : Extern) (elem : RType) (record : Str)
    (h : 2 ≤ record.length) :
    parseElement x record (.slice elem)
      = parseElement x ([91] ++ interior record ++ [93]) (.slice elem) := by
  have h2 : 2 ≤ ([91] ++ interior record ++ [93]).length := by simp
  simp only [parseElement]
  rw [parseSlice_of_interior _ record h, parseSlice_of_interior _ _ h2, interior_framed]

theorem array_framing_unchecked_witness :
    parseElement Extern.failing (bytes "x1,2y") (.slice (.plain .Int32 (bytes "int32")))
      = parseElement Extern.failing ([91] ++ interior (bytes "x1,2y") ++ [93])
          (.slice (.plain .Int32 (bytes "int32"))) :=
  array_framing_unchecked Extern.failing (.plain .Int32 (bytes "int32")) (bytes "x1,2y") (by decide)

/-- C12 as stated fails: the text `x1,2y` neither begins with `[` nor ends with `]`, and
under array-of-int32 it decodes to `[1, 2]`; likewise `12` decodes to the empty sequence. -/
theorem unframed_array_decoded :
    (bytes "x1,2y").head? ≠ some 91 ∧ (bytes "x1,2y").getLast? ≠ some 93 ∧
    parseElement Extern.failing (bytes "x1,2y") (.slice (.plain .Int32 (bytes "int32")))
      = .ok (.slice [.int32 1, .int32 2]) ∧
    parseElement Extern.failing (bytes "12") (.slice (.plain .Int32 (bytes "int32")))
      = .ok (.slice []) := by
  refine ⟨by decide, by decide, rfl, rfl⟩

/-- C13: for every element type and every text `[` w `]` in which `w` is white space only
(the empty `w` included), decoding under the array tag succeeds with the empty sequence,
although the empty text itself is an error under an integer tag. -/
theorem blank_array_is_empty (x : Extern) (elem : RType) (w : Str) (hw : whiteSpace w) :
    parseElement x ([91] ++ w ++ [93]) (.slice elem) = .ok (.slice []) ∧
    parseElement x [] (.plain .Int32 (bytes "int32"))
      = .error (.err (.num "ParseInt" [] false)) := by
  obtain ⟨runs, hall, hw2⟩ := hw
  subst hw2
  refine ⟨?_, rfl⟩
  have h2 : 2 ≤ ([91] ++ runs.flatten ++ [93]).length := by simp
  simp only [parseElement]
  rw [parseSlice_of_interior _ _ h2, interior_framed, strings.TrimSpace_spaces runs hall]
  rfl

theorem blank_array_is_empty_witness :
    parseElement Extern.failing (bytes "[ \t ]") (.slice (.plain .Int32 (bytes "int32")))
      = .ok (.slice []) ∧
    parseElement Extern.failing (bytes "[]") (.slice (.plain .Int32 (bytes "int32")))
      = .ok (.slice []) :=
  ⟨(blank_array_is_empty Extern.failing (.plain .Int32 (bytes "int32")) (bytes " \t ")
      ⟨[[32], [9], [32]], by decide, by decide⟩).1,
   (blank_array_is_empty Extern.failing (.plain .Int32 (bytes "int32")) []
      ⟨[], by decide, by decide⟩).1⟩

end tsv

/-! ### Chunk descriptor text -/

namespace fmt

open tsv

theorem fmtDigits_eq (fuel : Nat) : ∀ (u : Nat) (buf : Str),
    fmtDigits fuel u buf = natDecimalAux fuel u buf := by
  induction fuel with
  | zero => intro u buf; rfl
  | succ fuel ih =>
    intro u buf
    by_cases h : u < 10
    · have h2 : ¬ u ≥ 10 := by omega
      simp [fmtDigits, natDecimalAux, h, h2]
    · have h2 : u ≥ 10 := by omega
      have h3 : 48 + u - u / 10 * 10 = 48 + u % 10 := by omega
      simp only [fmtDigits, natDecimalAux, h, h2, if_true, if_false, h3]
      exact ih _ _

/-- The verb `%d` writes the plain decimal text of every `int64`. -/
theorem fmtInteger_eq (v : Int) (hlo : -9223372036854775808 ≤ v) (hhi : v ≤ 9223372036854775807) :
    fmtInteger v = intDecimal v := by
  unfold fmtInteger intDecimal natDecimal
  simp only [fmtDigits_eq]
  by_cases hneg : v < 0
  · have hu : (2 ^ 64 - (v % 2 ^ 64).toNat) % 2 ^ 64 = v.natAbs := by
      norm_num
      omega
    simp only [hneg, decide_True, if_true, hu]
  · have hu : (v % 2 ^ 64).toNat = v.natAbs := by
      norm_num
      omega
    simp only [hneg, decide_False, if_false, hu]
    simp

end fmt

namespace dump

open tsv

/-- The Unix seconds used for a bound: those of the time when present, zero when absent. -/
theorem Unix_range (t : GoTime) :
    -9223372036854775808 ≤ GoTime.Unix t ∧ GoTime.Unix t ≤ 9223372036854775807 := by
  unfold GoTime.Unix strconv.toSigned
  norm_num
  omega

theorem String_eq (c : ChunkMeta) (s e : Int)
    (hs : s = match c.Start with
      | some t => GoTime.Unix t
      | none => 0)
    (he : e = match c.End with
      | some t => GoTime.Unix t
      | none => 0) :
    ChunkMeta.String c = intDecimal s ++ [45] ++ intDecimal e := by
  have hsr : -9223372036854775808 ≤ s ∧ s ≤ 9223372036854775807 := by
    rw [hs]
    cases c.Start with
    | none => simp
    | some t => exact Unix_range t
  have her : -9223372036854775808 ≤ e ∧ e ≤ 9223372036854775807 := by
    rw [he]
    cases c.End with
    | none => simp
    | some t => exact Unix_range t
  have hdash : bytes "-" = [45] := by decide
  unfold ChunkMeta.String
  simp only [← hs, ← he, hdash]
  rw [fmt.fmtInteger_eq s hsr.1 hsr.2, fmt.fmtInteger_eq e her.1 her.2]

/-- C16: `ChunkMeta.String` returns the decimal text of `s`, a `-` and the decimal text of
`e`, where `s` and `e` are the Unix seconds of `Start` and `End` when present and `0`
when absent. Hence descriptors that differ only in `Source`, `Index` or `RowsLen`, or
only in an absent bound against a bound at epoch second `0`, give the same string. -/
theorem ChunkMeta_String_spec (c : ChunkMeta) :
    (ChunkMeta.String c =
      intDecimal (match c.Start with
        | some t => GoTime.Unix t
        | none => 0) ++ [45] ++
      intDecimal (match c.End with
        | some t => GoTime.Unix t
        | none => 0)) ∧
    (∀ (src : SourceType) (idx rows : Int),
      ChunkMeta.String ⟨src, c.Start, c.End, idx, rows⟩ = ChunkMeta.String c) ∧
    (∀ t : GoTime, GoTime.Unix t = 0 →
      ChunkMeta.String { c with Start := some t } = ChunkMeta.String { c with Start := none }) ∧
    (∀ t : GoTime, GoTime.Unix t = 0 →
      ChunkMeta.String { c with End := some t } = ChunkMeta.String { c with End := none }) := by
  refine ⟨String_eq c _ _ rfl rfl, ?_, ?_, ?_⟩
  · intro src idx rows
    rw [String_eq c _ _ rfl rfl, String_eq ⟨src, c.Start, c.End, idx, rows⟩ _ _ rfl rfl]
  · intro t ht
    rw [String_eq { c with Start := some t } _ _ rfl rfl,
      String_eq { c with Start := none } _ _ rfl rfl]
    simp only [ht]
  · intro t ht
    rw [String_eq { c with End := some t } _ _ rfl rfl,
      String_eq { c with End := none } _ _ rfl rfl]
    simp only [ht]

theorem ChunkMeta_String_example :
    ChunkMeta.String ⟨1, some ⟨1600000000, 0, 0⟩, some ⟨1600000300, 0, 7200⟩, 4, 0⟩
      = bytes "1600000000-1600000300" ∧
    ChunkMeta.String ⟨2, none, some ⟨0, 5, 0⟩, 0, 9⟩ = bytes "0-0" := by
  decide

end dump

theorem ChunkMeta_String_spec_witness :
    dump.ChunkMeta.String ⟨9, none, some ⟨60, 0, 0⟩, 3, 8⟩
      = dump.ChunkMeta.String ⟨0, none, some ⟨60, 0, 0⟩, 0, 0⟩ :=
  (dump.ChunkMeta_String_spec ⟨0, none, some ⟨60, 0, 0⟩, 0, 0⟩).2.1 9 3 8

/-! ### Arguments recorded in the meta file -/

namespace main

theorem choose_eq_maskedArg (pmmURL prev v args1 : Str) :
    (if prev = bytes "--pmm-url" then args1 ++ pmmURL
      else if prev = bytes "--pmm-user" then args1 ++ bytes "***"
      else if prev = bytes "--pmm-pass" then args1 ++ bytes "***"
      else args1 ++ v) = args1 ++ maskedArg pmmURL prev v := by
  have h1 : bytes "--pmm-url" ≠ bytes "--pmm-user" := by decide
  have h2 : bytes "--pmm-url" ≠ bytes "--pmm-pass" := by decide
  unfold maskedArg
  by_cases hu : prev = bytes "--pmm-url"
  · subst hu
    simp [h1, h2]
  · by_cases hs : prev = bytes "--pmm-user"
    · simp [hs, h1.symm]
    · by_cases hp : prev = bytes "--pmm-pass"
      · simp [hp, h2.symm]
      · simp [hu, hs, hp]

theorem composeMetaLoop_spec (pmmURL : Str) (osArgs : List Str) :
    ∀ (rest : List Str) (i : Nat) (prev args : Str), osArgs.drop (i + 1) = prev :: rest →
      composeMetaLoop pmmURL osArgs (i + 1) rest args
        = .ok (args ++ (List.zipWith (maskedArg pmmURL) (prev :: rest) rest).flatMap
            (fun piece => bytes " " ++ piece)) := by
  intro rest
  induction rest with
  | nil => intro i prev args _; simp [composeMetaLoop]
  | cons v rest ih =>
    intro i prev args hdrop
    have hget : osArgs.get? (i + 1) = some prev := by
      have := congrArg List.head? hdrop
      simpa [List.head?_drop] using this
    have hnext : osArgs.drop (i + 1 + 1) = v :: rest := by
      have := congrArg List.tail hdrop
      simpa [List.tail_drop] using this
    simp only [composeMetaLoop, hget, choose_eq_maskedArg]
    rw [ih (i + 1) v _ hnext]
    simp

/-- C17: the `Arguments` string is the arguments after the program name joined by single
spaces, in which an argument that immediately follows `--pmm-user` or `--pmm-pass` in
`os.Args` is replaced by `***`, one that immediately follows `--pmm-url` by `pmmURL`, and
every other argument stands verbatim; so at the position after a credential flag the
string holds `***` whatever the argument was. -/
theorem composeMeta_arguments (pmmURL prog : Str) (rest : List Str) :
    composeMeta pmmURL (prog :: rest)
      = .ok (List.intercalate (bytes " ")
          (List.zipWith (maskedArg pmmURL) (prog :: rest) rest)) ∧
    (∀ (i : Nat) (prev v : Str), (prog :: rest).get? i = some prev → rest.get? i = some v →
      (prev = bytes "--pmm-user" ∨ prev = bytes "--pmm-pass") →
      (List.zipWith (maskedArg pmmURL) (prog :: rest) rest).get? i = some (bytes "***")) ∧
    (∀ (i : Nat) (prev v : Str), (prog :: rest).get? i = some prev → rest.get? i = some v →
      prev ≠ bytes "--pmm-user" → prev ≠ bytes "--pmm-pass" → prev ≠ bytes "--pmm-url" →
      (List.zipWith (maskedArg pmmURL) (prog :: rest) rest).get? i = some v) := by
  refine ⟨?_, ?_, ?_⟩
  · cases rest with
    | nil => rfl
    | cons v rest =>
      have hget : (prog :: v :: rest).get? 0 = some prog := rfl
      simp only [composeMeta, composeMetaLoop, hget, choose_eq_maskedArg]
      rw [composeMetaLoop_spec pmmURL (prog :: v :: rest) rest 0 v _ rfl]
      simp only [List.zipWith_cons_cons, csv.intercalate_cons_flatMap]
      simp
  · intro i prev v hprev hv hflag
    simp only [List.get?_eq_getElem?] at hprev hv ⊢
    rw [List.getElem?_zipWith, hprev, hv]
    simp [maskedArg, hflag]
  · intro i prev v hprev hv h1 h2 h3
    simp only [List.get?_eq_getElem?] at hprev hv ⊢
    rw [List.getElem?_zipWith, hprev, hv]
    simp [maskedArg, h1, h2, h3]

theorem composeMeta_arguments_witness :
    composeMeta (bytes "http://pmm")
        [bytes "pmm-dump", bytes "export", bytes "--pmm-url", bytes "http://u:p@pmm",
         bytes "--pmm-user", bytes "admin", bytes "--pmm-pass", bytes "s3cret", bytes "-v"]
      = .ok (bytes "export --pmm-url http://pmm --pmm-user *** --pmm-pass *** -v") := by
  have h := (composeMeta_arguments (bytes "http://pmm") (bytes "pmm-dump")
    [bytes "export", bytes "--pmm-url", bytes "http://u:p@pmm",
     bytes "--pmm-user", bytes "admin", bytes "--pmm-pass", bytes "s3cret", bytes "-v"]).1
  rw [h]
  decide

end main

/-! ### Version check -/

namespace main

/-- C18 fails on the code: the check compares the version strings byte by byte, so the
server version `2.9.0`, numerically below `2.12.0`, is not flagged as lower, while
`10.0.0`, numerically above, is. -/
theorem version_check_is_textual :
    versionText 2 9 0 = bytes "2.9.0" ∧
    numericallyLower 2 9 0 = true ∧ checkVersionSupport (versionText 2 9 0) = false ∧
    versionText 10 0 0 = bytes "10.0.0" ∧
    numericallyLower 10 0 0 = false ∧ checkVersionSupport (versionText 10 0 0) = true := by
  decide

/-! ### Byte counts -/

theorem ediv_ediv_nonneg (b d u : Int) (hb : 0 ≤ b) (hd : 0 ≤ d) (hu : 0 ≤ u) :
    b / d / u = b / (d * u) := by
  lift b to ℕ using hb
  lift d to ℕ using hd
  lift u to ℕ using hu
  norm_cast
  exact Nat.div_div_eq_div_mul _ _ _

/-- The loop invariant: with `div = unit^(exp+1)`, `n = b / div ≥ 1` and enough fuel the
loop ends with `exp ≤ 5`, a divisor that is the exact power, and `div ≤ b < div * unit`. -/
theorem byteCountLoop_spec (U b : Int) (hU : 2 ≤ U) (hU7 : 9223372036854775808 ≤ U ^ 7)
    (hb : b < 9223372036854775808) :
    ∀ (fuel : Nat) (n div : Int) (exp : Nat), 6 ≤ exp + fuel → exp ≤ 5 → div = U ^ (exp + 1) →
      n = b / div → 1 ≤ n →
      ∃ div1 exp1, byteCountLoop U fuel n div exp = some (div1, exp1) ∧ exp1 ≤ 5 ∧
        div1 = U ^ (exp1 + 1) ∧ div1 ≤ b ∧ b < div1 * U := by
  intro fuel
  induction fuel with
  | zero => intro n div exp h6 h5; omega
  | succ fuel ih =>
    intro n div exp h6 h5 hdiv hn h1
    have hUpos : 0 < U := by omega
    have hdivpos : 0 < div := by rw [hdiv]; exact pow_pos hUpos _
    by_cases hge : n ≥ U
    · have hmul : U * div ≤ b := Int.mul_le_of_le_ediv hdivpos (by rw [← hn]; exact hge)
      have hpow : div * U = U ^ (exp + 1 + 1) := by
        rw [hdiv]
        exact (pow_succ U (exp + 1)).symm
      have hexp : exp + 1 ≤ 5 := by
        by_contra hc
        have he : exp = 5 := by omega
        rw [he] at hpow
        norm_num at hpow
        have : div * U = U * div := Int.mul_comm _ _
        omega
      have hfit : strconv.toSigned 64 (div * U) = div * U := by
        have h0 : 0 < div * U := Int.mul_pos hdivpos hUpos
        have hc : div * U = U * div := Int.mul_comm _ _
        exact tsv.toSigned_id 64 9223372036854775808 (by norm_num) (by norm_num) _
          (by omega) (by omega)
      have hn0 : 0 ≤ n := by omega
      have htdiv : n.tdiv U = n / U := Int.tdiv_eq_ediv hn0 (by omega)
      have hb0 : 0 ≤ b := by
        have h0 : 0 < U * div := Int.mul_pos hUpos hdivpos
        omega
      have hn2 : n / U = b / (div * U) := by
        rw [hn]
        exact ediv_ediv_nonneg b div U hb0 (by omega) (by omega)
      have h12 : 1 ≤ n / U := Int.le_ediv_of_mul_le hUpos (by omega)
      simp only [byteCountLoop, hge, if_true, hfit, htdiv]
      exact ih (n / U) (div * U) (exp + 1) (by omega) hexp hpow hn2 h12
    · have hle : div ≤ b := by
        have h1b : 1 ≤ b / div := by rw [← hn]; exact h1
        have := Int.mul_le_of_le_ediv hdivpos h1b
        omega
      have hlt : b < U * div := Int.lt_mul_of_ediv_lt hdivpos (by rw [← hn]; omega)
      have hc : div * U = U * div := Int.mul_comm _ _
      refine ⟨div, exp, ?_, h5, hdiv, hle, by omega⟩
      simp only [byteCountLoop, hge, if_false]

theorem byteCount_plain (U : Int) (table : Str) (fuel : Nat) (b : Int) (h : b < U)
    (hlo : -9223372036854775808 ≤ b) (hhi : b ≤ 9223372036854775807) :
    byteCount U table fuel b = some (.ok (.plain (tsv.intDecimal b ++ bytes " B"))) := by
  simp only [byteCount, h, if_true, fmt.fmtInteger_eq b hlo hhi]

theorem byteCount_scaled (U : Int) (table : Str) (hU : 2 ≤ U)
    (hU7 : 9223372036854775808 ≤ U ^ 7) (htab : table.length = 6) (fuel : Nat) (b : Int)
    (hhi : b ≤ 9223372036854775807) (hfuel : 6 ≤ fuel) (hb : U ≤ b) :
    ∃ div exp suffix, byteCountLoop U fuel (b.tdiv U) U 0 = some (div, exp) ∧ exp ≤ 5 ∧
      table.get? exp = some suffix ∧ div = U ^ (exp + 1) ∧ div ≤ b ∧ b < div * U ∧
      byteCount U table fuel b = some (.ok (.scaled b div suffix)) := by
  have hUpos : 0 < U := by omega
  have htdiv : b.tdiv U = b / U := Int.tdiv_eq_ediv (by omega) (by omega)
  have h1 : 1 ≤ b / U := Int.le_ediv_of_mul_le hUpos (by omega)
  obtain ⟨div, exp, hloop, hexp, hdiv, hle, hlt⟩ :=
    byteCountLoop_spec U b hU hU7 (by omega) fuel (b / U) U 0 (by omega) (by omega)
      (by norm_num) rfl h1
  have hidx : exp < table.length := by omega
  refine ⟨div, exp, table.get ⟨exp, hidx⟩, ?_, hexp, ?_, hdiv, hle, hlt, ?_⟩
  · rw [htdiv]; exact hloop
  · exact List.get?_eq_get hidx
  · have hnot : ¬ b < U := by omega
    simp only [byteCount, hnot, if_false, htdiv, hloop, List.get?_eq_get hidx]

/-- C19: for every `int64` value `b` and enough fuel (six loop tests), both functions
return. For `b < unit`, negative `b` included, the result is the decimal text of `b`
followed by ` B`. For `b ≥ unit` the loop ends with an exponent `exp ≤ 5`, so the index
into the six-byte suffix table is in range, and with `div = unit^(exp+1)` computed without
overflow and `div ≤ b < div * unit`. -/
theorem byte_count_safe (b : Int) (fuel : Nat) (hlo : -9223372036854775808 ≤ b)
    (hhi : b ≤ 9223372036854775807) (hfuel : 6 ≤ fuel) :
    (b < 1000 → ByteCountDecimal fuel b = some (.ok (.plain (tsv.intDecimal b ++ bytes " B")))) ∧
    (1000 ≤ b → ∃ div exp suffix,
      byteCountLoop 1000 fuel (b.tdiv 1000) 1000 0 = some (div, exp) ∧ exp ≤ 5 ∧
      (bytes "kMGTPE").get? exp = some suffix ∧ div = 1000 ^ (exp + 1) ∧ div ≤ b ∧
      b < div * 1000 ∧ ByteCountDecimal fuel b = some (.ok (.scaled b div suffix))) ∧
    (b < 1024 → ByteCountBinary fuel b = some (.ok (.plain (tsv.intDecimal b ++ bytes " B")))) ∧
    (1024 ≤ b → ∃ div exp suffix,
      byteCountLoop 1024 fuel (b.tdiv 1024) 1024 0 = some (div, exp) ∧ exp ≤ 5 ∧
      (bytes "KMGTPE").get? exp = some suffix ∧ div = 1024 ^ (exp + 1) ∧ div ≤ b ∧
      b < div * 1024 ∧ ByteCountBinary fuel b = some (.ok (.scaled b div suffix))) := by
  refine ⟨?_, ?_, ?_, ?_⟩
  · intro h
    exact byteCount_plain 1000 _ fuel b h hlo hhi
  · intro h
    exact byteCount_scaled 1000 (bytes "kMGTPE") (by norm_num) (by norm_num) (by decide) fuel b
      hhi hfuel h
  · intro h
    exact byteCount_plain 1024 _ fuel b h hlo hhi
  · intro h
    exact byteCount_scaled 1024 (bytes "KMGTPE") (by norm_num) (by norm_num) (by decide) fuel b
      hhi hfuel h

theorem byte_count_safe_witness :
    ByteCountDecimal 6 (-5) = some (.ok (.plain (tsv.intDecimal (-5) ++ bytes " B"))) ∧
    (∃ div exp suffix,
      byteCountLoop 1024 6 ((9223372036854775807 : Int).tdiv 1024) 1024 0 = some (div, exp) ∧
      exp ≤ 5 ∧ (bytes "KMGTPE").get? exp = some suffix ∧ div = 1024 ^ (exp + 1) ∧
      div ≤ 9223372036854775807 ∧ 9223372036854775807 < div * 1024 ∧
      ByteCountBinary 6 9223372036854775807 = some (.ok (.scaled 9223372036854775807 div suffix))) :=
  ⟨(byte_count_safe (-5) 6 (by decide) (by decide) (by decide)).1 (by decide),
   (byte_count_safe 9223372036854775807 6 (by decide) (by decide) (by decide)).2.2.2 (by decide)⟩

theorem byte_count_examples :
    ByteCountDecimal 6 1500000 = some (.ok (.scaled 1500000 1000000 77)) ∧
    ByteCountBinary 6 9223372036854775807
      = some (.ok (.scaled 9223372036854775807 1152921504606846976 69)) ∧
    ByteCountDecimal 6 999 = some (.ok (.plain (bytes "999 B"))) := by
  decide

end main

/-! ### Timestamps -/

namespace gotime

theorem isDigit_zero (c : Nat) (rest : Str) :
    isDigit (c :: rest) 0 = decide (48 ≤ c ∧ c ≤ 57) := rfl

theorem isDigit_one (c d : Nat) (rest : Str) :
    isDigit (c :: d :: rest) 1 = decide (48 ≤ d ∧ d ≤ 57) := rfl

theorem getnum_two (a b : Nat) (rest : Str) (fixed : Bool) (ha : a ≤ 9) (hb : b ≤ 9) :
    getnum ((48 + a) :: (48 + b) :: rest) fixed = some (a * 10 + b, rest) := by
  have h1 : 48 ≤ 48 + a ∧ 48 + a ≤ 57 := by omega
  have h2 : 48 ≤ 48 + b ∧ 48 + b ≤ 57 := by omega
  simp [getnum, isDigit_zero, isDigit_one, h1, h2]

theorem getnum_pad2 (n : Nat) (rest : Str) (fixed : Bool) (hn : n ≤ 99) :
    getnum (pad2 n ++ rest) fixed = some (n, rest) := by
  have h := getnum_two (n / 10 % 10) (n % 10) rest fixed (by omega) (by omega)
  have hv : n / 10 % 10 * 10 + n % 10 = n := by omega
  rw [hv] at h
  exact h

theorem skip_byte (c : Nat) (rest : Str) (hc : c ≠ 32) : skip (c :: rest) [c] = some rest := by
  simp [skip, skipLoop, hc]

theorem skip_space (c : Nat) (rest : Str) (hc : c ≠ 32) :
    skip (32 :: c :: rest) [32] = some (c :: rest) := by
  simp [skip, skipLoop, cutspace, List.dropWhile, hc]

theorem skip_suffix : skip (bytes " UTC") (bytes " UTC") = some [] := by decide

theorem leadingInt_digit (a x : Nat) (rest : Str) (ha : a ≤ 9) (hx : x ≤ 100000000000) :
    leadingInt ((48 + a) :: rest) x = leadingInt rest (x * 10 + a) := by
  have h1 : ¬ (48 + a < 48 ∨ 48 + a > 57) := by omega
  have hp : (2 : Nat) ^ 63 = 9223372036854775808 := by norm_num
  have h2 : ¬ x > 9223372036854775808 / 10 := by omega
  have h3 : ¬ x * 10 + (48 + a) - 48 > 9223372036854775808 := by omega
  have h4 : x * 10 + (48 + a) - 48 = x * 10 + a := by omega
  have h5 : ¬ x * 10 + a > 9223372036854775808 := by omega
  simp only [leadingInt, h1, hp, h2, h3, if_false, h4, h5]

theorem atoi_pad4 (n : Nat) (hn : n ≤ 9999) : atoi (pad4 n) = some (n : Int) := by
  have hs1 : ¬ (48 + n / 1000 % 10 = 45) := by omega
  have hs2 : ¬ (48 + n / 1000 % 10 = 43) := by omega
  have hv : (((0 * 10 + n / 1000 % 10) * 10 + n / 100 % 10) * 10 + n / 10 % 10) * 10 + n % 10 = n := by
    omega
  simp only [atoi, pad4, List.head?_cons, Option.some.injEq, hs1, hs2, or_self, if_false,
    decide_False]
  rw [leadingInt_digit _ _ _ (by omega) (by omega), leadingInt_digit _ _ _ (by omega) (by omega),
    leadingInt_digit _ _ _ (by omega) (by omega), leadingInt_digit _ _ _ (by omega) (by omega), hv]
  simp [leadingInt]

theorem parseFraction_space (rest : Str) : parseFraction (32 :: rest) = some (0, 32 :: rest) := by
  simp [parseFraction]

theorem parseDate_stamp (year month day : Nat) (rest : Str) (hy : year ≤ 9999)
    (hm1 : 1 ≤ month) (hm : month ≤ 12) (hd : day ≤ 99) :
    parseDate (pad4 year ++ bytes "-" ++ pad2 month ++ bytes "-" ++ pad2 day ++ rest)
      = .ok ((year : Int), month, day, rest) := by
  have hdash : bytes "-" = [45] := by decide
  have h0 : isDigit (pad4 year ++ [45] ++ pad2 month ++ [45] ++ pad2 day ++ rest) 0 = true := by
    simp [pad4, isDigit_zero]
    omega
  have hlen : ¬ (pad4 year ++ [45] ++ pad2 month ++ [45] ++ pad2 day ++ rest).length < 4 := by
    simp [pad4]
  have htake : (pad4 year ++ [45] ++ pad2 month ++ [45] ++ pad2 day ++ rest).take 4 = pad4 year := by
    simp [pad4]
  have hdrop : (pad4 year ++ [45] ++ pad2 month ++ [45] ++ pad2 day ++ rest).drop 4
      = 45 :: (pad2 month ++ 45 :: (pad2 day ++ rest)) := by
    simp [pad4]
  have hrange : ¬ (month ≤ 0 ∨ 12 < month) := by omega
  simp only [parseDate, hdash, h0, hlen, htake, hdrop, atoi_pad4 year hy,
    skip_byte 45 _ (by decide), getnum_pad2 month _ true (by omega), hrange,
    getnum_pad2 day _ true hd, Bool.not_true, Bool.false_eq_true, or_self, if_false]

theorem parseClock_stamp (hour min sec : Nat) (rest : Str) (hh : hour ≤ 23) (hm : min ≤ 59)
    (hs : sec ≤ 59) :
    parseClock (bytes " " ++ pad2 hour ++ bytes ":" ++ pad2 min ++ bytes ":" ++ pad2 sec
        ++ 32 :: rest)
      = .ok (hour, min, sec, 0, 32 :: rest) := by
  have hsp : bytes " " = [32] := by decide
  have hcol : bytes ":" = [58] := by decide
  have hval : [32] ++ pad2 hour ++ [58] ++ pad2 min ++ [58] ++ pad2 sec ++ 32 :: rest
      = 32 :: (48 + hour / 10 % 10) :: ((48 + hour % 10) :: 58 :: (pad2 min ++ 58 :: (pad2 sec ++ 32 :: rest))) := by
    simp [pad2]
  have hh2 : pad2 hour ++ 58 :: (pad2 min ++ 58 :: (pad2 sec ++ 32 :: rest))
      = (48 + hour / 10 % 10) :: ((48 + hour % 10) :: 58 :: (pad2 min ++ 58 :: (pad2 sec ++ 32 :: rest))) := by
    simp [pad2]
  have h1 : ¬ 24 ≤ hour := by omega
  have h2 : ¬ 60 ≤ min := by omega
  have h3 : ¬ 60 ≤ sec := by omega
  simp only [parseClock, hsp, hcol, hval, skip_space _ _ (show 48 + hour / 10 % 10 ≠ 32 by omega)]
  rw [← hh2]
  simp only [getnum_pad2 hour _ false (by omega), h1, if_false, skip_byte 58 _ (by decide),
    getnum_pad2 min _ true (by omega), h2, getnum_pad2 sec _ true (by omega), h3,
    parseFraction_space]

theorem parseZone_stamp (west : Bool) (offH offM : Nat) (rest : Str) (hh : offH ≤ 23)
    (hm : offM ≤ 59) :
    parseZone ([if west then 45 else 43] ++ pad2 offH ++ pad2 offM ++ rest)
      = .ok ((if west then -(((offH * 60 + offM) * 60 : Nat) : Int)
          else (((offH * 60 + offM) * 60 : Nat) : Int)), rest) := by
  have hlen : ¬ ([if west then 45 else 43] ++ pad2 offH ++ pad2 offM ++ rest).length < 5 := by
    simp [pad2]
  have hhead : ([if west then 45 else 43] ++ pad2 offH ++ pad2 offM ++ rest).headD 0
      = (if west then 45 else 43) := by simp
  have hhr : (([if west then 45 else 43] ++ pad2 offH ++ pad2 offM ++ rest).drop 1).take 2
      = pad2 offH ++ [] := by simp [pad2]
  have hmm : (([if west then 45 else 43] ++ pad2 offH ++ pad2 offM ++ rest).drop 3).take 2
      = pad2 offM ++ [] := by simp [pad2]
  have hrest : ([if west then 45 else 43] ++ pad2 offH ++ pad2 offM ++ rest).drop 5 = rest := by
    simp [pad2]
  have hr : ¬ (offH > 24 ∨ offM > 60) := by omega
  simp only [parseZone, hlen, if_false, hhead, hhr, hmm, hrest,
    getnum_pad2 offH [] true (by omega), getnum_pad2 offM [] true (by omega), hr,
    Option.isNone_some, Bool.false_eq_true, or_self]
  cases west <;> simp

theorem daysIn_le (m : Nat) (year : Int) (h1 : 1 ≤ m) (h2 : m ≤ 12) : daysIn m year ≤ 31 := by
  unfold daysIn
  split
  · omega
  · interval_cases m <;> simp [daysBefore]

/-- On a text in the fixed layout with fields in range `Parse` returns the instant that
the text denotes, no nanoseconds and the offset of the text. -/
theorem Parse_stamp (year month day hour min sec : Nat) (west : Bool) (offH offM : Nat)
    (hy : year ≤ 9999) (hm1 : 1 ≤ month) (hm : month ≤ 12) (hd1 : 1 ≤ day)
    (hd : day ≤ daysIn month year) (hh : hour ≤ 23) (hmi : min ≤ 59) (hs : sec ≤ 59)
    (hoh : offH ≤ 23) (hom : offM ≤ 59) :
    Parse (bytes "2006-01-02 15:04:05 -0700 UTC")
        (stampText year month day hour min sec west offH offM)
      = .ok ⟨stampInstant year month day hour min sec west offH offM, 0,
          (if west then -(((offH * 60 + offM) * 60 : Nat) : Int)
            else (((offH * 60 + offM) * 60 : Nat) : Int))⟩ := by
  have hsp : bytes " " = [32] := by decide
  obtain ⟨zone, hzone⟩ : ∃ r, r = pad2 offH ++ pad2 offM ++ bytes " UTC" := ⟨_, rfl⟩
  obtain ⟨sign, hsigndef⟩ : ∃ c : Nat, c = if west then 45 else 43 := ⟨_, rfl⟩
  have htext : stampText year month day hour min sec west offH offM
      = pad4 year ++ bytes "-" ++ pad2 month ++ bytes "-" ++ pad2 day ++
        (bytes " " ++ pad2 hour ++ bytes ":" ++ pad2 min ++ bytes ":" ++ pad2 sec ++
          32 :: sign :: zone) := by
    simp [stampText, hsp, hzone, hsigndef]
  have hday := daysIn_le month year hm1 hm
  have hsign : sign ≠ 32 := by rw [hsigndef]; cases west <;> decide
  have hdayok : ¬ (day < 1 ∨ day > daysIn month ↑year) := by omega
  have hzoneparse : parseZone (sign :: zone)
      = .ok ((if west then -(((offH * 60 + offM) * 60 : Nat) : Int)
          else (((offH * 60 + offM) * 60 : Nat) : Int)), bytes " UTC") := by
    have h := parseZone_stamp west offH offM (bytes " UTC") hoh hom
    rw [hzone, hsigndef]
    simpa using h
  have hskip : skip (32 :: sign :: zone) (bytes " ") = some (sign :: zone) := by
    rw [hsp]
    exact skip_space sign zone hsign
  rw [htext]
  unfold Parse
  rw [if_neg (by simp), parseDate_stamp year month day _ hy hm1 hm (by omega)]
  simp only
  rw [parseClock_stamp hour min sec _ hh hmi hs]
  simp only
  rw [hskip]
  simp only
  rw [hzoneparse]
  simp only
  rw [skip_suffix]
  simp only [hdayok, if_false, stampInstant, ne_eq, not_true_eq_false]

theorem matchesLayout_stamp (year month day hour min sec : Nat) (west : Bool) (offH offM : Nat) :
    matchesLayout (stampText year month day hour min sec west offH offM) = true := by
  have hb1 : bytes "-" = [45] := by decide
  have hb2 : bytes " " = [32] := by decide
  have hb3 : bytes ":" = [58] := by decide
  have hb4 : bytes " UTC" = [32, 85, 84, 67] := by decide
  cases west <;>
    simp [matchesLayout, stampText, pad4, pad2, isDigit, hb1, hb2, hb3, hb4] <;> omega

end gotime

namespace tsv

open reflect

theorem parseElement_time (x : Extern) (record : Str) :
    parseElement x record (.plain .Struct (bytes "Time"))
      = match x.timeParse (bytes "2006-01-02 15:04:05 -0700 UTC") record with
        | .error e => .error (.err e)
        | .ok t => .ok (.time t) := by
  rw [parseElement]
  · rw [if_pos rfl]
  all_goals intro h; cases h

/-- Acceptance of the fixed layout: for a field tagged timestamp, every text in the fixed layout
`YYYY-MM-DD HH:MM:SS ±hhmm UTC` whose fields are in range (month 1..12, a day of that
month, hour below 24, minute and second below 60, offset below 24:00) is decoded, to the
instant that the text denotes. -/
theorem timestamp_layout_accepted (x : Extern) (year month day hour min sec : Nat)
    (west : Bool) (offH offM : Nat)
    (hy : year ≤ 9999) (hm1 : 1 ≤ month) (hm : month ≤ 12) (hd1 : 1 ≤ day)
    (hd : day ≤ gotime.daysIn month year) (hh : hour ≤ 23) (hmi : min ≤ 59) (hs : sec ≤ 59)
    (hoh : offH ≤ 23) (hom : offM ≤ 59) :
    gotime.matchesLayout (gotime.stampText year month day hour min sec west offH offM) = true ∧
    parseElement x.withTime (gotime.stampText year month day hour min sec west offH offM)
        (.plain .Struct (bytes "Time"))
      = .ok (.time ⟨gotime.stampInstant year month day hour min sec west offH offM, 0,
          (if west then -(((offH * 60 + offM) * 60 : Nat) : Int)
            else (((offH * 60 + offM) * 60 : Nat) : Int))⟩) := by
  refine ⟨gotime.matchesLayout_stamp _ _ _ _ _ _ _ _ _, ?_⟩
  rw [parseElement_time]
  have hx : x.withTime.timeParse = gotime.Parse := rfl
  rw [hx, gotime.Parse_stamp year month day hour min sec west offH offM hy hm1 hm hd1 hd hh hmi
    hs hoh hom]

theorem timestamp_layout_accepted_witness :
    gotime.stampText 2021 3 4 5 6 7 true 7 0 = bytes "2021-03-04 05:06:07 -0700 UTC" ∧
    parseElement Extern.failing.withTime (gotime.stampText 2021 3 4 5 6 7 true 7 0)
        (.plain .Struct (bytes "Time"))
      = .ok (.time ⟨1614859567, 0, -25200⟩) :=
  ⟨by decide,
   (timestamp_layout_accepted Extern.failing 2021 3 4 5 6 7 true 7 0 (by decide) (by decide)
     (by decide) (by decide) (by decide) (by decide) (by decide) (by decide) (by decide)
     (by decide)).2⟩

/-- C11 as stated fails: texts that deviate from the fixed layout are decoded all the
same, namely an hour written with one digit, several spaces where the layout has one,
and a fractional second after the seconds. -/
theorem timestamp_deviations_accepted :
    gotime.matchesLayout (bytes "2021-03-04 5:06:07 +0000 UTC") = false ∧
    parseElement Extern.failing.withTime (bytes "2021-03-04 5:06:07 +0000 UTC")
        (.plain .Struct (bytes "Time")) = .ok (.time ⟨1614834367, 0, 0⟩) ∧
    gotime.matchesLayout (bytes "2021-03-04  05:06:07 +0000   UTC") = false ∧
    parseElement Extern.failing.withTime (bytes "2021-03-04  05:06:07 +0000   UTC")
        (.plain .Struct (bytes "Time")) = .ok (.time ⟨1614834367, 0, 0⟩) ∧
    gotime.matchesLayout (bytes "2021-03-04 05:06:07.25 +0000 UTC") = false ∧
    parseElement Extern.failing.withTime (bytes "2021-03-04 05:06:07.25 +0000 UTC")
        (.plain .Struct (bytes "Time")) = .ok (.time ⟨1614834367, 250000000, 0⟩) := by
  refine ⟨by decide, by rfl, by decide, by rfl, by decide, by rfl⟩

end tsv

/-! ### Chunk pool: concurrent callers -/

namespace dump

/-- A call of `Next` that runs alone from `Lock` to `Unlock` does what
`ChunkPool.Next` does: three statements when the plan is used up, six otherwise. -/
theorem exec_call_alone (t : Nat) (s : Run) (hpan : s.panicked = false) (hpc : s.pcs t = .lock)
    (hmu : s.mu = false) :
    (Run.exec true (List.replicate (if s.pool.currentIdx ≥ s.pool.chunks.length then 3 else 6) t)
        s).pool = s.pool.Next.2 ∧
    (Run.exec true (List.replicate (if s.pool.currentIdx ≥ s.pool.chunks.length then 3 else 6) t)
        s).log = s.log ++ [(t, s.pool.Next.1)] ∧
    (Run.exec true (List.replicate (if s.pool.currentIdx ≥ s.pool.chunks.length then 3 else 6) t)
        s).mu = false ∧
    (Run.exec true (List.replicate (if s.pool.currentIdx ≥ s.pool.chunks.length then 3 else 6) t)
        s).panicked = false := by
  by_cases hge : s.pool.currentIdx ≥ s.pool.chunks.length
  · simp [Run.exec, Run.step, hpan, hpc, hmu, setPc, hge, ChunkPool.Next, List.replicate]
  · have hlt : s.pool.currentIdx < s.pool.chunks.length := by omega
    simp [Run.exec, Run.step, hpan, hpc, hmu, setPc, hge, ChunkPool.Next, List.replicate,
      List.getD, List.getElem?_eq_getElem hlt]

/-- For comparison, `Next` without its mutex: in the interleaving where two callers both
read the cursor before either advances it, the first descriptor is delivered twice and
the second never; on a plan of one descriptor a caller that passed the test late indexes
past the end. Delivery of every descriptor exactly once rests on the lock. -/
theorem next_without_mutex_duplicates :
    (Run.exec false [0, 0, 0, 1, 1, 1, 0, 0, 0, 1, 1, 1]
        (Run.start ⟨[⟨1, none, none, 0, 0⟩, ⟨2, none, none, 1, 0⟩], 0⟩)).log
      = [(0, ⟨1, none, none, 0, 0⟩, true), (1, ⟨1, none, none, 0, 0⟩, true)] ∧
    (Run.exec true [0, 0, 0, 1, 1, 1, 0, 0, 0, 1, 1, 1, 1, 1, 1]
        (Run.start ⟨[⟨1, none, none, 0, 0⟩, ⟨2, none, none, 1, 0⟩], 0⟩)).log
      = [(0, ⟨1, none, none, 0, 0⟩, true), (1, ⟨2, none, none, 1, 0⟩, true)] ∧
    (Run.exec false [0, 0, 1, 1, 1, 1, 1, 1, 0]
        (Run.start ⟨[⟨1, none, none, 0, 0⟩], 0⟩)).panicked = true := by
  refine ⟨by decide, by decide, by decide⟩

end dump

/-! ### Timestamps: the accepted texts -/

namespace gotime

open tsv

theorem cutspace_spaces (g : Nat) (c : Nat) (rest : Str) (hc : c ≠ 32) :
    cutspace (List.replicate g 32 ++ c :: rest) = c :: rest := by
  induction g with
  | zero => simp [cutspace, List.dropWhile, hc]
  | succ g ih =>
    simp only [cutspace] at ih ⊢
    simp [List.replicate_succ, List.dropWhile, ih]

theorem skip_spaces (g : Nat) (c : Nat) (rest : Str) (hc : c ≠ 32) :
    skip (List.replicate (g + 1) 32 ++ c :: rest) [32] = some (c :: rest) := by
  have hcut := cutspace_spaces (g + 1) c rest hc
  have hhead : (List.replicate (g + 1) 32 ++ c :: rest).head? = some 32 := by
    simp [List.replicate_succ]
  have hcp : cutspace [32] = [] := by decide
  simp only [skip, skipLoop, List.length_singleton, if_true, hhead, hcut, hcp]
  simp

theorem skip_utc (g : Nat) :
    skip (List.replicate (g + 1) 32 ++ bytes "UTC") (bytes " UTC") = some [] := by
  have hb : bytes "UTC" = 85 :: [84, 67] := by decide
  have hb2 : bytes " UTC" = 32 :: [85, 84, 67] := by decide
  have hcut := cutspace_spaces (g + 1) 85 [84, 67] (by decide)
  have hhead : (List.replicate (g + 1) 32 ++ 85 :: [84, 67]).head? = some 32 := by
    simp [List.replicate_succ]
  have hcp : cutspace (32 :: [85, 84, 67]) = [85, 84, 67] := by decide
  rw [hb, hb2]
  simp only [skip, skipLoop, List.length_cons, List.length_nil, if_true, hhead, hcut, hcp]
  simp

theorem getnum_one (h c : Nat) (rest : Str) (hh : h ≤ 9) (hc : ¬ (48 ≤ c ∧ c ≤ 57)) :
    getnum ((48 + h) :: c :: rest) false = some (h, c :: rest) := by
  have h1 : 48 ≤ 48 + h ∧ 48 + h ≤ 57 := by omega
  simp [getnum, isDigit_zero, isDigit_one, h1, hc]

theorem decVal_succ_le (ds : Str) : ∀ x : Nat, allDigits ds = true →
    decVal x ds + 1 ≤ (x + 1) * 10 ^ ds.length := by
  induction ds with
  | nil => intro x _; simp [decVal]
  | cons c cs ih =>
    intro x hall
    obtain ⟨hc, hcs⟩ := (strconv.allDigits_cons c cs).mp hall
    have h1 := ih (x * 10 + (c - 48)) hcs
    have h2 : x * 10 + (c - 48) + 1 ≤ (x + 1) * 10 := by omega
    have h3 : (x * 10 + (c - 48) + 1) * 10 ^ cs.length ≤ (x + 1) * 10 * 10 ^ cs.length :=
      Nat.mul_le_mul_right _ h2
    rw [strconv.decVal_cons, List.length_cons, Nat.pow_succ]
    calc decVal (x * 10 + (c - 48)) cs + 1 ≤ (x * 10 + (c - 48) + 1) * 10 ^ cs.length := h1
      _ ≤ (x + 1) * 10 * 10 ^ cs.length := h3
      _ = (x + 1) * (10 ^ cs.length * 10) := by
        rw [Nat.mul_assoc, Nat.mul_comm 10 (10 ^ cs.length)]

theorem decVal_lt_of_short (ds : Str) (hall : allDigits ds = true) (hlen : ds.length ≤ 9) :
    decVal 0 ds < 1000000000 := by
  have h1 := decVal_succ_le ds 0 hall
  have h2 : 10 ^ ds.length ≤ 10 ^ 9 := Nat.pow_le_pow_right (by norm_num) hlen
  have h3 : (10 : Nat) ^ 9 = 1000000000 := by norm_num
  omega

theorem leadingInt_digits (ds : Str) : ∀ x : Nat, allDigits ds = true →
    decVal x ds ≤ 100000000000 → leadingInt ds x = some (decVal x ds, []) := by
  induction ds with
  | nil => intro x _ _; rfl
  | cons c cs ih =>
    intro x hall hb
    obtain ⟨hc, hcs⟩ := (strconv.allDigits_cons c cs).mp hall
    rw [strconv.decVal_cons] at hb ⊢
    have hge := strconv.le_decVal cs (x * 10 + (c - 48))
    have hcc : c = 48 + (c - 48) := by omega
    rw [hcc, leadingInt_digit (c - 48) x cs (by omega) (by omega)]
    have hcc2 : 48 + (c - 48) - 48 = c - 48 := by omega
    rw [hcc2]
    exact ih _ hcs hb

theorem leadingInt_inv (ds : Str) : ∀ x q : Nat, leadingInt ds x = some (q, []) →
    allDigits ds = true ∧ q = decVal x ds := by
  induction ds with
  | nil =>
    intro x q h
    simp only [leadingInt, Option.some.injEq, Prod.mk.injEq, and_true] at h
    exact ⟨rfl, h.symm⟩
  | cons c cs ih =>
    intro x q h
    unfold leadingInt at h
    split at h
    · simp at h
    · rename_i hdig
      split at h
      · cases h
      · split at h
        · cases h
        · have hc : 48 ≤ c ∧ c ≤ 57 := by omega
          obtain ⟨h1, h2⟩ := ih _ _ h
          refine ⟨(strconv.allDigits_cons c cs).mpr ⟨hc, h1⟩, ?_⟩
          rw [strconv.decVal_cons, h2]
          congr 1
          omega

theorem atoi_digits (ds : Str) (hne : ds ≠ []) (hall : allDigits ds = true)
    (hb : decVal 0 ds ≤ 100000000000) : atoi ds = some (decVal 0 ds : Int) := by
  obtain ⟨c, rest, hds, hc⟩ := strconv.digits_head ds hne hall
  have h1 : ¬ (ds.head? = some 45) := by rw [hds]; simp; omega
  have h2 : ¬ (ds.head? = some 43) := by rw [hds]; simp; omega
  simp only [atoi, h1, h2, or_self, if_false, decide_False, leadingInt_digits ds 0 hall hb]
  simp

theorem takeWhile_digits (ds rest : Str) (hall : allDigits ds = true)
    (hrest : ∀ c, rest.head? = some c → ¬ (48 ≤ c ∧ c ≤ 57)) :
    (ds ++ rest).takeWhile (fun c => decide (48 ≤ c ∧ c ≤ 57)) = ds := by
  induction ds with
  | nil =>
    cases rest with
    | nil => rfl
    | cons r rs =>
      have hr := hrest r rfl
      simp only [List.nil_append, List.takeWhile_cons, hr, decide_False, Bool.false_eq_true,
        if_false]
  | cons c cs ih =>
    obtain ⟨hc, hcs⟩ := (strconv.allDigits_cons c cs).mp hall
    simp only [List.cons_append, List.takeWhile_cons, hc, and_self, decide_True, if_true,
      ih hcs]

theorem allDigits_take (ds : Str) (n : Nat) (hall : allDigits ds = true) :
    allDigits (ds.take n) = true := by
  unfold allDigits at hall ⊢
  rw [List.all_eq_true] at hall ⊢
  intro c hc
  exact hall c (List.mem_of_mem_take hc)

/-- A fractional second in front of text that does not go on with a digit is taken
whole and gives the nanoseconds of its first nine digits. -/
theorem parseFraction_frac (sep d1 : Nat) (ds rest : Str) (hsep : sep = 46 ∨ sep = 44)
    (hd1 : 48 ≤ d1 ∧ d1 ≤ 57) (hds : allDigits ds = true)
    (hrest : ∀ c, rest.head? = some c → ¬ (48 ≤ c ∧ c ≤ 57)) :
    parseFraction (sep :: d1 :: (ds ++ rest)) = some (fracNanos (sep :: d1 :: ds), rest) := by
  have hD : allDigits (d1 :: ds) = true := (strconv.allDigits_cons d1 ds).mpr ⟨hd1, hds⟩
  have hcond : (sep :: d1 :: (ds ++ rest)).length ≥ 2 ∧
      ((sep :: d1 :: (ds ++ rest)).headD 0 = 46 ∨ (sep :: d1 :: (ds ++ rest)).headD 0 = 44) ∧
      isDigit (sep :: d1 :: (ds ++ rest)) 1 = true := by
    refine ⟨by simp, by simpa using hsep, ?_⟩
    rw [isDigit_one]
    simpa using hd1
  have htw : ((sep :: d1 :: (ds ++ rest)).drop 2).takeWhile (fun c => decide (48 ≤ c ∧ c ≤ 57))
      = ds := by
    simp only [List.drop_succ_cons, List.drop_zero]
    exact takeWhile_digits ds rest hds hrest
  have hdrop : (sep :: d1 :: (ds ++ rest)).drop (2 + ds.length) = rest := by
    have h2 : 2 + ds.length = ds.length + 1 + 1 := by omega
    rw [h2, List.drop_succ_cons, List.drop_succ_cons, List.drop_left]
  have htake : ((sep :: d1 :: (ds ++ rest)).take
      (if 2 + ds.length > 10 then 10 else 2 + ds.length)).drop 1 = (d1 :: ds).take 9 := by
    by_cases hlong : 2 + ds.length > 10
    · rw [if_pos hlong]
      have h10 : (10 : Nat) = 9 + 1 := rfl
      rw [h10, List.take_succ_cons, List.drop_succ_cons, List.drop_zero,
        ← List.cons_append, List.take_append_of_le_length (by simp; omega)]
    · rw [if_neg hlong]
      have h2 : 2 + ds.length = (d1 :: ds).length + 1 := by simp; omega
      rw [h2, List.take_succ_cons, List.drop_succ_cons, List.drop_zero,
        ← List.cons_append, List.take_left, List.take_of_length_le (by simp; omega)]
  have hne : (d1 :: ds).take 9 ≠ [] := by simp
  have hall9 := allDigits_take (d1 :: ds) 9 hD
  have hlt := decVal_lt_of_short ((d1 :: ds).take 9) hall9 (by simp)
  have hatoi := atoi_digits _ hne hall9 (by omega)
  have hexp : 10 - (if 2 + ds.length > 10 then 10 else 2 + ds.length)
      = 9 - min 9 (d1 :: ds).length := by
    simp only [List.length_cons]
    split <;> omega
  unfold parseFraction
  rw [if_pos hcond]
  simp only [htw, htake, hatoi, hdrop, hexp, Int.toNat_ofNat]
  rfl

theorem parseFraction_none (rest : Str)
    (hrest : ∀ c, rest.head? = some c → c ≠ 46 ∧ c ≠ 44) :
    parseFraction rest = some (fracNanos [], rest) := by
  have hz : fracNanos [] = 0 := by decide
  unfold parseFraction
  cases rest with
  | nil => simp [hz]
  | cons c cs =>
    have := hrest c rfl
    simp [hz, this.1, this.2]

theorem parseFraction_ok (frac r : Str) (hok : fracOk frac = true) :
    parseFraction (frac ++ 32 :: r) = some (fracNanos frac, 32 :: r) := by
  cases frac with
  | nil =>
    exact parseFraction_none (32 :: r) (by
      intro c hc
      simp only [List.head?_cons, Option.some.injEq] at hc
      omega)
  | cons sep tail =>
    cases tail with
    | nil => simp [fracOk] at hok
    | cons d1 ds =>
      simp only [fracOk, List.headD_cons, List.tail_cons, Bool.or_eq_true, Bool.and_eq_true,
        decide_eq_true_eq] at hok
      rcases hok with hnil | ⟨⟨hsep, _⟩, hall⟩
      · cases hnil
      · obtain ⟨hd1, hds⟩ := (strconv.allDigits_cons d1 ds).mp hall
        exact parseFraction_frac sep d1 ds (32 :: r) hsep hd1 hds (by
          intro c hc
          simp only [List.head?_cons, Option.some.injEq] at hc
          omega)

theorem parseZone_lenient (west : Bool) (offH offM : Nat) (rest : Str) (hh : offH ≤ 24)
    (hm : offM ≤ 60) :
    parseZone ((if west then 45 else 43) :: (pad2 offH ++ pad2 offM ++ rest))
      = .ok ((if west then -(((offH * 60 + offM) * 60 : Nat) : Int)
          else (((offH * 60 + offM) * 60 : Nat) : Int)), rest) := by
  have hlen : ¬ ((if west then 45 else 43) :: (pad2 offH ++ pad2 offM ++ rest)).length < 5 := by
    simp [pad2]
  have hhead : ((if west then 45 else 43) :: (pad2 offH ++ pad2 offM ++ rest)).headD 0
      = (if west then 45 else 43) := by simp
  have hhr : (((if west then 45 else 43) :: (pad2 offH ++ pad2 offM ++ rest)).drop 1).take 2
      = pad2 offH ++ [] := by simp [pad2]
  have hmm : (((if west then 45 else 43) :: (pad2 offH ++ pad2 offM ++ rest)).drop 3).take 2
      = pad2 offM ++ [] := by simp [pad2]
  have hrest : ((if west then 45 else 43) :: (pad2 offH ++ pad2 offM ++ rest)).drop 5 = rest := by
    simp [pad2]
  have hr : ¬ (offH > 24 ∨ offM > 60) := by omega
  simp only [parseZone, hlen, if_false, hhead, hhr, hmm, hrest,
    getnum_pad2 offH [] true (by omega), getnum_pad2 offM [] true (by omega), hr,
    Option.isNone_some, Bool.false_eq_true, or_self]
  cases west <;> simp

theorem parseClock_lenient (g hour min sec : Nat) (two : Bool) (frac r : Str) (hh : hour ≤ 23)
    (h1 : two = true ∨ hour ≤ 9) (hm : min ≤ 59) (hs : sec ≤ 59) (hf : fracOk frac = true) :
    parseClock (List.replicate (g + 1) 32 ++ ((if two then pad2 hour else [48 + hour]) ++
        58 :: (pad2 min ++ 58 :: (pad2 sec ++ (frac ++ 32 :: r)))))
      = .ok (hour, min, sec, fracNanos frac, 32 :: r) := by
  have hsp : bytes " " = [32] := by decide
  have hcol : bytes ":" = [58] := by decide
  obtain ⟨tail, htail⟩ : ∃ t, t = 58 :: (pad2 min ++ 58 :: (pad2 sec ++ (frac ++ 32 :: r))) :=
    ⟨_, rfl⟩
  have hrange1 : ¬ 24 ≤ hour := by omega
  have hrange2 : ¬ 60 ≤ min := by omega
  have hrange3 : ¬ 60 ≤ sec := by omega
  have hhour : ∃ c rest1, (if two then pad2 hour else [48 + hour]) ++ tail = c :: rest1 ∧ c ≠ 32 ∧
      getnum (c :: rest1) false = some (hour, tail) := by
    cases two with
    | true =>
      refine ⟨48 + hour / 10 % 10, (48 + hour % 10) :: tail, by simp [pad2], by omega, ?_⟩
      have := getnum_pad2 hour tail false (by omega)
      simpa [pad2] using this
    | false =>
      have h9 : hour ≤ 9 := by
        rcases h1 with h | h
        · cases h
        · exact h
      refine ⟨48 + hour, tail, by simp, by omega, ?_⟩
      rw [htail]
      exact getnum_one hour 58 _ h9 (by omega)
  obtain ⟨c, rest1, hc1, hc2, hc3⟩ := hhour
  rw [← htail, hc1]
  unfold parseClock
  rw [hsp, skip_spaces g c rest1 hc2]
  simp only
  rw [hc3]
  simp only [hrange1, if_false]
  rw [htail, hcol, skip_byte 58 _ (by decide)]
  simp only
  rw [getnum_pad2 min _ true (by omega)]
  simp only [hrange2, if_false]
  rw [skip_byte 58 _ (by decide)]
  simp only
  rw [getnum_pad2 sec _ true (by omega)]
  simp only [hrange3, if_false]
  rw [parseFraction_ok frac r hf]

theorem Stamp.valid_iff (st : Stamp) :
    st.valid = true ↔
      st.year ≤ 9999 ∧ 1 ≤ st.month ∧ st.month ≤ 12 ∧ 1 ≤ st.day ∧
      st.day ≤ daysIn st.month st.year ∧ st.hour ≤ 23 ∧ (st.hourTwo = true ∨ st.hour ≤ 9) ∧
      st.min ≤ 59 ∧ st.sec ≤ 59 ∧ fracOk st.frac = true ∧ st.offH ≤ 24 ∧ st.offM ≤ 60 := by
  simp only [Stamp.valid, Bool.and_eq_true, Bool.or_eq_true, decide_eq_true_eq]
  tauto

/-- On the text of a valid stamp `Parse` returns the time that the stamp denotes. -/
theorem Parse_text (st : Stamp) (hv : st.valid = true) :
    Parse (bytes "2006-01-02 15:04:05 -0700 UTC") st.text = .ok st.time := by
  obtain ⟨hy, hm1, hm, hd1, hd, hh, h1, hmi, hs, hf, hoh, hom⟩ := (Stamp.valid_iff st).mp hv
  have hsp : bytes " " = [32] := by decide
  have hcol : bytes ":" = [58] := by decide
  obtain ⟨zone, hzone⟩ : ∃ r, r = pad2 st.offH ++ pad2 st.offM ++
      (List.replicate (st.gap3 + 1) 32 ++ bytes "UTC") := ⟨_, rfl⟩
  obtain ⟨sign, hsigndef⟩ : ∃ c : Nat, c = if st.west then 45 else 43 := ⟨_, rfl⟩
  obtain ⟨hourText, hhourText⟩ : ∃ r, r = (if st.hourTwo then pad2 st.hour else [48 + st.hour]) :=
    ⟨_, rfl⟩
  have htext : st.text
      = pad4 st.year ++ bytes "-" ++ pad2 st.month ++ bytes "-" ++ pad2 st.day ++
        (List.replicate (st.gap1 + 1) 32 ++ (hourText ++
          58 :: (pad2 st.min ++ 58 :: (pad2 st.sec ++ (st.frac ++
            32 :: (List.replicate st.gap2 32 ++ sign :: zone)))))) := by
    simp [Stamp.text, hcol, hzone, hsigndef, hhourText, List.replicate_succ]
  have hday := daysIn_le st.month st.year hm1 hm
  have hsign : sign ≠ 32 := by rw [hsigndef]; cases st.west <;> decide
  have hdayok : ¬ (st.day < 1 ∨ st.day > daysIn st.month ↑st.year) := by omega
  have hzoneparse : parseZone (sign :: zone)
      = .ok (st.offset, List.replicate (st.gap3 + 1) 32 ++ bytes "UTC") := by
    rw [hzone, hsigndef]
    exact parseZone_lenient st.west st.offH st.offM _ hoh hom
  have hskip : skip (32 :: (List.replicate st.gap2 32 ++ sign :: zone)) (bytes " ")
      = some (sign :: zone) := by
    rw [hsp]
    exact skip_spaces st.gap2 sign zone hsign
  rw [htext]
  unfold Parse
  rw [if_neg (by simp), parseDate_stamp st.year st.month st.day _ hy hm1 hm (by omega)]
  simp only
  rw [hhourText, parseClock_lenient st.gap1 st.hour st.min st.sec st.hourTwo st.frac _ hh h1 hmi
    hs hf]
  simp only
  rw [hskip]
  simp only
  rw [hzoneparse]
  simp only
  rw [skip_utc]
  simp only [hdayok, if_false, Stamp.time, ne_eq, not_true_eq_false]

/-! #### Inversion: what a successful parse says about the text -/

theorem cutspace_decomp (v : Str) :
    ∃ k, v = List.replicate k 32 ++ cutspace v ∧ (cutspace v).head? ≠ some 32 := by
  induction v with
  | nil => exact ⟨0, rfl, by simp [cutspace]⟩
  | cons c cs ih =>
    by_cases hc : c = 32
    · obtain ⟨k, hk1, hk2⟩ := ih
      have hcut : cutspace (c :: cs) = cutspace cs := by
        simp [cutspace, List.dropWhile, hc]
      refine ⟨k + 1, ?_, by rw [hcut]; exact hk2⟩
      rw [hcut, List.replicate_succ, List.cons_append, ← hk1, hc]
    · have hcut : cutspace (c :: cs) = c :: cs := by
        simp [cutspace, List.dropWhile, hc]
      refine ⟨0, by rw [hcut]; rfl, ?_⟩
      rw [hcut]
      simpa using hc

theorem skip_space_inv (v r : Str) (h : skip v [32] = some r) (hr : r ≠ []) :
    ∃ g, v = List.replicate (g + 1) 32 ++ r := by
  have hcp : cutspace [32] = [] := by decide
  simp only [skip, skipLoop, List.length_singleton, if_true, hcp] at h
  split at h
  · cases h
  · rename_i hhead
    simp only [Option.some.injEq] at h
    obtain ⟨k, hk1, hk2⟩ := cutspace_decomp v
    rw [h] at hk1 hk2
    cases k with
    | zero =>
      exfalso
      simp only [List.replicate_zero, List.nil_append] at hk1
      apply hhead
      rw [hk1]
      exact ⟨hr, hk2⟩
    | succ g => exact ⟨g, hk1⟩

theorem skipLoop_byte (fuel c : Nat) (w cs r : Str) (hc : c ≠ 32)
    (h : skipLoop (fuel + 1) w (c :: cs) = some r) :
    ∃ t, w = c :: t ∧ skipLoop fuel t cs = some r := by
  simp only [skipLoop, hc, if_false] at h
  cases w with
  | nil => cases h
  | cons a t =>
    simp only at h
    split at h
    · cases h
    · rename_i hac
      refine ⟨t, ?_, h⟩
      have : a = c := by
        by_contra hne
        exact hac hne
      rw [this]

theorem skip_byte_inv (c : Nat) (v r : Str) (hc : c ≠ 32) (h : skip v [c] = some r) :
    v = c :: r := by
  obtain ⟨t, ht1, ht2⟩ := skipLoop_byte 1 c v [] r hc h
  simp only [skipLoop, Option.some.injEq] at ht2
  rw [ht1, ht2]

theorem skip_utc_inv (v r : Str) (h : skip v (bytes " UTC") = some r) :
    ∃ g, v = List.replicate (g + 1) 32 ++ (bytes "UTC" ++ r) := by
  have hb : bytes "UTC" = 85 :: [84, 67] := by decide
  have hb2 : bytes " UTC" = 32 :: [85, 84, 67] := by decide
  have hcp : cutspace (32 :: [85, 84, 67]) = [85, 84, 67] := by decide
  rw [hb2] at h
  have hlen : (32 :: [85, 84, 67] : Str).length + 1 = 4 + 1 := rfl
  unfold skip at h
  rw [hlen] at h
  unfold skipLoop at h
  simp only [if_true, hcp] at h
  split at h
  · cases h
  · rename_i hhead
    obtain ⟨t1, ht1, h1⟩ := skipLoop_byte 3 85 _ _ r (by decide) h
    obtain ⟨t2, ht2, h2⟩ := skipLoop_byte 2 84 _ _ r (by decide) h1
    obtain ⟨t3, ht3, h3⟩ := skipLoop_byte 1 67 _ _ r (by decide) h2
    simp only [skipLoop, Option.some.injEq] at h3
    obtain ⟨k, hk1, hk2⟩ := cutspace_decomp v
    rw [ht1, ht2, ht3, h3] at hk1
    cases k with
    | zero =>
      exfalso
      simp only [List.replicate_zero, List.nil_append] at hk1
      apply hhead
      rw [hk1]
      exact ⟨by simp, by simp⟩
    | succ g =>
      refine ⟨g, ?_⟩
      rw [hb]
      exact hk1

theorem getnum_fixed_inv (s : Str) (n : Nat) (r : Str) (h : getnum s true = some (n, r)) :
    n ≤ 99 ∧ s = pad2 n ++ r := by
  cases s with
  | nil => simp [getnum, isDigit] at h
  | cons a t =>
    cases t with
    | nil => simp [getnum, isDigit] at h
    | cons b t2 =>
      simp only [getnum, isDigit_zero, isDigit_one, List.headD_cons, List.drop_succ_cons,
        List.drop_zero] at h
      by_cases ha : 48 ≤ a ∧ a ≤ 57
      · by_cases hb : 48 ≤ b ∧ b ≤ 57
        · simp only [ha, hb, and_self, decide_True, Bool.not_true, Bool.false_eq_true, if_false,
            Option.some.injEq, Prod.mk.injEq] at h
          obtain ⟨h1, h2⟩ := h
          subst h2
          refine ⟨by omega, ?_⟩
          have e1 : 48 + n / 10 % 10 = a := by omega
          have e2 : 48 + n % 10 = b := by omega
          simp [pad2, e1, e2]
        · simp [ha, hb] at h
      · simp [ha] at h

theorem getnum_free_inv (s : Str) (n : Nat) (r : Str) (h : getnum s false = some (n, r)) :
    (n ≤ 99 ∧ s = pad2 n ++ r) ∨ (n ≤ 9 ∧ s = (48 + n) :: r) := by
  cases s with
  | nil => simp [getnum, isDigit] at h
  | cons a t =>
    by_cases ha : 48 ≤ a ∧ a ≤ 57
    · by_cases h1 : isDigit (a :: t) 1 = true
      · left
        apply getnum_fixed_inv
        simp only [getnum, h1, Bool.not_true, Bool.false_eq_true, if_false] at h ⊢
        exact h
      · right
        simp only [getnum, isDigit_zero, ha, and_self, decide_True, Bool.not_true,
          Bool.false_eq_true, if_false, h1, Bool.not_false, if_true, List.headD_cons,
          List.drop_succ_cons, List.drop_zero, Option.some.injEq, Prod.mk.injEq,
          Bool.not_eq_true] at h
        simp only [Bool.not_eq_true] at h1
        obtain ⟨h2, h3⟩ := h
        subst h3
        refine ⟨by omega, ?_⟩
        have e1 : 48 + n = a := by omega
        rw [e1]
    · simp [getnum, isDigit_zero, ha] at h

theorem atoi_four_inv (a b c d : Nat) (year : Int) (ha : 48 ≤ a ∧ a ≤ 57)
    (h : atoi [a, b, c, d] = some year) :
    ∃ y : Nat, y ≤ 9999 ∧ year = (y : Int) ∧ [a, b, c, d] = pad4 y := by
  have h1 : ¬ (a = 45) := by omega
  have h2 : ¬ (a = 43) := by omega
  simp only [atoi, List.head?_cons, Option.some.injEq, h1, h2, or_self, if_false,
    decide_False] at h
  cases hl : leadingInt [a, b, c, d] 0 with
  | none => rw [hl] at h; cases h
  | some qr =>
    obtain ⟨q, rem⟩ := qr
    rw [hl] at h
    simp only at h
    split at h
    · cases h
    · rename_i hrem
      have hrem2 : rem = [] := by
        by_contra hne
        exact hrem hne
      subst hrem2
      obtain ⟨hall, hq⟩ := leadingInt_inv _ _ _ hl
      simp only [allDigits, List.all_cons, List.all_nil, Bool.and_true, Bool.and_eq_true,
        decide_eq_true_eq] at hall
      obtain ⟨_, hb, hc, hd⟩ := hall
      simp only [decVal, List.foldl_cons, List.foldl_nil] at hq
      simp only [Bool.false_eq_true, if_false, Option.some.injEq] at h
      refine ⟨q, by omega, h.symm, ?_⟩
      have e1 : 48 + q / 1000 % 10 = a := by omega
      have e2 : 48 + q / 100 % 10 = b := by omega
      have e3 : 48 + q / 10 % 10 = c := by omega
      have e4 : 48 + q % 10 = d := by omega
      simp [pad4, e1, e2, e3, e4]

theorem allDigits_takeWhile (t : Str) :
    allDigits (t.takeWhile (fun c => decide (48 ≤ c ∧ c ≤ 57))) = true := by
  induction t with
  | nil => rfl
  | cons a t ih =>
    by_cases ha : 48 ≤ a ∧ a ≤ 57
    · simp only [List.takeWhile_cons, ha, and_self, decide_True, if_true]
      exact (strconv.allDigits_cons a _).mpr ⟨ha, ih⟩
    · simp only [List.takeWhile_cons, ha, decide_False, Bool.false_eq_true, if_false]
      rfl

theorem head_dropWhile_digits (t : Str) (c : Nat)
    (h : (t.dropWhile (fun c => decide (48 ≤ c ∧ c ≤ 57))).head? = some c) :
    ¬ (48 ≤ c ∧ c ≤ 57) := by
  induction t with
  | nil => simp at h
  | cons a t ih =>
    by_cases ha : 48 ≤ a ∧ a ≤ 57
    · apply ih
      simpa [List.dropWhile, ha] using h
    · have hd : (a :: t).dropWhile (fun c => decide (48 ≤ c ∧ c ≤ 57)) = a :: t := by
        simp only [List.dropWhile_cons, ha, decide_False, Bool.false_eq_true, if_false]
      rw [hd] at h
      simp only [List.head?_cons, Option.some.injEq] at h
      rw [← h]
      exact ha

theorem parseFraction_inv (v : Str) (ns : Nat) (r : Str) (h : parseFraction v = some (ns, r)) :
    ∃ frac, fracOk frac = true ∧ v = frac ++ r ∧ ns = fracNanos frac := by
  by_cases hcond : v.length ≥ 2 ∧ (v.headD 0 = 46 ∨ v.headD 0 = 44) ∧ isDigit v 1 = true
  · obtain ⟨_, hsep, hdig⟩ := hcond
    cases v with
    | nil => simp [isDigit] at hdig
    | cons sep t =>
      cases t with
      | nil => simp [isDigit] at hdig
      | cons d1 t2 =>
        rw [isDigit_one] at hdig
        simp only [decide_eq_true_eq] at hdig
        simp only [List.headD_cons] at hsep
        have hsplit : t2 = t2.takeWhile (fun c => decide (48 ≤ c ∧ c ≤ 57)) ++
            t2.dropWhile (fun c => decide (48 ≤ c ∧ c ≤ 57)) :=
          (List.takeWhile_append_dropWhile _ t2).symm
        have hf := parseFraction_frac sep d1 _ _ hsep hdig (allDigits_takeWhile t2)
          (head_dropWhile_digits t2)
        rw [← hsplit, h] at hf
        simp only [Option.some.injEq, Prod.mk.injEq] at hf
        obtain ⟨hns, hr⟩ := hf
        refine ⟨sep :: d1 :: t2.takeWhile (fun c => decide (48 ≤ c ∧ c ≤ 57)), ?_, ?_, hns⟩
        · have hD : allDigits (d1 :: t2.takeWhile (fun c => decide (48 ≤ c ∧ c ≤ 57))) = true :=
            (strconv.allDigits_cons d1 _).mpr ⟨hdig, allDigits_takeWhile t2⟩
          simp only [fracOk, List.headD_cons, List.tail_cons, hD, Bool.and_true,
            Bool.or_eq_true, Bool.and_eq_true, decide_eq_true_eq]
          right
          exact ⟨hsep, by simp⟩
        · rw [hr, List.cons_append, List.cons_append, ← hsplit]
  · unfold parseFraction at h
    rw [if_neg hcond] at h
    simp only [Option.some.injEq, Prod.mk.injEq] at h
    refine ⟨[], by decide, by simpa using h.2, ?_⟩
    rw [← h.1]
    decide

theorem parseZone_inv (v : Str) (off : Int) (r : Str) (h : parseZone v = .ok (off, r)) :
    ∃ (west : Bool) (oh om : Nat), oh ≤ 24 ∧ om ≤ 60 ∧
      v = (if west then 45 else 43) :: (pad2 oh ++ pad2 om ++ r) ∧
      off = (if west then -(((oh * 60 + om) * 60 : Nat) : Int)
          else (((oh * 60 + om) * 60 : Nat) : Int)) := by
  unfold parseZone at h
  split at h
  · cases h
  · rename_i hlen
    match v, hlen, h with
    | [], hlen, _ => simp at hlen
    | [_], hlen, _ => simp at hlen
    | [_, _], hlen, _ => simp at hlen
    | [_, _, _], hlen, _ => simp at hlen
    | [_, _, _, _], hlen, _ => simp at hlen
    | sg :: a :: b :: c :: d :: rest, _, h =>
      simp only [List.headD_cons, List.drop_succ_cons, List.drop_zero, List.take_succ_cons,
        List.take_zero] at h
      cases hhr : getnum [a, b] true with
      | none => simp [hhr] at h
      | some p1 =>
        obtain ⟨oh, r1⟩ := p1
        cases hmm : getnum [c, d] true with
        | none =>
          rw [hhr, hmm] at h
          simp only [Option.isNone_some, Option.isNone_none, Bool.false_eq_true, false_or,
            if_true] at h
          split at h <;> cases h
        | some p2 =>
          obtain ⟨om, r2⟩ := p2
          rw [hhr, hmm] at h
          simp only [Option.isNone_some, Bool.false_eq_true, or_self, if_false] at h
          obtain ⟨_, e1⟩ := getnum_fixed_inv _ _ _ hhr
          obtain ⟨_, e2⟩ := getnum_fixed_inv _ _ _ hmm
          simp only [pad2, List.cons_append, List.nil_append, List.cons.injEq] at e1 e2
          obtain ⟨ea, eb, _⟩ := e1
          obtain ⟨ec, ed, _⟩ := e2
          split at h
          · cases h
          · rename_i hrange
            split at h
            · rename_i hsg
              simp only [Except.ok.injEq, Prod.mk.injEq] at h
              refine ⟨false, oh, om, by omega, by omega, ?_, h.1.symm⟩
              simp [pad2, ← ea, ← eb, ← ec, ← ed, hsg, h.2]
            · split at h
              · rename_i hsg
                simp only [Except.ok.injEq, Prod.mk.injEq] at h
                refine ⟨true, oh, om, by omega, by omega, ?_, h.1.symm⟩
                simp [pad2, ← ea, ← eb, ← ec, ← ed, hsg, h.2]
              · cases h

theorem parseDate_inv (v : Str) (year : Int) (month day : Nat) (r : Str)
    (h : parseDate v = .ok (year, month, day, r)) :
    ∃ y : Nat, y ≤ 9999 ∧ year = (y : Int) ∧ 1 ≤ month ∧ month ≤ 12 ∧ day ≤ 99 ∧
      v = pad4 y ++ bytes "-" ++ pad2 month ++ bytes "-" ++ pad2 day ++ r := by
  have hdash : bytes "-" = [45] := by decide
  unfold parseDate at h
  split at h
  · cases h
  · rename_i hcond
    match v, hcond, h with
    | [], hcond, _ => simp at hcond
    | [_], hcond, _ => simp at hcond
    | [_, _], hcond, _ => simp at hcond
    | [_, _, _], hcond, _ => simp at hcond
    | a :: b :: c :: d :: rest, hcond, h =>
      have ha : 48 ≤ a ∧ a ≤ 57 := by
        simp only [isDigit_zero, not_or, Bool.not_eq_true, Bool.not_eq_false_eq_eq_true,
          decide_eq_true_eq, Bool.not_eq_eq_eq_not, Bool.not_true] at hcond
        simpa using hcond.2
      simp only [List.take_succ_cons, List.take_zero, List.drop_succ_cons, List.drop_zero,
        hdash] at h
      cases hat : atoi [a, b, c, d] with
      | none => rw [hat] at h; cases h
      | some yr =>
        rw [hat] at h
        simp only at h
        obtain ⟨y, hy, hyr, hpad⟩ := atoi_four_inv a b c d yr ha hat
        cases hs1 : skip rest [45] with
        | none => rw [hs1] at h; cases h
        | some v1 =>
          rw [hs1] at h
          simp only at h
          have e1 := skip_byte_inv 45 rest v1 (by decide) hs1
          cases hg1 : getnum v1 true with
          | none => rw [hg1] at h; cases h
          | some p1 =>
            obtain ⟨mo, v2⟩ := p1
            rw [hg1] at h
            simp only at h
            obtain ⟨_, e2⟩ := getnum_fixed_inv _ _ _ hg1
            split at h
            · cases h
            · rename_i hrange
              cases hs2 : skip v2 [45] with
              | none => rw [hs2] at h; cases h
              | some v3 =>
                rw [hs2] at h
                simp only at h
                have e3 := skip_byte_inv 45 v2 v3 (by decide) hs2
                cases hg2 : getnum v3 true with
                | none => rw [hg2] at h; cases h
                | some p2 =>
                  obtain ⟨dy, v4⟩ := p2
                  rw [hg2] at h
                  simp only [Except.ok.injEq, Prod.mk.injEq] at h
                  obtain ⟨hd99, e4⟩ := getnum_fixed_inv _ _ _ hg2
                  obtain ⟨h1, h2, h3, h4⟩ := h
                  subst h2 h3 h4
                  refine ⟨y, hy, by rw [← h1, hyr], by omega, by omega, hd99, ?_⟩
                  have hv : a :: b :: c :: d :: rest = [a, b, c, d] ++ rest := rfl
                  rw [hv, hpad, e1, e2, e3, e4]
                  simp [hdash]

theorem parseClock_inv (v : Str) (hour min sec ns : Nat) (r : Str)
    (h : parseClock v = .ok (hour, min, sec, ns, r)) :
    ∃ (g : Nat) (two : Bool) (frac : Str), hour ≤ 23 ∧ (two = true ∨ hour ≤ 9) ∧ min ≤ 59 ∧
      sec ≤ 59 ∧ fracOk frac = true ∧ ns = fracNanos frac ∧
      v = List.replicate (g + 1) 32 ++ ((if two then pad2 hour else [48 + hour]) ++
        58 :: (pad2 min ++ 58 :: (pad2 sec ++ (frac ++ r)))) := by
  have hsp : bytes " " = [32] := by decide
  have hcol : bytes ":" = [58] := by decide
  unfold parseClock at h
  rw [hsp, hcol] at h
  cases hs1 : skip v [32] with
  | none => rw [hs1] at h; cases h
  | some v1 =>
    rw [hs1] at h
    simp only at h
    cases hg1 : getnum v1 false with
    | none => rw [hg1] at h; cases h
    | some p1 =>
      obtain ⟨hr, v2⟩ := p1
      rw [hg1] at h
      simp only at h
      have hv1 : v1 ≠ [] := by
        intro hn
        rw [hn] at hg1
        simp [getnum, isDigit] at hg1
      obtain ⟨g, e1⟩ := skip_space_inv v v1 hs1 hv1
      have e2 := getnum_free_inv _ _ _ hg1
      split at h
      · cases h
      · rename_i hrange1
        cases hs2 : skip v2 [58] with
        | none => rw [hs2] at h; cases h
        | some v3 =>
          rw [hs2] at h
          simp only at h
          have e3 := skip_byte_inv 58 v2 v3 (by decide) hs2
          cases hg2 : getnum v3 true with
          | none => rw [hg2] at h; cases h
          | some p2 =>
            obtain ⟨mi, v4⟩ := p2
            rw [hg2] at h
            simp only at h
            obtain ⟨_, e4⟩ := getnum_fixed_inv _ _ _ hg2
            split at h
            · cases h
            · rename_i hrange2
              cases hs3 : skip v4 [58] with
              | none => rw [hs3] at h; cases h
              | some v5 =>
                rw [hs3] at h
                simp only at h
                have e5 := skip_byte_inv 58 v4 v5 (by decide) hs3
                cases hg3 : getnum v5 true with
                | none => rw [hg3] at h; cases h
                | some p3 =>
                  obtain ⟨se, v6⟩ := p3
                  rw [hg3] at h
                  simp only at h
                  obtain ⟨_, e6⟩ := getnum_fixed_inv _ _ _ hg3
                  split at h
                  · cases h
                  · rename_i hrange3
                    cases hf : parseFraction v6 with
                    | none => rw [hf] at h; cases h
                    | some p4 =>
                      obtain ⟨nsec, v7⟩ := p4
                      rw [hf] at h
                      simp only [Except.ok.injEq, Prod.mk.injEq] at h
                      obtain ⟨frac, hfok, e7, hns⟩ := parseFraction_inv _ _ _ hf
                      obtain ⟨h1, h2, h3, h4, h5⟩ := h
                      subst h1 h2 h3 h4 h5
                      rcases e2 with ⟨_, e2⟩ | ⟨h9, e2⟩
                      · refine ⟨g, true, frac, by omega, Or.inl rfl, by omega, by omega, hfok,
                          hns, ?_⟩
                        rw [e1, e2, e3, e4, e5, e6, e7]
                        simp
                      · refine ⟨g, false, frac, by omega, Or.inr h9, by omega, by omega, hfok,
                          hns, ?_⟩
                        rw [e1, e2, e3, e4, e5, e6, e7]
                        simp

/-- A text that `Parse` accepts is the text of a valid stamp, and the result is the time
of that stamp. -/
theorem Parse_inv (v : Str) (t : GoTime)
    (h : Parse (bytes "2006-01-02 15:04:05 -0700 UTC") v = .ok t) :
    ∃ st : Stamp, st.valid = true ∧ v = st.text ∧ t = st.time := by
  have hsp : bytes " " = [32] := by decide
  have hcol : bytes ":" = [58] := by decide
  unfold Parse at h
  rw [if_neg (by simp)] at h
  cases hd : parseDate v with
  | error e => rw [hd] at h; cases h
  | ok p1 =>
    obtain ⟨year, month, day, v1⟩ := p1
    rw [hd] at h
    simp only at h
    obtain ⟨y, hy, hyr, hm1, hm, _, e1⟩ := parseDate_inv _ _ _ _ _ hd
    cases hc : parseClock v1 with
    | error e => rw [hc] at h; cases h
    | ok p2 =>
      obtain ⟨hour, mi, se, nsec, v2⟩ := p2
      rw [hc] at h
      simp only at h
      obtain ⟨g1, two, frac, hh, h1, hmi, hse, hfok, hns, e2⟩ := parseClock_inv _ _ _ _ _ _ hc
      rw [hsp] at h
      cases hs1 : skip v2 [32] with
      | none => rw [hs1] at h; cases h
      | some v3 =>
        rw [hs1] at h
        simp only at h
        cases hz : parseZone v3 with
        | error e => rw [hz] at h; cases h
        | ok p3 =>
          obtain ⟨zo, v4⟩ := p3
          rw [hz] at h
          simp only at h
          obtain ⟨west, oh, om, hoh, hom, e4, hzo⟩ := parseZone_inv _ _ _ hz
          have hv3 : v3 ≠ [] := by rw [e4]; simp
          obtain ⟨g2, e3⟩ := skip_space_inv v2 v3 hs1 hv3
          cases hs2 : skip v4 (bytes " UTC") with
          | none => rw [hs2] at h; cases h
          | some v5 =>
            rw [hs2] at h
            simp only at h
            obtain ⟨g3, e5⟩ := skip_utc_inv _ _ hs2
            split at h
            · cases h
            · rename_i hv5
              have hv5nil : v5 = [] := by
                by_contra hne
                exact hv5 hne
              split at h
              · cases h
              · rename_i hday
                simp only [Except.ok.injEq] at h
                subst hyr hns
                have hday2 : 1 ≤ day ∧ day ≤ daysIn month (y : Int) := by omega
                refine ⟨⟨y, month, day, hour, mi, se, two, frac, west, oh, om, g1, g2, g3⟩, ?_, ?_,
                  ?_⟩
                · rw [Stamp.valid_iff]
                  exact ⟨hy, hm1, hm, hday2.1, hday2.2, hh, h1, hmi, hse, hfok, hoh, hom⟩
                · rw [e1, e2, e3, e4, e5, hv5nil]
                  simp [Stamp.text, hcol]
                · rw [← h, hzo]
                  rfl

end gotime

namespace gotime

open tsv

theorem matchesLayout_iff (s : Str) :
    matchesLayout s = true ↔
      s.length = 29 ∧ isDigit s 11 = true ∧ isDigit s 12 = true ∧ matchesLayout s = true := by
  constructor
  · intro h
    have h2 := h
    simp only [matchesLayout, decide_eq_true_eq, List.all_cons, List.all_nil, Bool.and_true,
      Bool.and_eq_true] at h2
    exact ⟨h2.1, by tauto, by tauto, h⟩
  · intro h
    exact h.2.2.2

theorem text_head (y mo d : Nat) (rest : Str) :
    pad4 y ++ bytes "-" ++ pad2 mo ++ bytes "-" ++ pad2 d ++ rest
      = (48 + y / 1000 % 10) :: (48 + y / 100 % 10) :: (48 + y / 10 % 10) :: (48 + y % 10) :: 45 ::
        (48 + mo / 10 % 10) :: (48 + mo % 10) :: 45 :: (48 + d / 10 % 10) :: (48 + d % 10) ::
        rest := by
  have hb1 : bytes "-" = [45] := by decide
  simp [pad4, pad2, hb1]

theorem Stamp.text_length (st : Stamp) :
    st.text.length = 28 + st.gap1 + (if st.hourTwo then 1 else 0) + st.frac.length + st.gap2
      + st.gap3 := by
  have hb1 : (bytes "-").length = 1 := by decide
  have hb3 : (bytes ":").length = 1 := by decide
  have hb5 : (bytes "UTC").length = 3 := by decide
  cases h2 : st.hourTwo <;>
    simp only [Stamp.text, h2, List.length_append, List.length_replicate, List.length_cons,
      List.length_nil, pad4, pad2, hb1, hb3, hb5, if_true, if_false, Bool.false_eq_true] <;>
    omega

/-- With the hour written with one digit, byte 11 or byte 12 of the text is no digit. -/
theorem hour_one_off_layout (a0 a1 a2 a3 a4 a5 a6 a7 a8 a9 b : Nat) (g : Nat) (rest : Str) :
    ¬ (isDigit (a0 :: a1 :: a2 :: a3 :: a4 :: a5 :: a6 :: a7 :: a8 :: a9 ::
          (List.replicate (g + 1) 32 ++ (b :: 58 :: rest))) 11 = true ∧
       isDigit (a0 :: a1 :: a2 :: a3 :: a4 :: a5 :: a6 :: a7 :: a8 :: a9 ::
          (List.replicate (g + 1) 32 ++ (b :: 58 :: rest))) 12 = true) := by
  cases g with
  | zero => simp [isDigit]
  | succ g => simp [isDigit, List.replicate_succ]

/-- Among the texts of valid stamps, those in the strict fixed layout are the ones written
without a lenient form. -/
theorem matchesLayout_text (st : Stamp) :
    matchesLayout st.text = true ↔ st.plain = true := by
  have hb3 : bytes ":" = [58] := by decide
  constructor
  · intro hml
    obtain ⟨hlen, h11, h12, _⟩ := (matchesLayout_iff _).mp hml
    rw [Stamp.text_length] at hlen
    cases h2 : st.hourTwo with
    | false =>
      exfalso
      have key : st.text = pad4 st.year ++ bytes "-" ++ pad2 st.month ++ bytes "-" ++
          pad2 st.day ++ (List.replicate (st.gap1 + 1) 32 ++ ((48 + st.hour) :: 58 ::
            (pad2 st.min ++ bytes ":" ++ pad2 st.sec ++ st.frac ++
              List.replicate (st.gap2 + 1) 32 ++
              [if st.west then 45 else 43] ++ pad2 st.offH ++ pad2 st.offM ++
              List.replicate (st.gap3 + 1) 32 ++ bytes "UTC"))) := by
        simp only [Stamp.text, h2, hb3, Bool.false_eq_true, if_false, List.append_assoc,
          List.cons_append, List.nil_append]
      rw [key, text_head] at h11 h12
      exact hour_one_off_layout _ _ _ _ _ _ _ _ _ _ _ _ _ ⟨h11, h12⟩
    | true =>
      rw [h2] at hlen
      simp only [if_true] at hlen
      have hf : st.frac = [] := List.eq_nil_of_length_eq_zero (by omega)
      simp only [Stamp.plain, h2, hf, Bool.and_eq_true, decide_eq_true_eq, decide_True,
        Bool.true_and]
      omega
  · intro hp
    simp only [Stamp.plain, Bool.and_eq_true, decide_eq_true_eq] at hp
    obtain ⟨⟨⟨⟨h2, hfr⟩, hg1⟩, hg2⟩, hg3⟩ := hp
    have ht : st.text
        = stampText st.year st.month st.day st.hour st.min st.sec st.west st.offH st.offM := by
      have hb4 : bytes " UTC" = 32 :: bytes "UTC" := by decide
      have hb5 : bytes " " = [32] := by decide
      simp only [Stamp.text, stampText, h2, hfr, hg1, hg2, hg3, hb4, hb5, if_true,
        List.replicate_succ, List.replicate_zero, List.append_assoc, List.cons_append,
        List.nil_append, List.append_nil]
    rw [ht]
    exact matchesLayout_stamp _ _ _ _ _ _ _ _ _

end gotime

namespace gotime

theorem parseDate_error (v : Str) (e : Err) (h : parseDate v = .error e) :
    e = errBad ∨ e = errRange ∨ e = errExtra := by
  unfold parseDate at h
  repeat' split at h
  all_goals cases h <;> simp

theorem parseClock_error (v : Str) (e : Err) (h : parseClock v = .error e) :
    e = errBad ∨ e = errRange ∨ e = errExtra := by
  unfold parseClock at h
  repeat' split at h
  all_goals cases h <;> simp

theorem parseZone_error (v : Str) (e : Err) (h : parseZone v = .error e) :
    e = errBad ∨ e = errRange ∨ e = errExtra := by
  unfold parseZone at h
  simp only at h
  split_ifs at h <;> cases h <;> simp

/-- Every failure of `Parse` on the layout is one of its three parse errors: malformed
text, a field out of range, or text after the end of the layout. -/
theorem Parse_error (v : Str) (e : Err)
    (h : Parse (bytes "2006-01-02 15:04:05 -0700 UTC") v = .error e) :
    e = errBad ∨ e = errRange ∨ e = errExtra := by
  unfold Parse at h
  rw [if_neg (by simp)] at h
  cases hd : parseDate v with
  | error e1 =>
    rw [hd] at h
    cases h
    exact parseDate_error _ _ hd
  | ok p1 =>
    obtain ⟨year, month, day, v1⟩ := p1
    rw [hd] at h
    simp only at h
    cases hc : parseClock v1 with
    | error e1 =>
      rw [hc] at h
      cases h
      exact parseClock_error _ _ hc
    | ok p2 =>
      obtain ⟨hour, mi, se, nsec, v2⟩ := p2
      rw [hc] at h
      simp only at h
      cases hs1 : skip v2 (bytes " ") with
      | none => rw [hs1] at h; cases h; simp
      | some v3 =>
        rw [hs1] at h
        simp only at h
        cases hz : parseZone v3 with
        | error e1 =>
          rw [hz] at h
          cases h
          exact parseZone_error _ _ hz
        | ok p3 =>
          obtain ⟨zo, v4⟩ := p3
          rw [hz] at h
          simp only at h
          cases hs2 : skip v4 (bytes " UTC") with
          | none => rw [hs2] at h; cases h; simp
          | some v5 =>
            rw [hs2] at h
            simp only at h
            repeat' split at h
            all_goals cases h <;> simp

end gotime

namespace tsv

open reflect

/-- C11 (amended): for a field tagged timestamp, `parseElement` succeeds exactly on the
texts of valid stamps, that is the fields of the fixed layout
`YYYY-MM-DD HH:MM:SS ±hhmm UTC` with values in range, written in that layout or with one
of three lenient forms (an hour of one digit, a run of spaces for a space of the layout,
a fractional second after the seconds). On such a text the value is the time that the
text denotes, and the text is in the strict layout exactly when it uses none of the
lenient forms. On every other text (a field out of range, a missing or different
separator, sign or suffix, a missing or additional digit or any other byte) the result
is one of the parse errors of `time.Parse` and no value. -/
theorem timestamp_accepted_iff (x : Extern) (record : Str) :
    ((∃ v, parseElement x.withTime record (.plain .Struct (bytes "Time")) = .ok v) ↔
      ∃ st : gotime.Stamp, st.valid = true ∧ record = st.text) ∧
    (∀ st : gotime.Stamp, st.valid = true → record = st.text →
      parseElement x.withTime record (.plain .Struct (bytes "Time")) = .ok (.time st.time) ∧
      (gotime.matchesLayout record = true ↔ st.plain = true)) ∧
    ((¬ ∃ st : gotime.Stamp, st.valid = true ∧ record = st.text) →
      ∃ e, (e = gotime.errBad ∨ e = gotime.errRange ∨ e = gotime.errExtra) ∧
        parseElement x.withTime record (.plain .Struct (bytes "Time")) = .error (.err e)) := by
  have hx : x.withTime.timeParse = gotime.Parse := rfl
  have hfwd : ∀ st : gotime.Stamp, st.valid = true → record = st.text →
      parseElement x.withTime record (.plain .Struct (bytes "Time")) = .ok (.time st.time) := by
    intro st hv hrec
    rw [parseElement_time, hx, hrec, gotime.Parse_text st hv]
  have hinv : (∃ v, parseElement x.withTime record (.plain .Struct (bytes "Time")) = .ok v) →
      ∃ st : gotime.Stamp, st.valid = true ∧ record = st.text := by
    rintro ⟨v, hv⟩
    rw [parseElement_time, hx] at hv
    cases hp : gotime.Parse (bytes "2006-01-02 15:04:05 -0700 UTC") record with
    | error e => rw [hp] at hv; cases hv
    | ok t =>
      obtain ⟨st, h1, h2, _⟩ := gotime.Parse_inv record t hp
      exact ⟨st, h1, h2⟩
  refine ⟨⟨hinv, ?_⟩, ?_, ?_⟩
  · rintro ⟨st, hv, hrec⟩
    exact ⟨_, hfwd st hv hrec⟩
  · intro st hv hrec
    refine ⟨hfwd st hv hrec, ?_⟩
    rw [hrec]
    exact gotime.matchesLayout_text st
  · intro hno
    rw [parseElement_time, hx]
    cases hp : gotime.Parse (bytes "2006-01-02 15:04:05 -0700 UTC") record with
    | error e => exact ⟨e, gotime.Parse_error record e hp, rfl⟩
    | ok t =>
      exfalso
      obtain ⟨st, h1, h2, _⟩ := gotime.Parse_inv record t hp
      exact hno ⟨st, h1, h2⟩

end tsv

namespace tsv

open reflect

theorem timestamp_accepted_iff_witness :
    (parseElement Extern.failing.withTime (bytes "2021-03-04 5:06:07.25  -0700 UTC")
        (.plain .Struct (bytes "Time")) = .ok (.time ⟨1614859567, 250000000, -25200⟩) ∧
      gotime.matchesLayout (bytes "2021-03-04 5:06:07.25  -0700 UTC") = false) ∧
    (parseElement Extern.failing.withTime (bytes "2021-03-04 05:06:07 -0700 UTC")
        (.plain .Struct (bytes "Time")) = .ok (.time ⟨1614859567, 0, -25200⟩) ∧
      gotime.matchesLayout (bytes "2021-03-04 05:06:07 -0700 UTC") = true) ∧
    (parseElement Extern.failing.withTime (bytes "2021-13-04 05:06:07 +0000 UTC")
        (.plain .Struct (bytes "Time")) = .error (.err gotime.errRange) ∧
      ¬ ∃ st : gotime.Stamp, st.valid = true ∧ bytes "2021-13-04 05:06:07 +0000 UTC" = st.text) ∧
    (parseElement Extern.failing.withTime (bytes "2021-03-04 05:06:07 +0000")
        (.plain .Struct (bytes "Time")) = .error (.err gotime.errBad) ∧
      ¬ ∃ st : gotime.Stamp, st.valid = true ∧ bytes "2021-03-04 05:06:07 +0000" = st.text) ∧
    (parseElement Extern.failing.withTime (bytes "2021-03-04T05:06:07 +0000 UTC")
        (.plain .Struct (bytes "Time")) = .error (.err gotime.errBad) ∧
      ¬ ∃ st : gotime.Stamp, st.valid = true ∧ bytes "2021-03-04T05:06:07 +0000 UTC" = st.text) ∧
    (parseElement Extern.failing.withTime (bytes "2021-02-30 05:06:07 +0000 UTC")
        (.plain .Struct (bytes "Time")) = .error (.err gotime.errRange) ∧
      ¬ ∃ st : gotime.Stamp, st.valid = true ∧ bytes "2021-02-30 05:06:07 +0000 UTC" = st.text) ∧
    (parseElement Extern.failing.withTime (bytes "2021-03-04 05:06:07 +0000 UTC ")
        (.plain .Struct (bytes "Time")) = .error (.err gotime.errExtra) ∧
      ¬ ∃ st : gotime.Stamp, st.valid = true ∧ bytes "2021-03-04 05:06:07 +0000 UTC " = st.text) :=
  ⟨⟨((timestamp_accepted_iff Extern.failing (bytes "2021-03-04 5:06:07.25  -0700 UTC")).2.1
        ⟨2021, 3, 4, 5, 6, 7, false, bytes ".25", true, 7, 0, 0, 1, 0⟩ (by decide) (by decide)).1,
     by decide⟩,
   ⟨((timestamp_accepted_iff Extern.failing (bytes "2021-03-04 05:06:07 -0700 UTC")).2.1
        ⟨2021, 3, 4, 5, 6, 7, true, [], true, 7, 0, 0, 0, 0⟩ (by decide) (by decide)).1,
     ((timestamp_accepted_iff Extern.failing (bytes "2021-03-04 05:06:07 -0700 UTC")).2.1
        ⟨2021, 3, 4, 5, 6, 7, true, [], true, 7, 0, 0, 0, 0⟩ (by decide) (by decide)).2.mpr
        (by decide)⟩,
   ⟨by rfl, fun h => by
      obtain ⟨v, hv⟩ :=
        (timestamp_accepted_iff Extern.failing (bytes "2021-13-04 05:06:07 +0000 UTC")).1.mpr h
      have he : parseElement Extern.failing.withTime (bytes "2021-13-04 05:06:07 +0000 UTC")
          (.plain .Struct (bytes "Time")) = .error (.err gotime.errRange) := by rfl
      rw [he] at hv
      cases hv⟩,
   ⟨by rfl, fun h => by
      obtain ⟨v, hv⟩ :=
        (timestamp_accepted_iff Extern.failing (bytes "2021-03-04 05:06:07 +0000")).1.mpr h
      have he : parseElement Extern.failing.withTime (bytes "2021-03-04 05:06:07 +0000")
          (.plain .Struct (bytes "Time")) = .error (.err gotime.errBad) := by rfl
      rw [he] at hv
      cases hv⟩,
   ⟨by rfl, fun h => by
      obtain ⟨v, hv⟩ :=
        (timestamp_accepted_iff Extern.failing (bytes "2021-03-04T05:06:07 +0000 UTC")).1.mpr h
      have he : parseElement Extern.failing.withTime (bytes "2021-03-04T05:06:07 +0000 UTC")
          (.plain .Struct (bytes "Time")) = .error (.err gotime.errBad) := by rfl
      rw [he] at hv
      cases hv⟩,
   ⟨by rfl, fun h => by
      obtain ⟨v, hv⟩ :=
        (timestamp_accepted_iff Extern.failing (bytes "2021-02-30 05:06:07 +0000 UTC")).1.mpr h
      have he : parseElement Extern.failing.withTime (bytes "2021-02-30 05:06:07 +0000 UTC")
          (.plain .Struct (bytes "Time")) = .error (.err gotime.errRange) := by rfl
      rw [he] at hv
      cases hv⟩,
   ⟨by rfl, fun h => by
      obtain ⟨v, hv⟩ :=
        (timestamp_accepted_iff Extern.failing (bytes "2021-03-04 05:06:07 +0000 UTC ")).1.mpr h
      have he : parseElement Extern.failing.withTime (bytes "2021-03-04 05:06:07 +0000 UTC ")
          (.plain .Struct (bytes "Time")) = .error (.err gotime.errExtra) := by rfl
      rw [he] at hv
      cases hv⟩⟩

end tsv

/-! ### Reader: a row with a short array field -/

namespace tsv

open reflect

/-- C10 fails on the code: on the record `["", "x"]` with column types `([]int32, int32)`
`parseElement` returns an error for field 1, yet `Reader.Read` returns neither an error
nor a nil row: it aborts at field 0 with the out-of-bounds panic that `parseSlice` raises
on an array field shorter than two bytes. The same happens when the short array field
comes after fields that were decoded, and when it is the only field. -/
theorem Read_aborts_on_short_array_field :
    parseElement Extern.failing (bytes "x") (.plain .Int32 (bytes "int32"))
      = .error (.err (.num "ParseInt" (bytes "x") false)) ∧
    Reader.Read Extern.failing (.ok [bytes "", bytes "x"])
        [.slice (.plain .Int32 (bytes "int32")), .plain .Int32 (bytes "int32")]
      = .error (.panic "slice bounds out of range") ∧
    Reader.Read Extern.failing (.ok [bytes "7", bytes "["])
        [.plain .Int32 (bytes "int32"), .slice (.plain .Int32 (bytes "int32"))]
      = .error (.panic "slice bounds out of range") ∧
    Reader.Read Extern.failing (.ok [bytes ""]) [.slice (.plain .String (bytes "string"))]
      = .error (.panic "slice bounds out of range") := by
  refine ⟨rfl, rfl, rfl, rfl⟩

end tsv
